import Mathlib

/-!
# PSK31 transmitter `psk31.c`

A shallow embedding of the parts of `src/psk/psk31.c` that decide the
differential-BPSK symbol table, the Varicode table, the modulation state
machine of `go_go_go` and the slot enqueue `tx_sym_enqueue`.

Conventions of the embedding.
* C `int` values that are never negative in the program (`b_len`, `b_val`,
  `ts_last`, array indices) are `Nat`; `option_timeout`, `fill_timeout` and
  `sendcount` are `Int`. No arithmetic of the embedded code can overflow 32 bits.
* A pointer to a control block is its address, a `Nat`; `NULL` is `0`.
  Control-block memory is a map from byte addresses to 32-bit words and the
  field `next` of `dma_cb_t` lies 20 bytes after the start of the block.
* `unsigned char` is `Fin 256`.
-/

namespace Psk31

/-! ## Symbols and the transition table -/

/-- The symbol kinds `SYM_L`, `SYM_H`, `SYM_LH`, `SYM_HL` of the anonymous enum. -/
inductive Sym where
  | SYM_L
  | SYM_H
  | SYM_LH
  | SYM_HL
  deriving DecidableEq, Repr

/-- The macro `TS_SHIFT`. -/
def TS_SHIFT : Nat := 4

/-- The macro `TS_COUNT`, `1 << TS_SHIFT`. -/
def TS_COUNT : Nat := 1 <<< TS_SHIFT

/-- One row `ts_next[s]` of the table: the entries for bit 0 and for bit 1. -/
def ts_next_row : Sym → Sym × Sym
  | .SYM_L => (.SYM_LH, .SYM_L)
  | .SYM_H => (.SYM_HL, .SYM_H)
  | .SYM_LH => (.SYM_HL, .SYM_H)
  | .SYM_HL => (.SYM_LH, .SYM_L)

/-- The table lookup `ts_next[s][b]`; the second index of the C array has two values. -/
def ts_next (s : Sym) (b : Fin 2) : Sym :=
  if b.val = 0 then (ts_next_row s).1 else (ts_next_row s).2

/-! ## Bursts and the Varicode table -/

/-- The struct `burst_t`: a number of bits and the bits, sent least significant first. -/
structure burst_t where
  b_len : Nat
  b_val : Nat
  deriving DecidableEq, Repr

def starting_burst : burst_t := ⟨20, 0⟩
def ending_burst : burst_t := ⟨20, 0x000fffff⟩
def fill_burst : burst_t := ⟨1, 0⟩
def idle_burst : burst_t := ⟨1, 1⟩

/-- The initialiser of `varicode_table`, entry by entry in source order. -/
def varicode_table : List burst_t := [
  burst_t.mk 12 0x0355, burst_t.mk 12 0x036d, burst_t.mk 12 0x02dd, burst_t.mk 12 0x03bb, burst_t.mk 12 0x035d, burst_t.mk 12 0x03eb, burst_t.mk 12 0x03dd, burst_t.mk 12 0x02fd,  -- 0 .. 7
  burst_t.mk 12 0x03fd, burst_t.mk 10 0x00f7, burst_t.mk 7 0x0017, burst_t.mk 12 0x03db, burst_t.mk 12 0x02ed, burst_t.mk 7 0x001f, burst_t.mk 12 0x02bb, burst_t.mk 12 0x0357,  -- 8 .. 15
  burst_t.mk 12 0x03bd, burst_t.mk 12 0x02bd, burst_t.mk 12 0x02d7, burst_t.mk 12 0x03d7, burst_t.mk 12 0x036b, burst_t.mk 12 0x035b, burst_t.mk 12 0x02db, burst_t.mk 12 0x03ab,  -- 16 .. 23
  burst_t.mk 12 0x037b, burst_t.mk 12 0x02fb, burst_t.mk 12 0x03b7, burst_t.mk 12 0x02ab, burst_t.mk 12 0x02eb, burst_t.mk 12 0x0377, burst_t.mk 12 0x037d, burst_t.mk 12 0x03fb,  -- 24 .. 31
  burst_t.mk 3 0x0001, burst_t.mk 11 0x01ff, burst_t.mk 11 0x01f5, burst_t.mk 11 0x015f, burst_t.mk 11 0x01b7, burst_t.mk 12 0x02ad, burst_t.mk 12 0x0375, burst_t.mk 11 0x01fd,  -- 32 .. 39
  burst_t.mk 10 0x00df, burst_t.mk 10 0x00ef, burst_t.mk 11 0x01ed, burst_t.mk 11 0x01f7, burst_t.mk 9 0x0057, burst_t.mk 8 0x002b, burst_t.mk 9 0x0075, burst_t.mk 11 0x01eb,  -- 40 .. 47
  burst_t.mk 10 0x00ed, burst_t.mk 10 0x00bd, burst_t.mk 10 0x00b7, burst_t.mk 10 0x00ff, burst_t.mk 11 0x01dd, burst_t.mk 11 0x01b5, burst_t.mk 11 0x01ad, burst_t.mk 11 0x016b,  -- 48 .. 55
  burst_t.mk 11 0x01ab, burst_t.mk 11 0x01db, burst_t.mk 10 0x00af, burst_t.mk 11 0x017b, burst_t.mk 11 0x016f, burst_t.mk 9 0x0055, burst_t.mk 11 0x01d7, burst_t.mk 12 0x03d5,  -- 56 .. 63
  burst_t.mk 12 0x02f5, burst_t.mk 9 0x005f, burst_t.mk 10 0x00d7, burst_t.mk 10 0x00b5, burst_t.mk 10 0x00ad, burst_t.mk 9 0x0077, burst_t.mk 10 0x00db, burst_t.mk 10 0x00bf,  -- 64 .. 71
  burst_t.mk 11 0x0155, burst_t.mk 9 0x007f, burst_t.mk 11 0x017f, burst_t.mk 11 0x017d, burst_t.mk 10 0x00eb, burst_t.mk 10 0x00dd, burst_t.mk 10 0x00bb, burst_t.mk 10 0x00d5,  -- 72 .. 79
  burst_t.mk 10 0x00ab, burst_t.mk 11 0x0177, burst_t.mk 10 0x00f5, burst_t.mk 9 0x007b, burst_t.mk 9 0x005b, burst_t.mk 11 0x01d5, burst_t.mk 11 0x015b, burst_t.mk 11 0x0175,  -- 80 .. 87
  burst_t.mk 11 0x015d, burst_t.mk 11 0x01bd, burst_t.mk 12 0x02d5, burst_t.mk 11 0x01df, burst_t.mk 11 0x01ef, burst_t.mk 11 0x01bf, burst_t.mk 12 0x03f5, burst_t.mk 11 0x016d,  -- 88 .. 95
  burst_t.mk 12 0x03ed, burst_t.mk 6 0x000d, burst_t.mk 9 0x007d, burst_t.mk 8 0x003d, burst_t.mk 8 0x002d, burst_t.mk 4 0x0003, burst_t.mk 8 0x002f, burst_t.mk 9 0x006d,  -- 96 .. 103
  burst_t.mk 8 0x0035, burst_t.mk 6 0x000b, burst_t.mk 11 0x01af, burst_t.mk 10 0x00fd, burst_t.mk 7 0x001b, burst_t.mk 8 0x0037, burst_t.mk 6 0x000f, burst_t.mk 5 0x0007,  -- 104 .. 111
  burst_t.mk 8 0x003f, burst_t.mk 11 0x01fb, burst_t.mk 7 0x0015, burst_t.mk 7 0x001d, burst_t.mk 5 0x0005, burst_t.mk 8 0x003b, burst_t.mk 9 0x006f, burst_t.mk 9 0x006b,  -- 112 .. 119
  burst_t.mk 10 0x00fb, burst_t.mk 9 0x005d, burst_t.mk 11 0x0157, burst_t.mk 12 0x03b5, burst_t.mk 11 0x01bb, burst_t.mk 12 0x02b5, burst_t.mk 12 0x03ad, burst_t.mk 12 0x02b7,  -- 120 .. 127
  burst_t.mk 12 0x02f7, burst_t.mk 12 0x03f7, burst_t.mk 12 0x02af, burst_t.mk 12 0x03af, burst_t.mk 12 0x036f, burst_t.mk 12 0x02ef, burst_t.mk 12 0x03ef, burst_t.mk 12 0x035f,  -- 128 .. 135
  burst_t.mk 12 0x02df, burst_t.mk 12 0x03df, burst_t.mk 12 0x02bf, burst_t.mk 12 0x03bf, burst_t.mk 12 0x037f, burst_t.mk 12 0x02ff, burst_t.mk 12 0x03ff, burst_t.mk 13 0x0555,  -- 136 .. 143
  burst_t.mk 13 0x0755, burst_t.mk 13 0x06d5, burst_t.mk 13 0x05d5, burst_t.mk 13 0x07d5, burst_t.mk 13 0x06b5, burst_t.mk 13 0x05b5, burst_t.mk 13 0x07b5, burst_t.mk 13 0x0575,  -- 144 .. 151
  burst_t.mk 13 0x0775, burst_t.mk 13 0x06f5, burst_t.mk 13 0x05f5, burst_t.mk 13 0x07f5, burst_t.mk 13 0x06ad, burst_t.mk 13 0x05ad, burst_t.mk 13 0x07ad, burst_t.mk 13 0x056d,  -- 152 .. 159
  burst_t.mk 13 0x076d, burst_t.mk 13 0x06ed, burst_t.mk 13 0x05ed, burst_t.mk 13 0x07ed, burst_t.mk 13 0x055d, burst_t.mk 13 0x075d, burst_t.mk 13 0x06dd, burst_t.mk 13 0x05dd,  -- 160 .. 167
  burst_t.mk 13 0x07dd, burst_t.mk 13 0x06bd, burst_t.mk 13 0x05bd, burst_t.mk 13 0x07bd, burst_t.mk 13 0x057d, burst_t.mk 13 0x077d, burst_t.mk 13 0x06fd, burst_t.mk 13 0x05fd,  -- 168 .. 175
  burst_t.mk 13 0x07fd, burst_t.mk 13 0x06ab, burst_t.mk 13 0x05ab, burst_t.mk 13 0x07ab, burst_t.mk 13 0x056b, burst_t.mk 13 0x076b, burst_t.mk 13 0x06eb, burst_t.mk 13 0x05eb,  -- 176 .. 183
  burst_t.mk 13 0x07eb, burst_t.mk 13 0x055b, burst_t.mk 13 0x075b, burst_t.mk 13 0x06db, burst_t.mk 13 0x05db, burst_t.mk 13 0x07db, burst_t.mk 13 0x06bb, burst_t.mk 13 0x05bb,  -- 184 .. 191
  burst_t.mk 13 0x07bb, burst_t.mk 13 0x057b, burst_t.mk 13 0x077b, burst_t.mk 13 0x06fb, burst_t.mk 13 0x05fb, burst_t.mk 13 0x07fb, burst_t.mk 13 0x0557, burst_t.mk 13 0x0757,  -- 192 .. 199
  burst_t.mk 13 0x06d7, burst_t.mk 13 0x05d7, burst_t.mk 13 0x07d7, burst_t.mk 13 0x06b7, burst_t.mk 13 0x05b7, burst_t.mk 13 0x07b7, burst_t.mk 13 0x0577, burst_t.mk 13 0x0777,  -- 200 .. 207
  burst_t.mk 13 0x06f7, burst_t.mk 13 0x05f7, burst_t.mk 13 0x07f7, burst_t.mk 13 0x06af, burst_t.mk 13 0x05af, burst_t.mk 13 0x07af, burst_t.mk 13 0x056f, burst_t.mk 13 0x076f,  -- 208 .. 215
  burst_t.mk 13 0x06ef, burst_t.mk 13 0x05ef, burst_t.mk 13 0x07ef, burst_t.mk 13 0x055f, burst_t.mk 13 0x075f, burst_t.mk 13 0x06df, burst_t.mk 13 0x05df, burst_t.mk 13 0x07df,  -- 216 .. 223
  burst_t.mk 13 0x06bf, burst_t.mk 13 0x05bf, burst_t.mk 13 0x07bf, burst_t.mk 13 0x057f, burst_t.mk 13 0x077f, burst_t.mk 13 0x06ff, burst_t.mk 13 0x05ff, burst_t.mk 13 0x07ff,  -- 224 .. 231
  burst_t.mk 14 0x0d55, burst_t.mk 14 0x0b55, burst_t.mk 14 0x0f55, burst_t.mk 14 0x0ad5, burst_t.mk 14 0x0ed5, burst_t.mk 14 0x0dd5, burst_t.mk 14 0x0bd5, burst_t.mk 14 0x0fd5,  -- 232 .. 239
  burst_t.mk 14 0x0ab5, burst_t.mk 14 0x0eb5, burst_t.mk 14 0x0db5, burst_t.mk 14 0x0bb5, burst_t.mk 14 0x0fb5, burst_t.mk 14 0x0d75, burst_t.mk 14 0x0b75, burst_t.mk 14 0x0f75,  -- 240 .. 247
  burst_t.mk 14 0x0af5, burst_t.mk 14 0x0ef5, burst_t.mk 14 0x0df5, burst_t.mk 14 0x0bf5, burst_t.mk 14 0x0ff5, burst_t.mk 14 0x0aad, burst_t.mk 14 0x0ead, burst_t.mk 14 0x0dad  -- 248 .. 255
  ]

/-- The lookup `varicode_table[b]` for an `unsigned char` index. -/
def varicode (b : Fin 256) : burst_t :=
  varicode_table.getD b.val ⟨0, 0⟩

/-! ## Engine ring state and `tx_sym_enqueue` -/

/-- The struct `bs_info_t`: bus address of the first CB and pointer to the last CB. -/
structure bs_info_t where
  physaddr : Nat
  cb_last : Nat

/-- The struct `ts_info_t`: one chain per symbol and the bus address of the slot. -/
structure ts_info_t where
  bs : Sym → bs_info_t
  physaddr : Nat

/-- Byte offset of the field `next` in `dma_cb_t` (sixth 32-bit word). -/
def CB_NEXT : Nat := 20

/-- The globals `ts_info`, `ts_last`, `ts_last_cbp`, `ts_last_sym` and the CB memory. -/
structure Engine where
  ts_info : Nat → ts_info_t
  ts_last : Nat
  ts_last_cbp : Nat
  ts_last_sym : Sym
  mem : Nat → Nat

/-- The macro `out32(a, v)`: store the word `v` at address `a`. -/
def out32 (a v : Nat) (mem : Nat → Nat) : Nat → Nat :=
  fun x => if x = a then v else mem x

/-- The function `tx_sym_enqueue(s)`. -/
def tx_sym_enqueue (s : Sym) (e : Engine) : Engine :=
  let ts_last := if e.ts_last_cbp = 0 then 0 else (e.ts_last + 1) % TS_COUNT
  let bs := (e.ts_info ts_last).bs s
  let mem1 := out32 (bs.cb_last + CB_NEXT) 0 e.mem
  let mem2 := if e.ts_last_cbp ≠ 0 then out32 (e.ts_last_cbp + CB_NEXT) bs.physaddr mem1 else mem1
  { e with ts_last := ts_last, mem := mem2, ts_last_cbp := bs.cb_last, ts_last_sym := s }

/-! ## The modulation state machine of `go_go_go` -/

/-- The local enum of `go_go_go`. -/
inductive State where
  | STATE_START
  | STATE_SEND
  | STATE_FILL
  | STATE_STOP
  | STATE_IDLE
  deriving DecidableEq, Repr

/-- The macro `SENDSIZE`. -/
def SENDSIZE : Nat := 128

/-- The locals of `go_go_go` that the feed loop reads and writes. -/
structure GoState where
  sendbuf : Nat → Fin 256
  sendread : Nat
  sendwrite : Nat
  sendcount : Int
  curburst : burst_t
  state : State
  fill_timeout : Int

/-- One pass through the `switch (state)` in the body of `while (curburst.b_len == 0)`. -/
def fsm_step (option_timeout : Int) (g : GoState) : GoState :=
  match g.state with
  | .STATE_START => { g with state := .STATE_SEND }
  | .STATE_SEND =>
    if g.sendcount ≠ 0 then
      { g with
        curburst := varicode (g.sendbuf g.sendread)
        sendcount := g.sendcount - 1
        sendread := if g.sendread + 1 = SENDSIZE then 0 else g.sendread + 1 }
    else
      { g with fill_timeout := option_timeout, state := .STATE_FILL }
  | .STATE_FILL =>
    if g.sendcount ≠ 0 then
      { g with state := .STATE_SEND }
    else if g.fill_timeout ≠ 0 then
      { g with
        curburst := fill_burst
        fill_timeout := if g.fill_timeout > 0 then g.fill_timeout - 1 else g.fill_timeout }
    else
      { g with state := .STATE_STOP, curburst := ending_burst }
  | .STATE_STOP => { g with state := .STATE_IDLE }
  | .STATE_IDLE =>
    if option_timeout < 0 ∨ g.sendcount ≠ 0 then
      { g with state := .STATE_START, curburst := starting_burst }
    else
      { g with curburst := idle_burst }

/-- The loop `while (curburst.b_len == 0) switch (state) ...`, with a bound on the
number of passes; `none` when the bound is used up before a burst is loaded. -/
def get_burst (option_timeout : Int) : Nat → GoState → Option GoState
  | 0, g => if g.curburst.b_len = 0 then none else some g
  | fuel + 1, g =>
    if g.curburst.b_len = 0 then get_burst option_timeout fuel (fsm_step option_timeout g)
    else some g

/-- The bit `curburst.b_val & 1` as an index into a row of `ts_next`. -/
def burst_bit (b : burst_t) : Fin 2 :=
  ⟨b.b_val &&& 1, Nat.lt_succ_of_le Nat.and_le_right⟩

/-- The statements `curburst.b_val >>= 1; curburst.b_len--;`. -/
def burst_shift (b : burst_t) : burst_t :=
  ⟨b.b_len - 1, b.b_val >>> 1⟩

/-- The statement `tx_sym_enqueue(ts_next[ts_last_sym][bit])` of the feed loop. -/
def tx_bit (bit : Fin 2) (e : Engine) : Engine :=
  tx_sym_enqueue (ts_next e.ts_last_sym bit) e

/-- The body of the loop `for (n = ...; n > 0; n--)`: get a burst, send one bit of it.
The result also reports the bit that was sent. -/
def feed_bit (option_timeout : Int) (fuel : Nat) (g : GoState) (e : Engine) :
    Option (Fin 2 × GoState × Engine) :=
  match get_burst option_timeout fuel g with
  | none => none
  | some g1 =>
    some (burst_bit g1.curburst,
          { g1 with curburst := burst_shift g1.curburst },
          tx_bit (burst_bit g1.curburst) e)

/-- The loop `for (n = TS_COUNT - 1 - tx_sym_pending(); n > 0; n--)` run for `n`
passes; the result lists the bits sent, in order, with the final state. -/
def feed_hw (option_timeout : Int) (fuel : Nat) :
    Nat → GoState → Engine → Option (List (Fin 2) × GoState × Engine)
  | 0, g, e => some ([], g, e)
  | n + 1, g, e =>
    match feed_bit option_timeout fuel g e with
    | none => none
    | some (b, g1, e1) =>
      match feed_hw option_timeout fuel n g1 e1 with
      | none => none
      | some (bs, g2, e2) => some (b :: bs, g2, e2)


/-- The symbols handed to `tx_sym_enqueue` when the bits `bits` are sent one after the
other by the statement `tx_sym_enqueue(ts_next[ts_last_sym][bit])`. -/
def tx_bits : List (Fin 2) → Engine → List Sym
  | [], _ => []
  | b :: bs, e => ts_next e.ts_last_sym b :: tx_bits bs (tx_bit b e)

/-! ## Double arithmetic

The C code computes the envelope levels in `double`. Every arithmetic operation on doubles
returns the binary64 number nearest to the exact result, ties to the even significand. The
definitions of the shape functions and of `init_bs` below take the rounding `rnd` of an
operation's exact result as a parameter: `rnd64` is the arithmetic of the program, the
identity is the real-number model. Overflow to infinity and division by zero are not
modelled (`rnd64` has no largest number, `x / 0` is `0`): in `init_bs` only the argument of
`exp` can leave the finite range, for `option_rc` above about `1.8e302`, and for a positive
double `option_rc` the divisor `1000000.0 * option_rc` is not zero. -/

/-- Round to the nearest integer, ties to the even integer. -/
def rne (x : ℚ) : ℤ :=
  if x - ⌊x⌋ < 1 / 2 then ⌊x⌋
  else if 1 / 2 < x - ⌊x⌋ then ⌊x⌋ + 1
  else if ⌊x⌋ % 2 = 0 then ⌊x⌋ else ⌊x⌋ + 1

/-- The exponent of the unit in the last place of the binary64 numbers near `x`: 52 below
the binary exponent of `x` for a normal number, `-1074` in the subnormal range. -/
def ulp_exp (x : ℚ) : ℤ :=
  if x = 0 then -1074 else max (Int.log 2 |x| - 52) (-1074)

/-- The binary64 number nearest to `x`, ties to even: the result of a C operation on
doubles whose exact result is `x`. -/
def rnd64 (x : ℚ) : ℚ :=
  (rne (x / 2 ^ ulp_exp x) : ℚ) * 2 ^ ulp_exp x

/-- The properties of a rounding `rnd` that the level proofs use, with `ε` the largest
rounding error on `[0, 1]`. They hold of `rnd64` with `ε = 2 ^ (-54)` and of the identity
with `ε = 0`. -/
structure fp_round {K : Type} [LinearOrderedField K] (rnd : K → K) (ε : K) : Prop where
  eps_nonneg : 0 ≤ ε
  sign : ∀ x, (0 ≤ x → 0 ≤ rnd x) ∧ (x ≤ 0 → rnd x ≤ 0)
  half_grid : ∀ (x : K) (n : ℤ), |x| ≤ 1 →
    (x ≤ n / 2 → rnd x ≤ n / 2) ∧ ((n : K) / 2 ≤ x → (n : K) / 2 ≤ rnd x)
  err : ∀ x, 0 ≤ x → x ≤ 1 → |rnd x - x| ≤ ε
  le_one : ∀ x, 0 ≤ x → x ≤ 1 + 2 * ε → rnd x ≤ 1
  exact_upper : ∀ x, 1 / 2 ≤ x → x ≤ 1 →
    rnd (rnd x) = rnd x ∧ rnd (rnd x - 1 / 2) = rnd x - 1 / 2 ∧
    rnd (1 / 2 - rnd x) = 1 / 2 - rnd x ∧ rnd (1 - rnd x) = 1 - rnd x

/-! ## Envelope shape functions

The C functions compute in `double` with `cos` of the C library and `pi = atan(1) * 4`.
They are embedded over a field `K`, with the rounding `rnd` of each arithmetic result, the
cosine and the value of `pi` as parameters; `0.5` is written `1 / 2`. Every operation of a
C expression is rounded on its own (no fused multiply-add). -/

section Shape

variable {K : Type} [Field K]

/-- The macro `LEVEL_MIN`, with `option_amplitude` as argument. -/
def LEVEL_MIN (rnd : K → K) (option_amplitude : K) : K :=
  rnd (1 / 2 - rnd (option_amplitude / 2))

/-- The macro `LEVEL_MAX`, with `option_amplitude` as argument. -/
def LEVEL_MAX (rnd : K → K) (option_amplitude : K) : K :=
  rnd (1 / 2 + rnd (option_amplitude / 2))

/-- The macro `LEVEL_MED`. -/
def LEVEL_MED : K := 1 / 2

def sym_l_fn (rnd : K → K) (option_amplitude : K) (_t : K) : K := LEVEL_MIN rnd option_amplitude

def sym_h_fn (rnd : K → K) (option_amplitude : K) (_t : K) : K := LEVEL_MAX rnd option_amplitude

def sym_lh_fn (rnd : K → K) (cos : K → K) (pi : K) (option_amplitude : K) (t : K) : K :=
  rnd (LEVEL_MED - rnd (cos (rnd (pi * t)) * rnd (LEVEL_MAX rnd option_amplitude - LEVEL_MED)))

def sym_hl_fn (rnd : K → K) (cos : K → K) (pi : K) (option_amplitude : K) (t : K) : K :=
  rnd (LEVEL_MED + rnd (cos (rnd (pi * t)) * rnd (LEVEL_MAX rnd option_amplitude - LEVEL_MED)))

/-- The field `sd_fn` of the entry `sym_def[s]`. -/
def sym_def (rnd : K → K) (cos : K → K) (pi : K) (option_amplitude : K) : Sym → K → K
  | .SYM_L => sym_l_fn rnd option_amplitude
  | .SYM_H => sym_h_fn rnd option_amplitude
  | .SYM_LH => sym_lh_fn rnd cos pi option_amplitude
  | .SYM_HL => sym_hl_fn rnd cos pi option_amplitude

end Shape

/-! ## Decoding a Varicode codeword

The program only encodes. The decoder below follows the round-trip property (P3) of
the specification: it searches the table for the codeword. -/

/-- The byte whose table entry is the codeword `c`, if there is one. -/
def varicode_decode (c : burst_t) : Option (Fin 256) :=
  if h : varicode_table.indexOf c < 256 then some ⟨varicode_table.indexOf c, h⟩ else none

/-! ## Bit streams of bursts -/

/-- The bits of a burst in the order the feed loop sends them: `n` times the bit
`b_val & 1` followed by the shift of the burst. -/
def burst_bits_aux : Nat → burst_t → List (Fin 2)
  | 0, _ => []
  | n + 1, b => burst_bit b :: burst_bits_aux n (burst_shift b)

/-- All `b_len` bits of a burst, least significant first. -/
def burst_bits (b : burst_t) : List (Fin 2) :=
  burst_bits_aux b.b_len b

/-- The bit stream of the codewords of the bytes `msg`, one after the other. -/
def varicode_stream : List (Fin 256) → List (Fin 2)
  | [] => []
  | b :: bs => burst_bits (varicode b) ++ varicode_stream bs

/-- The sum of the codeword lengths of the bytes `msg`. -/
def varicode_total : List (Fin 256) → Nat
  | [] => 0
  | b :: bs => (varicode b).b_len + varicode_total bs

/-- Bit `i` of the value `v`, counted from the least significant bit. -/
def bit_at (v i : Nat) : Nat := v / 2 ^ i % 2

/-- The shape of a table entry: 3 to 14 bits, the last two sent are 0, the first and the
third from last are 1, and no two neighbouring bits before the last two are both 0. -/
def codeword_ok (e : burst_t) : Prop :=
  3 ≤ e.b_len ∧ e.b_len ≤ 14 ∧ e.b_val < 2 ^ (e.b_len - 2) ∧
  bit_at e.b_val (e.b_len - 2) = 0 ∧ bit_at e.b_val (e.b_len - 1) = 0 ∧
  bit_at e.b_val 0 = 1 ∧ bit_at e.b_val (e.b_len - 3) = 1 ∧
  ∀ i, i < e.b_len - 3 → ¬ (bit_at e.b_val i = 0 ∧ bit_at e.b_val (i + 1) = 0)

instance : DecidablePred codeword_ok := fun e => by
  unfold codeword_ok
  infer_instance

/-! ## Example inputs -/

/-- The value of a symbol in the C enum. -/
def sym_index : Sym → Nat
  | .SYM_L => 0
  | .SYM_H => 1
  | .SYM_LH => 2
  | .SYM_HL => 3

/-- A slot table for the examples: the chain of slot `ts` and symbol `s` has a page of its
own, with its first CB at the start of the page and its last CB at offset `0xfe0`. -/
def example_ts_info (ts : Nat) : ts_info_t :=
  { bs := fun s =>
      { physaddr := 0x40000000 + 0x1000 * (4 * ts + sym_index s)
        cb_last := 0x100000 + 0x1000 * (4 * ts + sym_index s) + 0xfe0 }
    physaddr := 0x40000000 + 0x4000 * ts }

/-- The engine before the first enqueue: `ts_last_cbp` is `NULL`, cleared CB memory. -/
def example_engine : Engine :=
  { ts_info := example_ts_info, ts_last := 0, ts_last_cbp := 0, ts_last_sym := .SYM_H,
    mem := fun _ => 0 }

/-- The locals of `go_go_go` with `n` buffered copies of the byte `b`, in state `IDLE`
with an empty burst. -/
def example_go (b : Fin 256) (n : Nat) : GoState :=
  { sendbuf := fun _ => b, sendread := 0, sendwrite := n % 128, sendcount := n,
    curburst := ⟨0, 0⟩, state := .STATE_IDLE, fill_timeout := 0 }

/-! ## Counting symbols up to a transition -/

/-- Whether the loop `while (curburst.b_len == 0)`, run from `g`, takes the state machine
into state `s` (the bound `fuel` is as in `get_burst`). -/
def burst_loop_enters (option_timeout : Int) (s : State) : Nat → GoState → Bool
  | 0, _ => false
  | fuel + 1, g =>
    if g.curburst.b_len = 0 then
      decide ((fsm_step option_timeout g).state = s) ||
        burst_loop_enters option_timeout s fuel (fsm_step option_timeout g)
    else false

/-- The number of passes of the feed loop, that is of symbols enqueued, that come before
the pass in which the state machine enters state `s`, looking at most `n` passes ahead. -/
def syms_until (option_timeout : Int) (s : State) (fuel : Nat) :
    Nat → GoState → Engine → Option Nat
  | 0, _, _ => none
  | n + 1, g, e =>
    if burst_loop_enters option_timeout s fuel g then some 0
    else
      match feed_bit option_timeout fuel g e with
      | none => none
      | some (_, g1, e1) => (syms_until option_timeout s fuel n g1 e1).map (· + 1)

/-! ## Input arrival and the steps of `go_go_go` -/

/-- The largest count `n` handed to `read`: `SENDSIZE - sendcount`, limited to
`SENDSIZE - sendwrite`. -/
def read_max (g : GoState) : Int :=
  if (SENDSIZE : Int) - g.sendcount > (SENDSIZE : Int) - g.sendwrite then
    (SENDSIZE : Int) - g.sendwrite
  else (SENDSIZE : Int) - g.sendcount

/-- The effect of one successful `read(fd_send, &sendbuf[sendwrite], n)` that returned
the bytes `data` (so `ss = data.length`): the bytes are stored from `sendwrite` on,
`sendcount += ss`, and `sendwrite` advances, wrapping at `SENDSIZE`. -/
def buf_read (data : List (Fin 256)) (g : GoState) : GoState :=
  { g with
    sendbuf := fun i =>
      if g.sendwrite ≤ i then data.getD (i - g.sendwrite) (g.sendbuf i) else g.sendbuf i
    sendcount := g.sendcount + data.length
    sendwrite :=
      if g.sendwrite + data.length = SENDSIZE then 0 else g.sendwrite + data.length }

/-- The steps that change the locals of `go_go_go`: a pass of the state machine when the
burst is empty, the shift of the burst when a bit is sent, and a successful read of
`1 <= ss <= n` bytes while `sendcount < SENDSIZE`. -/
inductive Step (option_timeout : Int) : GoState → GoState → Prop
  | fsm (g : GoState) : g.curburst.b_len = 0 →
      Step option_timeout g (fsm_step option_timeout g)
  | send (g : GoState) : g.curburst.b_len ≠ 0 →
      Step option_timeout g { g with curburst := burst_shift g.curburst }
  | read (g : GoState) (data : List (Fin 256)) : g.sendcount < SENDSIZE →
      0 < data.length → (data.length : Int) ≤ read_max g →
      Step option_timeout g (buf_read data g)

/-- The locals of `go_go_go` when its loop `for (;;)` is entered: `sendread = sendwrite =
0; sendcount = 0; curburst.b_len = 0; curburst.b_val = 0; state = STATE_IDLE;` and
`fill_timeout = 0` from its initialiser. The array `sendbuf` is not initialised; its
contents are the argument. -/
def go_init (sendbuf : Nat → Fin 256) : GoState :=
  { sendbuf := sendbuf, sendread := 0, sendwrite := 0, sendcount := 0,
    curburst := ⟨0, 0⟩, state := .STATE_IDLE, fill_timeout := 0 }

/-! ## Pending slots and the feed batch -/

/-- The binary search of `tx_sym_pending`: `while (u > l + 1)` halve the range, keeping in
`l` the last slot whose `physaddr` is not above `phys`. The result is the final `l`. -/
def ts_search (ts_info : Nat → ts_info_t) (phys : Nat) (l u : Nat) : Nat :=
  if u > l + 1 then
    if phys ≥ (ts_info ((l + u) / 2)).physaddr then ts_search ts_info phys ((l + u) / 2) u
    else ts_search ts_info phys l ((l + u) / 2)
  else l
termination_by u - l
decreasing_by
  all_goals simp_wf
  all_goals omega

/-- The function `tx_sym_pending`, with the value `phys` read from `dma_reg[DMA_CONBLK_AD]`
as argument; `none` stands for the call of `fatal`. The C expression
`(ts_last - l) & (TS_COUNT - 1)` on `int` is the remainder modulo 16 in `0..15`. -/
def tx_sym_pending (e : Engine) (phys : Nat) : Option Nat :=
  if phys = 0 then none
  else
    some ((((e.ts_last : Int) - (ts_search e.ts_info phys 0 TS_COUNT : Int)) %
      (TS_COUNT : Int)).toNat)

/-- A slot table for the examples with bus addresses that increase with the slot. -/
def example_engine_mid : Engine :=
  { example_engine with ts_last := 9, ts_last_cbp := ((example_ts_info 9).bs .SYM_H).cb_last }

/-! ## Status connections: `stat_write` -/

/-- The fields of `stat_t` that `stat_write` uses: the offset `s_read` into the payload
and the counter `s_count`, which `stat_accept` sets to the payload length. -/
structure stat_t where
  s_read : Int
  s_count : Int
  deriving DecidableEq, Repr

/-- The result of `send`: a byte count `ss >= 0`, or `-1` with `errno == EPIPE`, or `-1`
with another `errno`. -/
inductive SendResult where
  | sent (ss : Nat)
  | epipe
  | error
  deriving DecidableEq, Repr

/-- What `stat_write` does with a connection after a `send`: keep it in the list, close
and free it, or call `fatal`. -/
inductive StatOutcome where
  | keep (s : stat_t)
  | close
  | fatal
  deriving DecidableEq, Repr

/-- The state of a connection as `stat_accept` creates it for a payload of `n` bytes. -/
def stat_accept_conn (n : Nat) : stat_t :=
  { s_read := 0, s_count := n }

/-- The second and third argument of the call of `send` in `stat_write`: the offset
`s_read` added to `s_buf` and the length `s_count - s_read`. -/
def stat_send_args (s : stat_t) : Int × Int :=
  (s.s_read, s.s_count - s.s_read)

/-- The body of the loop of `stat_write` for a writable connection, given the result of
its `send`. -/
def stat_write_conn (s : stat_t) (r : SendResult) : StatOutcome :=
  match r with
  | .error => .fatal
  | .epipe => .close
  | .sent ss =>
    if s.s_count - ss ≠ 0 then .keep { s_read := s.s_read + ss, s_count := s.s_count - ss }
    else .close

/-! ## The carrier clock: MASH stage of `clock_start` -/

/-- The entries of the local table `dt` of `clock_start`. -/
structure dt_entry where
  divi_min : Nat
  divi_dec : Nat
  divi_inc : Nat
  deriving DecidableEq, Repr

/-- The table `dt` of `clock_start`. -/
def clock_dt : List dt_entry := [⟨2, 0, 1⟩, ⟨3, 1, 2⟩, ⟨5, 3, 4⟩]

/-- The loop `for (; mash; mash--)` of `clock_start` on the `uint32_t` value `mash`;
`none` when `dt[mash - 1]` lies outside the three entries of `dt`. -/
def mash_loop (divi : Nat) : Nat → Option Nat
  | 0 => some 0
  | m + 1 =>
    match clock_dt[m]? with
    | none => none
    | some d =>
      if divi < d.divi_min then mash_loop divi m
      else if divi < 500 / 25 + d.divi_dec then mash_loop divi m
      else if divi > 4095 - d.divi_inc then mash_loop divi m
      else some (m + 1)

/-- The choice of `mash` in `clock_start`; the conversions of the `int option_mash` to
the `uint32_t mash` are taken modulo `2^32`. -/
def mash_select (option_mash : Int) (divi : Nat) : Option Nat :=
  if option_mash ≥ -3 ∧ option_mash ≤ 0 then some ((-option_mash) % 2 ^ 32).toNat
  else mash_loop divi (if option_mash ≥ 3 then 3 else (option_mash % 2 ^ 32).toNat)

/-- The struct `clock_cb_t`. -/
structure clock_cb_t where
  c_div : Nat
  c_mash : Int
  deriving DecidableEq, Repr

/-- The word offsets `CM_GP0CTL` and `CM_GP0DIV` in `clk_reg`. -/
def CM_GP0CTL : Nat := 0x70 / 4

def CM_GP0DIV : Nat := 0x74 / 4

/-- The part `Setup new frequency` of `clock_start` for the divider `div`: the list of
writes `(register, value)` to `clk_reg` in order and the new `clock_cb`. An early
`return` makes no write; `none` when `dt` is read outside its entries. -/
def clock_setup (option_mash : Int) (div : Nat) (cb : clock_cb_t) :
    Option (List (Nat × Nat) × clock_cb_t) :=
  if div >>> 12 < 1 ∨ div > 0x00fff000 then some ([], cb)
  else
    match mash_select option_mash (div >>> 12) with
    | none => none
    | some mash =>
      some ([(CM_GP0DIV, 0x5a000000 ||| div),
             (CM_GP0CTL, (0x5a000006 ||| (mash <<< 9)) % 2 ^ 32),
             (CM_GP0CTL, (0x5a000006 ||| (mash <<< 9)) % 2 ^ 32 ||| 0x00000010)],
            { c_div := div, c_mash := mash })

/-- The feasibility of MASH stage `m` for the integer divider `divi`, with the constants
of the specification: `(divi_min, divi_dec, divi_inc)` is `(2, 0, 1)`, `(3, 1, 2)`,
`(5, 3, 4)` for `m = 1, 2, 3`. -/
def mash_feasible (m divi : Nat) : Prop :=
  (m = 1 ∧ 2 ≤ divi ∧ 20 + 0 ≤ divi ∧ divi ≤ 4095 - 1) ∨
  (m = 2 ∧ 3 ≤ divi ∧ 20 + 1 ≤ divi ∧ divi ≤ 4095 - 2) ∨
  (m = 3 ∧ 5 ≤ divi ∧ 20 + 3 ≤ divi ∧ divi ≤ 4095 - 4)

/-! ## The waveform compiler: `init_bs` and `init_ctrl_data` -/

def PULSE_WIDTH_INCR_US : Nat := 10

def BS_US : Nat := 32000

/-- The macro `BS_SAMPLES`, 3200 sub-samples for each symbol. -/
def BS_SAMPLES : Nat := BS_US / PULSE_WIDTH_INCR_US

def SYM_COUNT : Nat := 4

def NUM_SAMPLES : Nat := BS_SAMPLES * SYM_COUNT * TS_COUNT

def NUM_CBS : Nat := NUM_SAMPLES * 3

def PAGE_SIZE : Nat := 4096

def PAGE_SHIFT : Nat := 12

/-- The macro `NUM_PAGES_CBS`, the number of pages that hold control blocks. -/
def NUM_PAGES_CBS : Nat := (NUM_CBS * 32 + PAGE_SIZE - 1) >>> PAGE_SHIFT

def GPIO_POS_NUM : Nat := 17

def GPIO_NEG_NUM : Nat := 18

def DMA_NO_WIDE_BURSTS : Nat := 1 <<< 26

def DMA_WAIT_RESP : Nat := 1 <<< 3

def DMA_D_DREQ : Nat := 1 <<< 6

def DMA_PER_MAP (x : Nat) : Nat := x <<< 16

def PWM_BASE : Nat := 0x2020C000

def PCM_BASE : Nat := 0x20203000

def DELAY_VIA_PWM : Nat := 0

def DELAY_VIA_PCM : Nat := 1

/-- The struct `page_map_t`: start of a page as a pointer and as a bus address. -/
structure page_map_t where
  virtaddr : Nat
  physaddr : Nat

/-- The function `cb_offset_to_phys`, in `uint32_t` arithmetic; `phys_info` is the array
of `NUM_PAGES_CBS` entries, given as a function of the index. -/
def cb_offset_to_phys (phys_info : Nat → page_map_t) (cb_offset : Nat) : Nat :=
  ((phys_info (cb_offset >>> PAGE_SHIFT)).physaddr + cb_offset % PAGE_SIZE) % 2 ^ 32

/-- The function `cb_offset_to_virt`. -/
def cb_offset_to_virt (phys_info : Nat → page_map_t) (cb_offset : Nat) : Nat :=
  (phys_info (cb_offset >>> PAGE_SHIFT)).virtaddr + cb_offset % PAGE_SIZE

/-- Byte offsets of the fields `info`, `src`, `dst`, `length`, `stride` of `dma_cb_t`. -/
def CB_INFO : Nat := 0

def CB_SRC : Nat := 4

def CB_DST : Nat := 8

def CB_LENGTH : Nat := 12

def CB_STRIDE : Nat := 16

/-- What `init_bs` takes from its surroundings: the array `phys_info`, the global
`delay_hw`, and its arguments `phys_sample_pos` and `phys_sample_neg`. -/
structure bs_env where
  phys_info : Nat → page_map_t
  delay_hw : Nat
  phys_sample_pos : Nat
  phys_sample_neg : Nat

/-- The local `cbp_info` of `init_bs`. -/
def bs_env.cbp_info (env : bs_env) : Nat :=
  if env.delay_hw = DELAY_VIA_PWM then
    DMA_NO_WIDE_BURSTS ||| DMA_WAIT_RESP ||| DMA_D_DREQ ||| DMA_PER_MAP 5
  else DMA_NO_WIDE_BURSTS ||| DMA_WAIT_RESP ||| DMA_D_DREQ ||| DMA_PER_MAP 2

/-- The local `phys_fifo_addr` of `init_bs`. -/
def bs_env.phys_fifo_addr (env : bs_env) : Nat :=
  if env.delay_hw = DELAY_VIA_PWM then (PWM_BASE ||| 0x7e000000) + 0x18
  else (PCM_BASE ||| 0x7e000000) + 0x04

def phys_gpclr0 : Nat := 0x7e200000 + 0x28

def phys_gpset0 : Nat := 0x7e200000 + 0x1c

/-- The five stores `cbp->info = ..; cbp->src = ..; cbp->dst = ..; cbp->length = 4;
cbp->stride = 0;` in this order. -/
def cb_write (cbp info src dst : Nat) (mem : Nat → Nat) : Nat → Nat :=
  out32 (cbp + CB_STRIDE) 0
    (out32 (cbp + CB_LENGTH) 4
      (out32 (cbp + CB_DST) dst
        (out32 (cbp + CB_SRC) src
          (out32 (cbp + CB_INFO) info mem))))

/-- The locals `cbp`, `cb_offset`, `up_old` of `init_bs` and the CB memory. -/
structure bs_cb_t where
  cbp : Nat
  cb_offset : Nat
  up_old : Bool
  mem : Nat → Nat

/-- The stores of one pass of the loop of `init_bs` for sub-sample `i`, given the drive
decision `up` of this pass: link the previous CB, write the two GPIO CBs if `i == 0` or
the decision changed, write the delay CB. -/
def init_bs_cbs (env : bs_env) (i : Nat) (up : Bool) (c : bs_cb_t) : bs_cb_t :=
  let mem0 :=
    if c.cbp ≠ 0 then
      out32 (c.cbp + CB_NEXT) (cb_offset_to_phys env.phys_info c.cb_offset) c.mem
    else c.mem
  if i = 0 ∨ c.up_old ≠ up then
    let cbp1 := cb_offset_to_virt env.phys_info c.cb_offset
    let mem1 := cb_write cbp1 (DMA_NO_WIDE_BURSTS ||| DMA_WAIT_RESP) env.phys_sample_pos
      (if up then phys_gpset0 else phys_gpclr0) mem0
    let mem2 := out32 (cbp1 + CB_NEXT) (cb_offset_to_phys env.phys_info (c.cb_offset + 32)) mem1
    let cbp2 := cb_offset_to_virt env.phys_info (c.cb_offset + 32)
    let mem3 := cb_write cbp2 (DMA_NO_WIDE_BURSTS ||| DMA_WAIT_RESP) env.phys_sample_neg
      (if up then phys_gpclr0 else phys_gpset0) mem2
    let mem4 := out32 (cbp2 + CB_NEXT)
      (cb_offset_to_phys env.phys_info (c.cb_offset + 32 + 32)) mem3
    let cbp3 := cb_offset_to_virt env.phys_info (c.cb_offset + 32 + 32)
    { cbp := cbp3, cb_offset := c.cb_offset + 32 + 32 + 32, up_old := up,
      mem := cb_write cbp3 env.cbp_info env.phys_sample_pos env.phys_fifo_addr mem4 }
  else
    let cbp3 := cb_offset_to_virt env.phys_info c.cb_offset
    { cbp := cbp3, cb_offset := c.cb_offset + 32, up_old := up,
      mem := cb_write cbp3 env.cbp_info env.phys_sample_pos env.phys_fifo_addr mem0 }

section Levels

variable {K : Type} [LinearOrderedField K]

/-- The arithmetic of one pass of the loop of `init_bs` for sub-sample `i`: the target
`v`, the decision `up = (v > v_old)`, the new filter state `v_new` and the update of
`level_error_max`, with the rounding `rnd` of each arithmetic result. The result is
`(up, v_new, level_error_max)`. -/
def bs_level (rnd : K → K) (sd_fn : K → K) (mean_decay mean_weight : K) (i : Nat)
    (v_old level_error_max : K) : Bool × K × K :=
  let v := sd_fn (rnd (((i + 1 : Nat) : K) / (BS_SAMPLES : K)))
  let up := decide (v > v_old)
  let v_new := if up then rnd (rnd (v_old * mean_decay) + mean_weight)
    else rnd (v_old * mean_decay)
  let v_error := |rnd (v - v_new)|
  (up, v_new, if v_error > level_error_max then v_error else level_error_max)

/-- The loop `for (i = 0; i < BS_SAMPLES; i++)` of `init_bs`, for `k` passes from
sub-sample `i` on; the state is the CB part, `v_old` and `level_error_max`. -/
def init_bs_loop (env : bs_env) (rnd : K → K) (sd_fn : K → K) (mean_decay mean_weight : K) :
    Nat → Nat → bs_cb_t × K × K → bs_cb_t × K × K
  | 0, _, st => st
  | k + 1, i, (c, v_old, lem) =>
    init_bs_loop env rnd sd_fn mean_decay mean_weight k (i + 1)
      (init_bs_cbs env i (bs_level rnd sd_fn mean_decay mean_weight i v_old lem).1 c,
       (bs_level rnd sd_fn mean_decay mean_weight i v_old lem).2.1,
       (bs_level rnd sd_fn mean_decay mean_weight i v_old lem).2.2)

/-- The function `init_bs` for the shape function `sd_fn`, with the rounding `rnd`, the
exponential function of the C library and `option_rc` as parameters. The result is the entry `*bs`, the returned `cb_offset`,
the CB memory and `level_error_max`. -/
def init_bs (env : bs_env) (rnd : K → K) (sd_fn : K → K) (exp : K → K) (option_rc : K)
    (cb_offset : Nat) (mem : Nat → Nat) (level_error_max : K) :
    bs_info_t × Nat × (Nat → Nat) × K :=
  let mean_decay := exp (rnd (-(PULSE_WIDTH_INCR_US : K) / rnd (1000000 * option_rc)))
  let mean_weight := rnd (1 - mean_decay)
  let st := init_bs_loop env rnd sd_fn mean_decay mean_weight BS_SAMPLES 0
    ({ cbp := 0, cb_offset := cb_offset, up_old := false, mem := mem }, sd_fn 0,
     level_error_max)
  ({ physaddr := cb_offset_to_phys env.phys_info cb_offset, cb_last := st.1.cbp },
   st.1.cb_offset, st.1.mem, st.2.2)

/-- The globals and locals that `init_ctrl_data` changes. -/
structure ctrl_t (K : Type) where
  ts_info : Nat → ts_info_t
  cb_offset : Nat
  mem : Nat → Nat
  level_error_max : K

/-- The loop `for (s = 0; s < SYM_COUNT; s++)` of `init_ctrl_data` for slot `ts`, over
the symbols `syms` that remain. -/
def init_ctrl_syms (env : bs_env) (rnd : K → K) (cos : K → K) (pi : K) (exp : K → K)
    (option_amplitude option_rc : K) (ts : Nat) : List Sym → ctrl_t K → ctrl_t K
  | [], st => st
  | s :: syms, st =>
    let r := init_bs env rnd (sym_def rnd cos pi option_amplitude s) exp option_rc
      st.cb_offset st.mem st.level_error_max
    init_ctrl_syms env rnd cos pi exp option_amplitude option_rc ts syms
      { ts_info := fun t =>
          if t = ts then
            { bs := fun x => if x = s then r.1 else (st.ts_info t).bs x
              physaddr := (st.ts_info t).physaddr }
          else st.ts_info t
        cb_offset := r.2.1
        mem := r.2.2.1
        level_error_max := r.2.2.2 }

/-- The loop `for (ti = ts_info, ts = 0; ts < TS_COUNT; ti++, ts++)` of `init_ctrl_data`,
for `k` slots from slot `ts` on. -/
def init_ctrl_slots (env : bs_env) (rnd : K → K) (cos : K → K) (pi : K) (exp : K → K)
    (option_amplitude option_rc : K) : Nat → Nat → ctrl_t K → ctrl_t K
  | 0, _, st => st
  | k + 1, ts, st =>
    init_ctrl_slots env rnd cos pi exp option_amplitude option_rc k (ts + 1)
      (init_ctrl_syms env rnd cos pi exp option_amplitude option_rc ts
        [.SYM_L, .SYM_H, .SYM_LH, .SYM_HL]
        { st with
          ts_info := fun t =>
            if t = ts then
              { bs := (st.ts_info t).bs
                physaddr := cb_offset_to_phys env.phys_info st.cb_offset }
            else st.ts_info t })

/-- The CB memory after `memset(ctl, 0, sizeof(*ctl))` and the stores to
`ctl->samples[0]` and `ctl->samples[1]`, for the mapping at `virtbase`. -/
def ctl_mem (virtbase : Nat) (mem : Nat → Nat) : Nat → Nat :=
  out32 (virtbase + NUM_PAGES_CBS * PAGE_SIZE + 4) (1 <<< GPIO_NEG_NUM)
    (out32 (virtbase + NUM_PAGES_CBS * PAGE_SIZE) (1 <<< GPIO_POS_NUM)
      (fun a =>
        if virtbase ≤ a ∧ a < virtbase + (NUM_PAGES_CBS + 1) * PAGE_SIZE then 0 else mem a))

/-- The function `mem_virt_to_phys` for a pointer at byte `offset` of the mapping. -/
def mem_virt_to_phys (page_map : Nat → page_map_t) (offset : Nat) : Nat :=
  ((page_map (offset >>> PAGE_SHIFT)).physaddr + offset % PAGE_SIZE) % 2 ^ 32

/-- The environment that `init_ctrl_data` hands to `init_bs`. -/
def ctl_env (page_map phys_info : Nat → page_map_t) (delay_hw : Nat) : bs_env :=
  { phys_info := phys_info
    delay_hw := delay_hw
    phys_sample_pos := mem_virt_to_phys page_map (NUM_PAGES_CBS * PAGE_SIZE)
    phys_sample_neg := mem_virt_to_phys page_map (NUM_PAGES_CBS * PAGE_SIZE + 4) }

/-- The function `init_ctrl_data` up to the release of the unused pages: the slot table,
the final `cb_offset`, the CB memory and `level_error_max`. The global `ts_info` starts
zeroed. -/
def init_ctrl_data (virtbase : Nat) (page_map phys_info : Nat → page_map_t) (delay_hw : Nat)
    (rnd : K → K) (cos : K → K) (pi : K) (exp : K → K) (option_amplitude option_rc : K)
    (mem : Nat → Nat) : ctrl_t K :=
  init_ctrl_slots (ctl_env page_map phys_info delay_hw) rnd cos pi exp option_amplitude
    option_rc
    TS_COUNT 0
    { ts_info := fun _ => { bs := fun _ => { physaddr := 0, cb_last := 0 }, physaddr := 0 }
      cb_offset := 0
      mem := ctl_mem virtbase mem
      level_error_max := 0 }

end Levels

/-! ## The compiled chains: layout and arena -/

/-- The loop of `init_bs` restricted to its stores, with the drive decisions of the
passes given as the list `us`, from sub-sample `i` on. -/
def init_bs_cbs_run (env : bs_env) : List Bool → Nat → bs_cb_t → bs_cb_t
  | [], _, c => c
  | u :: us, i, c => init_bs_cbs_run env us (i + 1) (init_bs_cbs env i u c)

/-- The stores and results of `init_bs` for the drive decisions `us`: the entry `*bs`,
the returned `cb_offset` and the CB memory. -/
def init_bs_chain (env : bs_env) (us : List Bool) (cb_offset : Nat) (mem : Nat → Nat) :
    bs_info_t × Nat × (Nat → Nat) :=
  let c := init_bs_cbs_run env us 0 { cbp := 0, cb_offset := cb_offset, up_old := false, mem := mem }
  ({ physaddr := cb_offset_to_phys env.phys_info cb_offset, cb_last := c.cbp },
   c.cb_offset, c.mem)

/-- The drive decisions `up` of `k` passes of the loop of `init_bs` from sub-sample `i`
on, with filter state `v_old`. -/
def bs_decisions {K : Type} [LinearOrderedField K] (rnd : K → K) (sd_fn : K → K)
    (mean_decay mean_weight : K) : Nat → Nat → K → List Bool
  | 0, _, _ => []
  | k + 1, i, v_old =>
    (bs_level rnd sd_fn mean_decay mean_weight i v_old 0).1 ::
      bs_decisions rnd sd_fn mean_decay mean_weight k (i + 1)
        (bs_level rnd sd_fn mean_decay mean_weight i v_old 0).2.1

/-- The part of `ctrl_t` that the stores of `init_ctrl_data` concern. -/
structure cbs_t where
  ts_info : Nat → ts_info_t
  cb_offset : Nat
  mem : Nat → Nat

/-- The loop over the symbols of slot `ts` in `init_ctrl_data`, with the drive decisions
`us s` given for each symbol. -/
def init_cbs_syms (env : bs_env) (us : Sym → List Bool) (ts : Nat) : List Sym → cbs_t → cbs_t
  | [], st => st
  | s :: syms, st =>
    let r := init_bs_chain env (us s) st.cb_offset st.mem
    init_cbs_syms env us ts syms
      { ts_info := fun t =>
          if t = ts then
            { bs := fun x => if x = s then r.1 else (st.ts_info t).bs x
              physaddr := (st.ts_info t).physaddr }
          else st.ts_info t
        cb_offset := r.2.1
        mem := r.2.2 }

/-- The loop over the slots in `init_ctrl_data`, with the drive decisions `us ts s` given
for each chain, for `k` slots from slot `ts` on. -/
def init_cbs_slots (env : bs_env) (us : Nat → Sym → List Bool) : Nat → Nat → cbs_t → cbs_t
  | 0, _, st => st
  | k + 1, ts, st =>
    init_cbs_slots env us k (ts + 1)
      (init_cbs_syms env (us ts) ts [.SYM_L, .SYM_H, .SYM_LH, .SYM_HL]
        { st with
          ts_info := fun t =>
            if t = ts then
              { bs := (st.ts_info t).bs
                physaddr := cb_offset_to_phys env.phys_info st.cb_offset }
            else st.ts_info t })

/-- The stores and the slot table of `init_ctrl_data` for given drive decisions. -/
def init_ctrl_cbs (virtbase : Nat) (page_map phys_info : Nat → page_map_t) (delay_hw : Nat)
    (us : Nat → Sym → List Bool) (mem : Nat → Nat) : cbs_t :=
  init_cbs_slots (ctl_env page_map phys_info delay_hw) us TS_COUNT 0
    { ts_info := fun _ => { bs := fun _ => { physaddr := 0, cb_last := 0 }, physaddr := 0 }
      cb_offset := 0
      mem := ctl_mem virtbase mem }

/-- The size in bytes of the CB pages of the arena. -/
def ARENA : Nat := NUM_PAGES_CBS * PAGE_SIZE

/-- The arena as `main`, `make_pagemap` and `make_physinfo` set it up: the mapping at
`virtbase` is not null and page aligned, and the entries of `phys_info` are the CB pages
`virtbase + i * PAGE_SIZE`, `i < NUM_PAGES_CBS`, each at most once. -/
structure arena_ok (virtbase : Nat) (phys_info : Nat → page_map_t) : Prop where
  base_pos : 0 < virtbase
  base_aligned : virtbase % PAGE_SIZE = 0
  page : ∀ p, p < NUM_PAGES_CBS →
    ∃ i, i < NUM_PAGES_CBS ∧ (phys_info p).virtaddr = virtbase + i * PAGE_SIZE
  inj : ∀ p q, p < NUM_PAGES_CBS → q < NUM_PAGES_CBS →
    (phys_info p).virtaddr = (phys_info q).virtaddr → p = q

/-- The kinds of control block that `init_bs` writes: the GPIO CB of the positive pin
and of the negative pin for the decision `up`, and the delay CB. -/
inductive cb_kind where
  | pos_pad (up : Bool)
  | neg_pad (up : Bool)
  | delay
  deriving DecidableEq, Repr

/-- The CBs of one sub-sample: two GPIO CBs and the delay CB if it is the first
sub-sample or the decision changed, else the delay CB alone. -/
def sample_cbs (first : Bool) (up_old up : Bool) : List cb_kind :=
  if first ∨ up_old ≠ up then [.pos_pad up, .neg_pad up, .delay] else [.delay]

/-- The CBs of the sub-samples with decisions `us`, from sub-sample `i` on, in order. -/
def chain_cbs : Nat → Bool → List Bool → List cb_kind
  | _, _, [] => []
  | i, up_old, u :: us => sample_cbs (decide (i = 0)) up_old u ++ chain_cbs (i + 1) u us

/-- The number of `i >= 1` with `u_i = u_(i-1)` in the decisions `u :: us`. -/
def same_count : Bool → List Bool → Nat
  | _, [] => 0
  | u, v :: us => (if v = u then 1 else 0) + same_count v us

/-- The fields `(info, src, dst)` that `init_bs` stores in a CB of each kind. -/
def cb_fields (env : bs_env) : cb_kind → Nat × Nat × Nat
  | .pos_pad up =>
    (DMA_NO_WIDE_BURSTS ||| DMA_WAIT_RESP, env.phys_sample_pos,
      if up then phys_gpset0 else phys_gpclr0)
  | .neg_pad up =>
    (DMA_NO_WIDE_BURSTS ||| DMA_WAIT_RESP, env.phys_sample_neg,
      if up then phys_gpclr0 else phys_gpset0)
  | .delay => (env.cbp_info, env.phys_sample_pos, env.phys_fifo_addr)

/-- The CB at offset `o` holds the fields of a CB of kind `k`. -/
def cb_holds (env : bs_env) (mem : Nat → Nat) (o : Nat) (k : cb_kind) : Prop :=
  mem (cb_offset_to_virt env.phys_info o + CB_INFO) = (cb_fields env k).1 ∧
  mem (cb_offset_to_virt env.phys_info o + CB_SRC) = (cb_fields env k).2.1 ∧
  mem (cb_offset_to_virt env.phys_info o + CB_DST) = (cb_fields env k).2.2 ∧
  mem (cb_offset_to_virt env.phys_info o + CB_LENGTH) = 4 ∧
  mem (cb_offset_to_virt env.phys_info o + CB_STRIDE) = 0

/-- The CBs at the offsets `o, o + 32, ...` hold the fields of the kinds `ks`, and the
field `next` of each but the last is the bus address of the CB at the following offset. -/
def chain_holds (env : bs_env) (mem : Nat → Nat) (o : Nat) (ks : List cb_kind) : Prop :=
  ∀ j k, ks[j]? = some k →
    cb_holds env mem (o + 32 * j) k ∧
    (j + 1 < ks.length →
      mem (cb_offset_to_virt env.phys_info (o + 32 * j) + CB_NEXT) =
        cb_offset_to_phys env.phys_info (o + 32 * (j + 1)))

/-! ## Layout of the compiled chains -/

/-- The number of CBs of the chain for the drive decisions `us`. -/
def chain_len (us : List Bool) : Nat :=
  (chain_cbs 0 false us).length

/-- The number of CBs of the chains of the symbols `syms`. -/
def syms_cbs (us : Sym → List Bool) : List Sym → Nat
  | [] => 0
  | s :: syms => chain_len (us s) + syms_cbs us syms

/-- The number of CBs that precede the chain of symbol `x` when the chains of `syms` are
compiled in order. -/
def sym_offset (us : Sym → List Bool) : List Sym → Sym → Nat
  | [], _ => 0
  | s :: syms, x => if x = s then 0 else chain_len (us s) + sym_offset us syms x

/-- The value of `cb_offset` at the start of slot `ts`. -/
def slot_start (us : Nat → Sym → List Bool) : Nat → Nat
  | 0 => 0
  | ts + 1 => slot_start us ts + 32 * syms_cbs (us ts) [.SYM_L, .SYM_H, .SYM_LH, .SYM_HL]

/-- The value of `cb_offset` at the start of the chain of slot `ts` and symbol `s`. -/
def chain_start (us : Nat → Sym → List Bool) (ts : Nat) (s : Sym) : Nat :=
  slot_start us ts + 32 * sym_offset (us ts) [.SYM_L, .SYM_H, .SYM_LH, .SYM_HL] s

/-- The chain of slot `ts` and symbol `s` is in place: the entry `ts_info[ts].bs[s]` holds
the bus address of the CB at offset `o` and the pointer to the last CB, the CBs from
offset `o` on hold the chain for the decisions `us`, and `next` of the last CB is 0. -/
def chain_done (env : bs_env) (st : cbs_t) (ts : Nat) (s : Sym) (o : Nat) (us : List Bool) :
    Prop :=
  ((st.ts_info ts).bs s).physaddr = cb_offset_to_phys env.phys_info o ∧
  ((st.ts_info ts).bs s).cb_last =
    cb_offset_to_virt env.phys_info (o + 32 * (chain_len us - 1)) ∧
  chain_holds env st.mem o (chain_cbs 0 false us) ∧
  st.mem (cb_offset_to_virt env.phys_info (o + 32 * (chain_len us - 1)) + CB_NEXT) = 0

/-- No CB at or after offset `o` has been written: the words of the CB pages from `o` on
are still zero. -/
def zero_from (env : bs_env) (mem : Nat → Nat) (o : Nat) : Prop :=
  ∀ x f, x % 32 = 0 → o ≤ x → x < ARENA → f < 32 →
    mem (cb_offset_to_virt env.phys_info x + f) = 0

/-! ## The drive decisions of `init_ctrl_data` -/

section Decisions

variable {K : Type} [LinearOrderedField K]

/-- The drive decisions `up` of the passes of the loop of `init_bs` when `init_ctrl_data`
compiles the chain of symbol `s`. -/
def sym_decisions (rnd : K → K) (cos : K → K) (pi : K) (exp : K → K)
    (option_amplitude option_rc : K) (s : Sym) : List Bool :=
  bs_decisions rnd (sym_def rnd cos pi option_amplitude s)
    (exp (rnd (-(PULSE_WIDTH_INCR_US : K) / rnd (1000000 * option_rc))))
    (rnd (1 - exp (rnd (-(PULSE_WIDTH_INCR_US : K) / rnd (1000000 * option_rc)))))
    BS_SAMPLES 0 (sym_def rnd cos pi option_amplitude s 0)

/-- The slot table, `cb_offset` and CB memory of a `ctrl_t`. -/
def ctrl_t.cbs (st : ctrl_t K) : cbs_t :=
  { ts_info := st.ts_info, cb_offset := st.cb_offset, mem := st.mem }

end Decisions

/-! ## Counting decision changes, and a sample arena -/

/-- The number of `i >= 1` with `u_i != u_(i-1)` in the decisions `u :: us`. -/
def change_count : Bool → List Bool → Nat
  | _, [] => 0
  | u, v :: us => (if v = u then 0 else 1) + change_count v us

/-- The number of `i >= 1` with `u_i = u_(i-1)` in the decisions `us`. -/
def same_pairs : List Bool → Nat
  | [] => 0
  | u :: us => same_count u us

/-- The number of `i >= 1` with `u_i != u_(i-1)` in the decisions `us`. -/
def changed_pairs : List Bool → Nat
  | [] => 0
  | u :: us => change_count u us

/-- A sample mapping: the arena at `0x100000`, page `p` at bus address
`0x40000000 + p * PAGE_SIZE`. -/
def example_virtbase : Nat := 0x100000

def example_page_map (p : Nat) : page_map_t :=
  { virtaddr := example_virtbase + p * PAGE_SIZE, physaddr := 0x40000000 + p * PAGE_SIZE }

/-- Sample drive decisions: every sub-sample of every chain drives up. -/
def example_us (_ : Nat) (_ : Sym) : List Bool :=
  List.replicate BS_SAMPLES true

/-! ## Executing a chain

The DMA engine is hardware. Its effect on the pins is described as the claim on the
omitted GPIO writes words it: a CB whose destination is `GPSET0` sets the pins selected by
the word at its source, a CB whose destination is `GPCLR0` clears them, a CB whose
destination is the FIFO of the delay hardware marks one sub-sample, and the engine goes on
at `next` until `next` is 0. -/

/-- The levels of the positive-phase and of the negative-phase pin in the pin word. -/
def pin_levels (pins : Nat) : Bool × Bool :=
  (pins.testBit GPIO_POS_NUM, pins.testBit GPIO_NEG_NUM)

/-- The pin words during the delay CBs when the engine runs the CBs linked from bus address
`cb_bus` on, at most `fuel` of them, starting with the pin word `pins`. The engine reads
memory through `bus_to_virt`; `fifo` is the bus address of the FIFO of the delay
hardware. -/
def dma_run (mem : Nat → Nat) (bus_to_virt : Nat → Nat) (fifo : Nat) :
    Nat → Nat → Nat → List Nat
  | 0, _, _ => []
  | fuel + 1, cb_bus, pins =>
    if cb_bus = 0 then []
    else
      let cb := bus_to_virt cb_bus
      let word := mem (bus_to_virt (mem (cb + CB_SRC)))
      let dst := mem (cb + CB_DST)
      let next := mem (cb + CB_NEXT)
      if dst = phys_gpset0 then dma_run mem bus_to_virt fifo fuel next (pins ||| word)
      else if dst = phys_gpclr0 then
        dma_run mem bus_to_virt fifo fuel next (pins ^^^ (pins &&& word))
      else if dst = fifo then pins :: dma_run mem bus_to_virt fifo fuel next pins
      else dma_run mem bus_to_virt fifo fuel next pins

/-- The pin words during the delay CBs when the CBs of the kinds `ks` run in order. -/
def pins_exec : List cb_kind → Nat → List Nat
  | [], _ => []
  | .pos_pad up :: ks, pins =>
    pins_exec ks
      (if up then pins ||| (1 <<< GPIO_POS_NUM) else pins ^^^ (pins &&& (1 <<< GPIO_POS_NUM)))
  | .neg_pad up :: ks, pins =>
    pins_exec ks
      (if up then pins ^^^ (pins &&& (1 <<< GPIO_NEG_NUM)) else pins ||| (1 <<< GPIO_NEG_NUM))
  | .delay :: ks, pins => pins :: pins_exec ks pins

/-- The naive chain for the decisions `us`: the two GPIO CBs and the delay CB for every
sub-sample. -/
def naive_cbs : List Bool → List cb_kind
  | [] => []
  | u :: us => [.pos_pad u, .neg_pad u, .delay] ++ naive_cbs us

/-- The translation from bus addresses to the mapping for the sample arena. -/
def example_bus_to_virt (a : Nat) : Nat :=
  a - 0x40000000 + example_virtbase

/-! ## Interleavings of reads and passes of the state machine -/

/-- The steps of `go_go_go` that change its locals, as actions: a pass of the state
machine, the shift of the burst after a bit is sent, and a successful `read` that returned
the bytes `data`. -/
inductive Act where
  | fsm
  | send
  | read (data : List (Fin 256))

/-- The condition under which the code takes the step: the burst is empty for a pass of
the state machine and not empty for the shift; a read happens while
`sendcount < SENDSIZE` and returns `1 <= ss <= n` bytes. -/
def act_ok (g : GoState) : Act → Bool
  | .fsm => decide (g.curburst.b_len = 0)
  | .send => decide (g.curburst.b_len ≠ 0)
  | .read data =>
    decide (g.sendcount < SENDSIZE ∧ 0 < data.length ∧ (data.length : Int) ≤ read_max g)

/-- The effect of the step on the locals. -/
def act_step (option_timeout : Int) : Act → GoState → GoState
  | .fsm, g => fsm_step option_timeout g
  | .send, g => { g with curburst := burst_shift g.curburst }
  | .read data, g => buf_read data g

/-- The locals after the steps `acts`, in order. -/
def run_acts (option_timeout : Int) : List Act → GoState → GoState
  | [], g => g
  | a :: acts, g => run_acts option_timeout acts (act_step option_timeout a g)

/-- Whether each of the steps `acts` is taken under its condition. -/
def acts_ok (option_timeout : Int) : List Act → GoState → Bool
  | [], _ => true
  | a :: acts, g => act_ok g a && acts_ok option_timeout acts (act_step option_timeout a g)

/-- The bytes that the reads among `acts` returned, in order. -/
def read_log : List Act → List (Fin 256)
  | [] => []
  | .read data :: acts => data ++ read_log acts
  | .fsm :: acts => read_log acts
  | .send :: acts => read_log acts

/-- The byte that the step looks up in `varicode_table`, if any: a pass of the state
machine in state `SEND` with `sendcount != 0` looks up `sendbuf[sendread]`. -/
def act_consumed (g : GoState) : Act → List (Fin 256)
  | .fsm => if g.state = .STATE_SEND ∧ g.sendcount ≠ 0 then [g.sendbuf g.sendread] else []
  | .send => []
  | .read _ => []

/-- The bytes looked up in `varicode_table` during the steps `acts`, in order. -/
def consumed_log (option_timeout : Int) : List Act → GoState → List (Fin 256)
  | [], _ => []
  | a :: acts, g =>
    act_consumed g a ++ consumed_log option_timeout acts (act_step option_timeout a g)

/-- The bytes in the buffer that are not yet consumed, oldest first:
`sendbuf[(sendread + j) mod SENDSIZE]` for `j < sendcount`. -/
def sendbuf_pending (g : GoState) : List (Fin 256) :=
  (List.range g.sendcount.toNat).map (fun j => g.sendbuf ((g.sendread + j) % SENDSIZE))

/-- The invariant of the input ring buffer. -/
def ring_inv (g : GoState) : Prop :=
  0 ≤ g.sendcount ∧ g.sendcount ≤ 128 ∧ g.sendread ≤ 127 ∧ g.sendwrite ≤ 127 ∧
  (g.sendwrite : Int) = ((g.sendread : Int) + g.sendcount) % 128

/-- Sample steps from the initial locals: a read of the two bytes `ef`, the pass
`IDLE -> START` that loads the preamble, the 20 shifts of the preamble, the pass
`START -> SEND` and the pass that looks up the first byte. -/
def example_acts : List Act :=
  [.read [0x65, 0x66], .fsm] ++ List.replicate 20 .send ++ [.fsm, .fsm]

/-! ## Sequences of enqueues and the idle burst of `init_hardware` -/

/-- The calls `tx_sym_enqueue(s_1); ...; tx_sym_enqueue(s_n)` for the symbols `ss`. -/
def tx_sym_enqueue_list : List Sym → Engine → Engine
  | [], e => e
  | s :: ss, e => tx_sym_enqueue_list ss (tx_sym_enqueue s e)

/-- The statements `ts_last_cbp = NULL; for (i = 0; i < TS_COUNT; i++)
tx_sym_enqueue(SYM_H);` at the start of `init_hardware`. -/
def init_hardware_enqueue (e : Engine) : Engine :=
  tx_sym_enqueue_list (List.replicate TS_COUNT .SYM_H) { e with ts_last_cbp := 0 }

/-- The engine globals at the start of `init_hardware`: the slot table and the CB memory
that `init_ctrl_data` leaves, the other globals zero as static storage is. -/
def fresh_engine (c : cbs_t) : Engine :=
  { ts_info := c.ts_info, ts_last := 0, ts_last_cbp := 0, ts_last_sym := .SYM_L, mem := c.mem }

/-- The engine at the start of `init_hardware` for the sample arena and the sample
decisions. -/
def example_fresh_engine : Engine :=
  fresh_engine (init_ctrl_cbs example_virtbase example_page_map example_page_map DELAY_VIA_PWM
    example_us (fun _ => 0))

/-! ## Basic facts about the constants and the table -/

theorem TS_COUNT_eq : TS_COUNT = 16 := rfl

set_option maxRecDepth 100000 in
theorem varicode_table_length : varicode_table.length = 256 := by
  decide

theorem varicode_mem (b : Fin 256) : varicode b ∈ varicode_table := by
  have h : b.val < varicode_table.length := by
    rw [varicode_table_length]; exact b.isLt
  unfold varicode
  rw [List.getD_eq_getElem _ _ h]
  exact List.getElem_mem _

set_option maxRecDepth 100000 in
theorem varicode_table_len_ne_zero : ∀ e ∈ varicode_table, e.b_len ≠ 0 := by
  decide

theorem varicode_len_ne_zero (b : Fin 256) : (varicode b).b_len ≠ 0 :=
  varicode_table_len_ne_zero _ (varicode_mem b)

/-! ## The burst loop always loads a burst -/

theorem get_burst_of_len_ne_zero (ot : Int) (fuel : Nat) (g : GoState)
    (h : g.curburst.b_len ≠ 0) : get_burst ot fuel g = some g := by
  cases fuel <;> simp [get_burst, h]

theorem get_burst_succ (ot : Int) (fuel : Nat) (g : GoState) (h : g.curburst.b_len = 0) :
    get_burst ot (fuel + 1) g = get_burst ot fuel (fsm_step ot g) := by
  simp [get_burst, h]

theorem get_burst_mono (ot : Int) : ∀ (fuel : Nat) (g g0 : GoState),
    get_burst ot fuel g = some g0 → get_burst ot (fuel + 1) g = some g0 := by
  intro fuel
  induction fuel with
  | zero =>
    intro g g0 h
    by_cases hl : g.curburst.b_len = 0
    · simp [get_burst, hl] at h
    · rw [get_burst_of_len_ne_zero ot _ g hl] at h
      rw [get_burst_of_len_ne_zero ot _ g hl, h]
  | succ k ih =>
    intro g g0 h
    by_cases hl : g.curburst.b_len = 0
    · rw [get_burst_succ ot _ g hl] at h
      rw [get_burst_succ ot _ g hl]
      exact ih _ _ h
    · rw [get_burst_of_len_ne_zero ot _ g hl] at h
      rw [get_burst_of_len_ne_zero ot _ g hl, h]

theorem get_burst_mono_add (ot : Int) (fuel k : Nat) (g g0 : GoState)
    (h : get_burst ot fuel g = some g0) : get_burst ot (fuel + k) g = some g0 := by
  induction k with
  | zero => exact h
  | succ k ih => exact get_burst_mono ot _ _ _ ih

theorem get_burst_len_ne_zero (ot : Int) : ∀ (fuel : Nat) (g g0 : GoState),
    get_burst ot fuel g = some g0 → g0.curburst.b_len ≠ 0 := by
  intro fuel
  induction fuel with
  | zero =>
    intro g g0 h
    by_cases hl : g.curburst.b_len = 0
    · simp [get_burst, hl] at h
    · simp [get_burst, hl] at h
      rw [← h]; exact hl
  | succ k ih =>
    intro g g0 h
    by_cases hl : g.curburst.b_len = 0
    · rw [get_burst_succ ot _ g hl] at h
      exact ih _ _ h
    · rw [get_burst_of_len_ne_zero ot _ g hl] at h
      simp at h
      rw [← h]; exact hl

theorem get_burst_three (ot : Int) (g : GoState) : ∃ g0, get_burst ot 3 g = some g0 := by
  by_cases hl : g.curburst.b_len = 0
  · have hv := varicode_len_ne_zero
    rcases hs : g.state with _ | _ | _ | _ | _ <;>
    by_cases hc : g.sendcount = 0 <;>
    by_cases hf : g.fill_timeout = 0 <;>
    by_cases ho : ot = 0 <;>
    by_cases hn : ot < 0 <;>
    simp [get_burst, fsm_step, hl, hs, hc, hf, ho, hn, hv, fill_burst, ending_burst,
      starting_burst, idle_burst]
  · exact ⟨g, get_burst_of_len_ne_zero ot _ g hl⟩

theorem get_burst_total (ot : Int) (fuel : Nat) (g : GoState) :
    ∃ g0, get_burst ot (fuel + 3) g = some g0 ∧ g0.curburst.b_len ≠ 0 := by
  obtain ⟨g0, h⟩ := get_burst_three ot g
  refine ⟨g0, ?_, get_burst_len_ne_zero ot 3 g g0 h⟩
  rw [Nat.add_comm]
  exact get_burst_mono_add ot 3 fuel g g0 h

/-! ## The transition table and the feed loop -/

theorem burst_bit_val (b : burst_t) : (burst_bit b).val = b.b_val % 2 := by
  simp [burst_bit, Nat.and_one_is_mod]

theorem burst_shift_eq (b : burst_t) : burst_shift b = ⟨b.b_len - 1, b.b_val / 2⟩ := by
  simp [burst_shift, Nat.shiftRight_eq_div_pow]

/-- C1: the table `ts_next` holds the eight specified entries, and one pass of the feed
loop (which always obtains a non-empty burst) takes the bit `b_val mod 2` of the current
burst, hands exactly `ts_next[ts_last_sym][bit]` to `tx_sym_enqueue`, which records it as
`ts_last_sym`, and shifts the burst by one bit. -/
theorem ts_next_table_and_feed :
    (ts_next .SYM_L 0 = .SYM_LH ∧ ts_next .SYM_L 1 = .SYM_L ∧
     ts_next .SYM_H 0 = .SYM_HL ∧ ts_next .SYM_H 1 = .SYM_H ∧
     ts_next .SYM_LH 0 = .SYM_HL ∧ ts_next .SYM_LH 1 = .SYM_H ∧
     ts_next .SYM_HL 0 = .SYM_LH ∧ ts_next .SYM_HL 1 = .SYM_L) ∧
    (∀ (option_timeout : Int) (fuel : Nat) (g : GoState) (e : Engine),
      ∃ g0, get_burst option_timeout (fuel + 3) g = some g0 ∧
        g0.curburst.b_len ≠ 0 ∧
        (burst_bit g0.curburst).val = g0.curburst.b_val % 2 ∧
        feed_bit option_timeout (fuel + 3) g e =
          some (burst_bit g0.curburst,
                { g0 with curburst := ⟨g0.curburst.b_len - 1, g0.curburst.b_val / 2⟩ },
                tx_sym_enqueue (ts_next e.ts_last_sym (burst_bit g0.curburst)) e)) ∧
    (∀ (s : Sym) (e : Engine), (tx_sym_enqueue s e).ts_last_sym = s) := by
  refine ⟨by decide, ?_, fun s e => rfl⟩
  intro ot fuel g e
  obtain ⟨g0, h, hl⟩ := get_burst_total ot fuel g
  refine ⟨g0, h, hl, burst_bit_val _, ?_⟩
  simp [feed_bit, h, tx_bit, burst_shift_eq]

/-! ## Rounding to binary64 -/

theorem rne_floor_le (x : ℚ) : ⌊x⌋ ≤ rne x := by
  unfold rne
  split_ifs <;> omega

theorem rne_le_floor_succ (x : ℚ) : rne x ≤ ⌊x⌋ + 1 := by
  unfold rne
  split_ifs <;> omega

theorem rne_intCast (n : ℤ) : rne (n : ℚ) = n := by
  unfold rne
  simp

theorem rne_le (x : ℚ) (n : ℤ) (h : x ≤ n) : rne x ≤ n := by
  have hf : ⌊x⌋ ≤ n := by
    have := Int.floor_le_floor h
    rwa [Int.floor_intCast] at this
  rcases hf.lt_or_eq with hlt | heq
  · have := rne_le_floor_succ x
    omega
  · have hx : x = n := le_antisymm h (by rw [← heq]; exact Int.floor_le x)
    rw [hx, rne_intCast]

theorem le_rne (x : ℚ) (n : ℤ) (h : (n : ℚ) ≤ x) : n ≤ rne x :=
  (Int.le_floor.mpr h).trans (rne_floor_le x)

theorem rne_err (x : ℚ) : |(rne x : ℚ) - x| ≤ 1 / 2 := by
  have h1 := Int.floor_le x
  have h2 := Int.lt_floor_add_one x
  unfold rne
  split_ifs with a b c
  · rw [abs_le]; constructor <;> linarith
  · push_cast; rw [abs_le]; constructor <;> linarith
  · rw [abs_le]; constructor <;> linarith
  · push_cast; rw [abs_le]; constructor <;> linarith

theorem rne_eq (x : ℚ) (n : ℤ)
    (h : |x - n| < 1 / 2 ∨ (|x - n| = 1 / 2 ∧ n % 2 = 0)) : rne x = n := by
  rcases le_or_lt (n : ℚ) x with hx | hx
  · have hlt : x < n + 1 := by
      rcases h with h | ⟨h, -⟩
      · have := (abs_lt.mp h).2; linarith
      · have := (abs_le.mp h.le).2; linarith
    have hf : ⌊x⌋ = n := Int.floor_eq_iff.mpr ⟨hx, hlt⟩
    unfold rne
    rw [hf]
    rcases h with h | ⟨h, he⟩
    · have := (abs_lt.mp h).2
      rw [if_pos this]
    · have h2 : x - n = 1 / 2 := by rw [← h, abs_of_nonneg (by linarith)]
      rw [h2, if_neg (lt_irrefl _), if_neg (lt_irrefl _), if_pos he]
  · have hgt : (n : ℚ) - 1 ≤ x := by
      rcases h with h | ⟨h, -⟩
      · have := (abs_lt.mp h).1; linarith
      · have := (abs_le.mp h.le).1; linarith
    have hf : ⌊x⌋ = n - 1 := Int.floor_eq_iff.mpr ⟨by push_cast; linarith, by push_cast; linarith⟩
    unfold rne
    rw [hf]
    push_cast
    rcases h with h | ⟨h, he⟩
    · have := (abs_lt.mp h).1
      rw [if_neg (by linarith), if_pos (by linarith)]
      ring
    · have h2 : x - n = -(1 / 2) := by
        rw [abs_of_neg (by linarith)] at h; linarith
      have h3 : x - (n - 1) = 1 / 2 := by linarith
      rw [h3, if_neg (lt_irrefl _), if_neg (lt_irrefl _), if_neg (by omega)]
      ring

theorem ulp_exp_ge (x : ℚ) : -1074 ≤ ulp_exp x := by
  unfold ulp_exp
  split_ifs
  · exact le_refl _
  · exact le_max_right _ _

theorem ulp_exp_le (x : ℚ) (k : ℤ) (h : |x| < 2 ^ (k + 1)) (hk : -1022 ≤ k) :
    ulp_exp x ≤ k - 52 := by
  unfold ulp_exp
  split_ifs with h0
  · omega
  · have hpos : 0 < |x| := abs_pos.mpr h0
    have h2 : Int.log 2 |x| < k + 1 := (Int.lt_zpow_iff_log_lt (by norm_num) hpos).mp (by exact_mod_cast h)
    exact max_le (by omega) (by omega)

theorem ulp_exp_eq (x : ℚ) (k : ℤ) (h1 : 2 ^ k ≤ |x|) (h2 : |x| < 2 ^ (k + 1))
    (hk : -1022 ≤ k) : ulp_exp x = k - 52 := by
  have hpos : 0 < |x| := lt_of_lt_of_le (by positivity) h1
  have h0 : x ≠ 0 := abs_pos.mp hpos
  have a1 : k ≤ Int.log 2 |x| := (Int.zpow_le_iff_le_log (by norm_num) hpos).mp (by exact_mod_cast h1)
  have a2 : Int.log 2 |x| < k + 1 := (Int.lt_zpow_iff_log_lt (by norm_num) hpos).mp (by exact_mod_cast h2)
  unfold ulp_exp
  rw [if_neg h0, max_eq_left (by omega)]
  omega

/-- A power of two is an integer multiple of every smaller power of two. -/
theorem zpow_grid (e j : ℤ) (h : e ≤ j) : ∃ m : ℤ, 0 < m ∧ (2 : ℚ) ^ j = m * 2 ^ e := by
  refine ⟨2 ^ (j - e).toNat, by positivity, ?_⟩
  have : j = ((j - e).toNat : ℤ) + e := by omega
  conv_lhs => rw [this]
  rw [zpow_add₀ (by norm_num), zpow_natCast]
  push_cast
  rfl

theorem rnd64_eq (x : ℚ) (e n : ℤ) (he : ulp_exp x = e) (hn : rne (x / 2 ^ e) = n) :
    rnd64 x = n * 2 ^ e := by
  unfold rnd64
  rw [he, hn]

/-- Rounding does not cross a number of the grid of its argument. -/
theorem rnd64_grid (x y : ℚ) (n : ℤ) (hy : y = n * 2 ^ ulp_exp x) :
    (x ≤ y → rnd64 x ≤ y) ∧ (y ≤ x → y ≤ rnd64 x) := by
  have hp : (0 : ℚ) < 2 ^ ulp_exp x := by positivity
  unfold rnd64
  rw [hy]
  constructor
  · intro h
    have : x / 2 ^ ulp_exp x ≤ n := (div_le_iff₀ hp).mpr h
    have := rne_le _ _ this
    exact mul_le_mul_of_nonneg_right (by exact_mod_cast this) hp.le
  · intro h
    have : (n : ℚ) ≤ x / 2 ^ ulp_exp x := (le_div_iff₀ hp).mpr h
    have := le_rne _ _ this
    exact mul_le_mul_of_nonneg_right (by exact_mod_cast this) hp.le

theorem rnd64_exact (x : ℚ) (n : ℤ) (h : x = n * 2 ^ ulp_exp x) : rnd64 x = x := by
  obtain ⟨a, b⟩ := rnd64_grid x x n h
  exact le_antisymm (a le_rfl) (b le_rfl)

theorem rnd64_err (x : ℚ) : |rnd64 x - x| ≤ 2 ^ ulp_exp x / 2 := by
  have hp : (0 : ℚ) < 2 ^ ulp_exp x := by positivity
  have h := rne_err (x / 2 ^ ulp_exp x)
  unfold rnd64
  have e : (rne (x / 2 ^ ulp_exp x) : ℚ) * 2 ^ ulp_exp x - x =
      ((rne (x / 2 ^ ulp_exp x) : ℚ) - x / 2 ^ ulp_exp x) * 2 ^ ulp_exp x := by
    field_simp
  rw [e, abs_mul, abs_of_pos hp]
  calc _ ≤ 1 / 2 * 2 ^ ulp_exp x := mul_le_mul_of_nonneg_right h hp.le
    _ = _ := by ring

theorem rnd64_sign (x : ℚ) : (0 ≤ x → 0 ≤ rnd64 x) ∧ (x ≤ 0 → rnd64 x ≤ 0) := by
  have := rnd64_grid x 0 0 (by simp)
  exact this.symm

theorem ulp_exp_le_of_abs_le_one (x : ℚ) (h : |x| ≤ 1) : ulp_exp x ≤ -52 := by
  have := ulp_exp_le x 0 (lt_of_le_of_lt h (by norm_num)) (by norm_num)
  omega

theorem ulp_exp_le_of_abs_lt_one (x : ℚ) (h : |x| < 1) : ulp_exp x ≤ -53 := by
  have := ulp_exp_le x (-1) (lt_of_lt_of_le h (by norm_num)) (by norm_num)
  omega

theorem rnd64_half_grid (x : ℚ) (n : ℤ) (h : |x| ≤ 1) :
    (x ≤ n / 2 → rnd64 x ≤ n / 2) ∧ ((n : ℚ) / 2 ≤ x → (n : ℚ) / 2 ≤ rnd64 x) := by
  obtain ⟨m, -, hm⟩ := zpow_grid (ulp_exp x) (-1) (by have := ulp_exp_le_of_abs_le_one x h; omega)
  refine rnd64_grid x _ (n * m) ?_
  push_cast
  rw [mul_assoc, ← hm]
  norm_num
  ring

/-- The numbers `n / 2 ^ 53` with `|n| ≤ 2 ^ 53` are binary64 numbers. -/
theorem rnd64_grid53 (n : ℤ) (h : |n| ≤ 2 ^ 53) : rnd64 ((n : ℚ) / 2 ^ 53) = n / 2 ^ 53 := by
  rcases h.lt_or_eq with hlt | heq
  · have hx : |(n : ℚ) / 2 ^ 53| < 1 := by
      rw [abs_div, abs_of_pos (by positivity : (0 : ℚ) < 2 ^ 53), div_lt_one (by positivity)]
      exact_mod_cast hlt
    obtain ⟨m, -, hm⟩ := zpow_grid (ulp_exp ((n : ℚ) / 2 ^ 53)) (-53)
      (ulp_exp_le_of_abs_lt_one _ hx)
    refine rnd64_exact _ (n * m) ?_
    push_cast
    rw [mul_assoc, ← hm]
    norm_num
    ring
  · have hx : |(n : ℚ) / 2 ^ 53| = 1 := by
      rw [abs_div, abs_of_pos (by positivity : (0 : ℚ) < 2 ^ 53), div_eq_one_iff_eq (by positivity)]
      exact_mod_cast heq
    have he : ulp_exp ((n : ℚ) / 2 ^ 53) = -52 := by
      have := ulp_exp_eq ((n : ℚ) / 2 ^ 53) 0 (by rw [hx]; norm_num) (by rw [hx]; norm_num)
        (by norm_num)
      omega
    refine rnd64_exact _ (n / 2) ?_
    rw [he]
    have h2 : n = 2 * (n / 2) := by
      rcases abs_eq (by norm_num : (0 : ℤ) ≤ 2 ^ 53) |>.mp heq with h | h <;> rw [h] <;> norm_num
    conv_lhs => rw [h2]
    push_cast
    norm_num
    ring

/-- The rounding of a number of `[1/2, 1]` is a multiple of `2 ^ (-53)` in `[1/2, 1]`. -/
theorem rnd64_upper (x : ℚ) (h1 : 1 / 2 ≤ x) (h2 : x ≤ 1) :
    ∃ m : ℤ, 2 ^ 52 ≤ m ∧ m ≤ 2 ^ 53 ∧ rnd64 x = m / 2 ^ 53 := by
  rcases h2.lt_or_eq with hlt | heq
  · have ha : |x| = x := abs_of_nonneg (by linarith)
    have he : ulp_exp x = -53 := by
      have := ulp_exp_eq x (-1) (by rw [ha]; norm_num; linarith) (by rw [ha]; norm_num; exact hlt)
        (by norm_num)
      omega
    refine ⟨rne (x / 2 ^ (-53 : ℤ)), ?_, ?_, ?_⟩
    · refine le_rne _ _ ?_
      rw [le_div_iff₀ (by positivity)]
      norm_num
      linarith
    · refine rne_le _ _ ?_
      rw [div_le_iff₀ (by positivity)]
      norm_num
      linarith
    · rw [rnd64_eq x (-53) _ he rfl]
      norm_num
      ring
  · refine ⟨2 ^ 53, by norm_num, le_rfl, ?_⟩
    rw [heq]
    have := rnd64_grid53 (2 ^ 53) (by norm_num)
    norm_num at this ⊢
    exact this

theorem rnd64_err_unit (x : ℚ) (h0 : 0 ≤ x) (h1 : x ≤ 1) : |rnd64 x - x| ≤ 2 ^ (-54 : ℤ) := by
  rcases h1.lt_or_eq with hlt | heq
  · have he := ulp_exp_le_of_abs_lt_one x (by rw [abs_of_nonneg h0]; exact hlt)
    refine (rnd64_err x).trans ?_
    have : (2 : ℚ) ^ ulp_exp x ≤ 2 ^ (-53 : ℤ) := zpow_le_zpow_right₀ (by norm_num) he
    calc (2 : ℚ) ^ ulp_exp x / 2 ≤ 2 ^ (-53 : ℤ) / 2 :=
          div_le_div_of_nonneg_right this (by norm_num)
      _ = 2 ^ (-54 : ℤ) := by norm_num
  · have := rnd64_grid53 (2 ^ 53) (by norm_num)
    norm_num at this
    rw [heq, this]
    norm_num

theorem rnd64_le_one (x : ℚ) (h0 : 0 ≤ x) (h1 : x ≤ 1 + 2 * 2 ^ (-54 : ℤ)) : rnd64 x ≤ 1 := by
  rcases le_or_lt x 1 with hle | hgt
  · have := (rnd64_half_grid x 2 (by rw [abs_of_nonneg h0]; exact hle)).1
    norm_num at this
    exact this hle
  · have ha : |x| = x := abs_of_nonneg h0
    have he : ulp_exp x = -52 := by
      have := ulp_exp_eq x 0 (by rw [ha]; norm_num; linarith)
        (by rw [ha]; norm_num at h1 ⊢; linarith) (by norm_num)
      omega
    have hn : rne (x / 2 ^ (-52 : ℤ)) = 2 ^ 52 := by
      have hx : x / 2 ^ (-52 : ℤ) - ((2 ^ 52 : ℤ) : ℚ) = (x - 1) * 2 ^ 52 := by
        norm_num
        ring
      refine rne_eq _ _ ?_
      rw [hx]
      norm_num at h1
      rcases h1.lt_or_eq with hl | he
      · left
        rw [abs_of_pos (by nlinarith)]
        linarith
      · right
        refine ⟨?_, by norm_num⟩
        rw [he]
        norm_num
    rw [rnd64_eq x (-52) _ he hn]
    norm_num

theorem fp_round_id {K : Type} [LinearOrderedField K] : fp_round (id : K → K) 0 where
  eps_nonneg := le_rfl
  sign := fun x => ⟨id, id⟩
  half_grid := fun x n _ => ⟨id, id⟩
  err := fun x _ _ => by simp
  le_one := fun x _ h => by simpa using h
  exact_upper := fun x _ _ => ⟨rfl, rfl, rfl, rfl⟩

theorem fp_round_rnd64 : fp_round rnd64 (2 ^ (-54 : ℤ)) where
  eps_nonneg := by positivity
  sign := rnd64_sign
  half_grid := rnd64_half_grid
  err := rnd64_err_unit
  le_one := rnd64_le_one
  exact_upper := by
    intro x h1 h2
    obtain ⟨m, a, b, hm⟩ := rnd64_upper x h1 h2
    rw [hm]
    refine ⟨rnd64_grid53 m (by rw [abs_le]; constructor <;> omega), ?_, ?_, ?_⟩
    · have := rnd64_grid53 (m - 2 ^ 52) (by rw [abs_le]; constructor <;> omega)
      have e : ((m - 2 ^ 52 : ℤ) : ℚ) / 2 ^ 53 = (m : ℚ) / 2 ^ 53 - 1 / 2 := by
        push_cast; ring
      rwa [e] at this
    · have := rnd64_grid53 (2 ^ 52 - m) (by rw [abs_le]; constructor <;> omega)
      have e : ((2 ^ 52 - m : ℤ) : ℚ) / 2 ^ 53 = 1 / 2 - (m : ℚ) / 2 ^ 53 := by
        push_cast; ring
      rwa [e] at this
    · have := rnd64_grid53 (2 ^ 53 - m) (by rw [abs_le]; constructor <;> omega)
      have e : ((2 ^ 53 - m : ℤ) : ℚ) / 2 ^ 53 = 1 - (m : ℚ) / 2 ^ 53 := by
        push_cast; ring
      rwa [e] at this

theorem rne_near (y : ℚ) (n : ℤ) (h1 : (n : ℚ) - 1 / 2 < y) (h2 : y < n + 1 / 2) :
    rne y = n :=
  rne_eq y n (Or.inl (by rw [abs_lt]; constructor <;> linarith))

theorem rne_tie_even (y : ℚ) (n : ℤ) (h : y = n + 1 / 2) (he : n % 2 = 0) : rne y = n :=
  rne_eq y n (Or.inr ⟨by rw [h]; norm_num, he⟩)

theorem ulp_exp_pos (x : ℚ) (k : ℤ) (h1 : 2 ^ k ≤ x) (h2 : x < 2 ^ (k + 1)) (hk : -1022 ≤ k) :
    ulp_exp x = k - 52 := by
  have hx : |x| = x := abs_of_pos (lt_of_lt_of_le (by positivity) h1)
  exact ulp_exp_eq x k (by rw [hx]; exact h1) (by rw [hx]; exact h2) hk

theorem ulp_exp_neg (x : ℚ) (k : ℤ) (h1 : 2 ^ k ≤ -x) (h2 : -x < 2 ^ (k + 1))
    (hk : -1022 ≤ k) : ulp_exp x = k - 52 := by
  have hx : |x| = -x := abs_of_neg (neg_pos.mp (lt_of_lt_of_le (by positivity) h1))
  exact ulp_exp_eq x k (by rw [hx]; exact h1) (by rw [hx]; exact h2) hk

/-- Numbers of at most `2 ^ (-54)` stay so when rounded. -/
theorem rnd64_small (w : ℚ) (h0 : 0 ≤ w) (h1 : w ≤ 2 ^ (-54 : ℤ)) :
    0 ≤ rnd64 w ∧ rnd64 w ≤ 2 ^ (-54 : ℤ) := by
  refine ⟨(rnd64_sign w).1 h0, ?_⟩
  have he : ulp_exp w ≤ -54 := by
    have := ulp_exp_le w (-54) (by rw [abs_of_nonneg h0]; exact lt_of_le_of_lt h1 (by norm_num))
      (by norm_num)
    omega
  obtain ⟨m, -, hm⟩ := zpow_grid (ulp_exp w) (-54) he
  exact (rnd64_grid w _ m hm).1 h1

/-- The difference of `1` and a number of at most `2 ^ (-54)` rounds to `1`. -/
theorem rnd64_one_sub_small (w : ℚ) (h0 : 0 ≤ w) (h1 : w ≤ 2 ^ (-54 : ℤ)) :
    rnd64 (1 - w) = 1 := by
  rcases h0.lt_or_eq with hpos | hz
  · norm_num at h1
    have he : ulp_exp (1 - w) = -53 := by
      have := ulp_exp_pos (1 - w) (-1) (by norm_num; linarith) (by norm_num; linarith)
        (by norm_num)
      omega
    have hn : rne ((1 - w) / 2 ^ (-53 : ℤ)) = 2 ^ 53 := by
      have hx : (1 - w) / 2 ^ (-53 : ℤ) - ((2 ^ 53 : ℤ) : ℚ) = -(w * 2 ^ 53) := by
        norm_num
        ring
      refine rne_eq _ _ ?_
      rw [hx, abs_neg, abs_of_pos (by positivity)]
      rcases h1.lt_or_eq with hl | he
      · left
        linarith
      · right
        refine ⟨?_, by norm_num⟩
        rw [he]
        norm_num
    rw [rnd64_eq (1 - w) (-53) _ he hn]
    norm_num
  · rw [← hz]
    have := rnd64_grid53 (2 ^ 53) (by norm_num)
    norm_num at this ⊢
    exact this

theorem rnd64_one : rnd64 1 = 1 := by
  have := rnd64_one_sub_small 0 le_rfl (by positivity)
  simpa using this

theorem rnd64_half : rnd64 (1 / 2) = 1 / 2 := by
  have := rnd64_grid53 (2 ^ 52) (by norm_num)
  norm_num at this ⊢
  exact this

/-! ## The levels of the shape functions under a rounding -/

section RoundedLevels

variable {K : Type} [LinearOrderedField K] {rnd : K → K} {ε : K}

theorem fp_round_unit_range (hr : fp_round rnd ε) (x : K) (h : |x| ≤ 1) :
    (0 ≤ x → 0 ≤ rnd x) ∧ (x ≤ 1 / 2 → rnd x ≤ 1 / 2) ∧ (1 / 2 ≤ x → 1 / 2 ≤ rnd x) ∧
    (x ≤ 1 → rnd x ≤ 1) ∧ (-(1 / 2) ≤ x → -(1 / 2) ≤ rnd x) ∧ (-1 ≤ x → -1 ≤ rnd x) := by
  have a1 := hr.half_grid x 1 h
  have a2 := hr.half_grid x 2 h
  have b1 := hr.half_grid x (-1) h
  have b2 := hr.half_grid x (-2) h
  simp only [Int.cast_one, Int.cast_ofNat, Int.cast_neg] at a1 a2 b1 b2
  rw [div_self (two_ne_zero)] at a2
  rw [neg_div, div_self (two_ne_zero)] at b2
  rw [neg_div] at b1
  exact ⟨(hr.sign x).1, a1.1, a1.2, a2.1, b1.2, b2.2⟩

theorem half_amplitude_range (hr : fp_round rnd ε) (A : K) (h0 : 0 ≤ A) (h1 : A ≤ 1) :
    0 ≤ rnd (A / 2) ∧ rnd (A / 2) ≤ 1 / 2 := by
  have hx : |A / 2| ≤ 1 := by rw [abs_le]; constructor <;> linarith
  obtain ⟨a, b, -⟩ := fp_round_unit_range hr (A / 2) hx
  exact ⟨a (by linarith), b (by linarith)⟩

theorem LEVEL_MAX_range (hr : fp_round rnd ε) (A : K) (h0 : 0 ≤ A) (h1 : A ≤ 1) :
    1 / 2 ≤ LEVEL_MAX rnd A ∧ LEVEL_MAX rnd A ≤ 1 := by
  obtain ⟨a, b⟩ := half_amplitude_range hr A h0 h1
  have hx : |1 / 2 + rnd (A / 2)| ≤ 1 := by rw [abs_le]; constructor <;> linarith
  obtain ⟨-, -, c, d, -⟩ := fp_round_unit_range hr _ hx
  exact ⟨c (by linarith), d (by linarith)⟩

theorem LEVEL_MIN_range (hr : fp_round rnd ε) (A : K) (h0 : 0 ≤ A) (h1 : A ≤ 1) :
    0 ≤ LEVEL_MIN rnd A ∧ LEVEL_MIN rnd A ≤ 1 / 2 := by
  obtain ⟨a, b⟩ := half_amplitude_range hr A h0 h1
  have hx : |1 / 2 - rnd (A / 2)| ≤ 1 := by rw [abs_le]; constructor <;> linarith
  obtain ⟨c, d, -⟩ := fp_round_unit_range hr _ hx
  exact ⟨c (by linarith), d (by linarith)⟩

theorem LEVEL_MAX_exact (hr : fp_round rnd ε) (A : K) (h0 : 0 ≤ A) (h1 : A ≤ 1) :
    rnd (LEVEL_MAX rnd A) = LEVEL_MAX rnd A ∧
    rnd (LEVEL_MAX rnd A - 1 / 2) = LEVEL_MAX rnd A - 1 / 2 ∧
    rnd (1 / 2 - LEVEL_MAX rnd A) = 1 / 2 - LEVEL_MAX rnd A ∧
    rnd (1 - LEVEL_MAX rnd A) = 1 - LEVEL_MAX rnd A := by
  obtain ⟨a, b⟩ := half_amplitude_range hr A h0 h1
  exact hr.exact_upper (1 / 2 + rnd (A / 2)) (by linarith) (by linarith)

/-- The high level and the low level add up to one up to two roundings. -/
theorem level_gap (hr : fp_round rnd ε) (A : K) (h0 : 0 ≤ A) (h1 : A ≤ 1) :
    |1 - LEVEL_MAX rnd A - LEVEL_MIN rnd A| ≤ 2 * ε := by
  obtain ⟨a, b⟩ := half_amplitude_range hr A h0 h1
  have e1 := hr.err (1 / 2 + rnd (A / 2)) (by linarith) (by linarith)
  have e2 := hr.err (1 / 2 - rnd (A / 2)) (by linarith) (by linarith)
  unfold LEVEL_MAX LEVEL_MIN
  rw [abs_le] at e1 e2 ⊢
  constructor <;> linarith

theorem sym_lh_fn_start (hr : fp_round rnd ε) (cos : K → K) (pi A : K) (h0 : 0 ≤ A)
    (h1 : A ≤ 1) (hc : cos (rnd (pi * 0)) = 1) :
    sym_lh_fn rnd cos pi A 0 = 1 - LEVEL_MAX rnd A := by
  obtain ⟨-, e2, -, e4⟩ := LEVEL_MAX_exact hr A h0 h1
  unfold sym_lh_fn LEVEL_MED
  rw [hc, one_mul, e2, e2]
  rw [show (1 : K) / 2 - (LEVEL_MAX rnd A - 1 / 2) = 1 - LEVEL_MAX rnd A by ring, e4]

theorem sym_lh_fn_end (hr : fp_round rnd ε) (cos : K → K) (pi A : K) (h0 : 0 ≤ A)
    (h1 : A ≤ 1) (hc : cos (rnd (pi * 1)) = -1) :
    sym_lh_fn rnd cos pi A 1 = LEVEL_MAX rnd A := by
  obtain ⟨e1, e2, e3, -⟩ := LEVEL_MAX_exact hr A h0 h1
  unfold sym_lh_fn LEVEL_MED
  rw [hc, e2, show (-1 : K) * (LEVEL_MAX rnd A - 1 / 2) = 1 / 2 - LEVEL_MAX rnd A by ring, e3,
    show (1 : K) / 2 - (1 / 2 - LEVEL_MAX rnd A) = LEVEL_MAX rnd A by ring, e1]

theorem sym_hl_fn_start (hr : fp_round rnd ε) (cos : K → K) (pi A : K) (h0 : 0 ≤ A)
    (h1 : A ≤ 1) (hc : cos (rnd (pi * 0)) = 1) :
    sym_hl_fn rnd cos pi A 0 = LEVEL_MAX rnd A := by
  obtain ⟨e1, e2, -, -⟩ := LEVEL_MAX_exact hr A h0 h1
  unfold sym_hl_fn LEVEL_MED
  rw [hc, one_mul, e2, e2,
    show (1 : K) / 2 + (LEVEL_MAX rnd A - 1 / 2) = LEVEL_MAX rnd A by ring, e1]

theorem sym_hl_fn_end (hr : fp_round rnd ε) (cos : K → K) (pi A : K) (h0 : 0 ≤ A)
    (h1 : A ≤ 1) (hc : cos (rnd (pi * 1)) = -1) :
    sym_hl_fn rnd cos pi A 1 = 1 - LEVEL_MAX rnd A := by
  obtain ⟨-, e2, e3, e4⟩ := LEVEL_MAX_exact hr A h0 h1
  unfold sym_hl_fn LEVEL_MED
  rw [hc, e2, show (-1 : K) * (LEVEL_MAX rnd A - 1 / 2) = 1 / 2 - LEVEL_MAX rnd A by ring, e3,
    show (1 : K) / 2 + (1 / 2 - LEVEL_MAX rnd A) = 1 - LEVEL_MAX rnd A by ring, e4]

theorem sym_def_start_rounded (hr : fp_round rnd ε) (cos : K → K) (pi A : K) (h0 : 0 ≤ A)
    (h1 : A ≤ 1) (hc : cos (rnd (pi * 0)) = 1) (s : Sym) :
    sym_def rnd cos pi A s 0 =
      match s with
      | .SYM_L => LEVEL_MIN rnd A
      | .SYM_LH => 1 - LEVEL_MAX rnd A
      | .SYM_H => LEVEL_MAX rnd A
      | .SYM_HL => LEVEL_MAX rnd A := by
  cases s
  · rfl
  · rfl
  · exact sym_lh_fn_start hr cos pi A h0 h1 hc
  · exact sym_hl_fn_start hr cos pi A h0 h1 hc

theorem sym_def_end_rounded (hr : fp_round rnd ε) (cos : K → K) (pi A : K) (h0 : 0 ≤ A)
    (h1 : A ≤ 1) (hc : cos (rnd (pi * 1)) = -1) (s : Sym) :
    sym_def rnd cos pi A s 1 =
      match s with
      | .SYM_L => LEVEL_MIN rnd A
      | .SYM_HL => 1 - LEVEL_MAX rnd A
      | .SYM_H => LEVEL_MAX rnd A
      | .SYM_LH => LEVEL_MAX rnd A := by
  cases s
  · rfl
  · rfl
  · exact sym_lh_fn_end hr cos pi A h0 h1 hc
  · exact sym_hl_fn_end hr cos pi A h0 h1 hc

theorem sym_def_next_rounded (hr : fp_round rnd ε) (cos : K → K) (pi A : K) (h0 : 0 ≤ A)
    (h1 : A ≤ 1) (hc0 : cos (rnd (pi * 0)) = 1) (hc1 : cos (rnd (pi * 1)) = -1)
    (s : Sym) (b : Fin 2) :
    |sym_def rnd cos pi A (ts_next s b) 0 - sym_def rnd cos pi A s 1| ≤ 2 * ε ∧
    (¬ (s = .SYM_L ∧ b = 0) → ¬ (s = .SYM_HL ∧ b = 1) →
      sym_def rnd cos pi A (ts_next s b) 0 = sym_def rnd cos pi A s 1) := by
  have hg := level_gap hr A h0 h1
  have hg2 : |LEVEL_MIN rnd A - (1 - LEVEL_MAX rnd A)| ≤ 2 * ε := by
    rw [abs_sub_comm]; exact hg
  have he : (0 : K) ≤ 2 * ε := by have := hr.eps_nonneg; linarith
  rw [sym_def_start_rounded hr cos pi A h0 h1 hc0, sym_def_end_rounded hr cos pi A h0 h1 hc1]
  fin_cases b <;> cases s <;> simp [ts_next, ts_next_row, he, hg, hg2]

theorem tx_bits_chain_rounded (hr : fp_round rnd ε) (cos : K → K) (pi A : K) (h0 : 0 ≤ A)
    (h1 : A ≤ 1) (hc0 : cos (rnd (pi * 0)) = 1) (hc1 : cos (rnd (pi * 1)) = -1) :
    ∀ (bits : List (Fin 2)) (e : Engine),
    List.Chain
      (fun p n => |sym_def rnd cos pi A n 0 - sym_def rnd cos pi A p 1| ≤ 2 * ε)
      e.ts_last_sym (tx_bits bits e) := by
  intro bits
  induction bits with
  | nil => intro e; exact List.Chain.nil
  | cons b bs ih =>
    intro e
    exact List.Chain.cons (sym_def_next_rounded hr cos pi A h0 h1 hc0 hc1 _ b).1
      (ih (tx_bit b e))

end RoundedLevels

/-! ## The levels at the default amplitude in binary64 -/

theorem rnd64_amplitude_default : rnd64 (9 / 10) = 8106479329266893 / 2 ^ 53 := by
  rw [rnd64_eq (9 / 10) (-53) 8106479329266893
    (by have := ulp_exp_pos (9 / 10) (-1) (by norm_num) (by norm_num) (by norm_num); omega)
    (rne_near _ _ (by norm_num) (by norm_num))]
  norm_num

theorem LEVEL_MIN_default :
    LEVEL_MIN rnd64 (8106479329266893 / 2 ^ 53) = 900719925474099 / 2 ^ 54 := by
  have a : rnd64 (8106479329266893 / 2 ^ 53 / 2) = 8106479329266893 / 2 ^ 54 := by
    rw [rnd64_eq _ (-54) 8106479329266893
      (by have := ulp_exp_pos (8106479329266893 / 2 ^ 53 / 2) (-2) (by norm_num) (by norm_num)
            (by norm_num); omega)
      (rne_near _ _ (by norm_num) (by norm_num))]
    norm_num
  unfold LEVEL_MIN
  rw [a, rnd64_eq _ (-57) 7205759403792792
    (by have := ulp_exp_pos (1 / 2 - 8106479329266893 / 2 ^ 54) (-5) (by norm_num)
          (by norm_num) (by norm_num); omega)
    (rne_near _ _ (by norm_num) (by norm_num))]
  norm_num

theorem LEVEL_MAX_default :
    LEVEL_MAX rnd64 (8106479329266893 / 2 ^ 53) = 8556839292003942 / 2 ^ 53 := by
  have a : rnd64 (8106479329266893 / 2 ^ 53 / 2) = 8106479329266893 / 2 ^ 54 := by
    rw [rnd64_eq _ (-54) 8106479329266893
      (by have := ulp_exp_pos (8106479329266893 / 2 ^ 53 / 2) (-2) (by norm_num) (by norm_num)
            (by norm_num); omega)
      (rne_near _ _ (by norm_num) (by norm_num))]
    norm_num
  unfold LEVEL_MAX
  rw [a, rnd64_eq _ (-53) 8556839292003942
    (by have := ulp_exp_pos (1 / 2 + 8106479329266893 / 2 ^ 54) (-1) (by norm_num)
          (by norm_num) (by norm_num); omega)
    (rne_tie_even _ _ (by norm_num) (by norm_num))]
  norm_num

/-! ## Continuity of the envelope -/

theorem c_pi_eq : Real.arctan 1 * 4 = Real.pi := by
  rw [Real.arctan_one]; ring

theorem sym_def_start (A : ℝ) (s : Sym) :
    sym_def id Real.cos (Real.arctan 1 * 4) A s 0 =
      match s with
      | .SYM_L => LEVEL_MIN id A
      | .SYM_LH => LEVEL_MIN id A
      | .SYM_H => LEVEL_MAX id A
      | .SYM_HL => LEVEL_MAX id A := by
  cases s <;>
    simp [sym_def, sym_l_fn, sym_h_fn, sym_lh_fn, sym_hl_fn, LEVEL_MIN, LEVEL_MAX, LEVEL_MED]

theorem sym_def_end (A : ℝ) (s : Sym) :
    sym_def id Real.cos (Real.arctan 1 * 4) A s 1 =
      match s with
      | .SYM_L => LEVEL_MIN id A
      | .SYM_HL => LEVEL_MIN id A
      | .SYM_H => LEVEL_MAX id A
      | .SYM_LH => LEVEL_MAX id A := by
  cases s <;>
    simp [sym_def, sym_l_fn, sym_h_fn, sym_lh_fn, sym_hl_fn, LEVEL_MIN, LEVEL_MAX, LEVEL_MED,
      c_pi_eq]
  ring

theorem sym_def_next (A : ℝ) (s : Sym) (b : Fin 2) :
    sym_def id Real.cos (Real.arctan 1 * 4) A (ts_next s b) 0 =
      sym_def id Real.cos (Real.arctan 1 * 4) A s 1 := by
  rw [sym_def_start, sym_def_end]
  fin_cases b <;> cases s <;> simp [ts_next, ts_next_row]

theorem tx_bits_chain (A : ℝ) : ∀ (bits : List (Fin 2)) (e : Engine),
    List.Chain
      (fun p n => sym_def id Real.cos (Real.arctan 1 * 4) A n 0 =
        sym_def id Real.cos (Real.arctan 1 * 4) A p 1)
      e.ts_last_sym (tx_bits bits e) := by
  intro bits
  induction bits with
  | nil => intro e; exact List.Chain.nil
  | cons b bs ih =>
    intro e
    exact List.Chain.cons (sym_def_next A _ b) (ih (tx_bit b e))

/-- The start of `LH` and the end of `L` at the default amplitude, in binary64. -/
theorem default_levels_differ (cos : ℚ → ℚ) (pi : ℚ) :
    (cos (rnd64 (pi * 0)) = 1 →
      sym_def rnd64 cos pi (8106479329266893 / 2 ^ 53) .SYM_LH 0 = 900719925474100 / 2 ^ 54) ∧
    (cos (rnd64 (pi * 1)) = -1 →
      sym_def rnd64 cos pi (8106479329266893 / 2 ^ 53) .SYM_HL 1 = 900719925474100 / 2 ^ 54) ∧
    (∀ t, sym_def rnd64 cos pi (8106479329266893 / 2 ^ 53) .SYM_L t =
      900719925474099 / 2 ^ 54) := by
  refine ⟨fun hc => ?_, fun hc => ?_, fun t => ?_⟩
  · rw [sym_def_start_rounded fp_round_rnd64 cos pi _ (by norm_num) (by norm_num) hc]
    simp only []
    rw [LEVEL_MAX_default]
    norm_num
  · rw [sym_def_end_rounded fp_round_rnd64 cos pi _ (by norm_num) (by norm_num) hc]
    simp only []
    rw [LEVEL_MAX_default]
    norm_num
  · exact LEVEL_MIN_default

/-- C2, as amended: (1) in exact arithmetic (`rnd = id` over the reals, `Real.cos`,
`pi = atan(1) * 4`: the real-number model), for every amplitude, symbol and bit the shape
function of `ts_next[s][b]` at `t = 0` equals the shape function of `s` at `t = 1`, and the
symbols enqueued for any bit sequence form a chain under that relation. (2) In the binary64
arithmetic of the program (`rnd = rnd64`), for every amplitude `0 <= A <= 1` and a cosine
that returns `1` at `pi * 0` and `-1` at `pi * 1`: `L` starts and ends at `LEVEL_MIN`, `H`
starts and ends at `LEVEL_MAX`, `LH` starts at `1 - LEVEL_MAX` and ends at `LEVEL_MAX`, `HL`
starts at `LEVEL_MAX` and ends at `1 - LEVEL_MAX`, and `1 - LEVEL_MAX` is within
`2 ^ (-53)` of `LEVEL_MIN`; so the start of `ts_next[s][b]` and the end of `s` are within
`2 ^ (-53)`, and are equal for every transition other than `(L, 0)` and `(HL, 1)`; and for
every bit sequence each enqueued symbol starts within `2 ^ (-53)` of the level at which its
predecessor ended. -/
theorem dbpsk_continuity :
    ((∀ (A : ℝ) (s : Sym) (b : Fin 2),
        sym_def id Real.cos (Real.arctan 1 * 4) A (ts_next s b) 0 =
          sym_def id Real.cos (Real.arctan 1 * 4) A s 1) ∧
      (∀ (A : ℝ) (e : Engine) (bits : List (Fin 2)),
        List.Chain
          (fun p n => sym_def id Real.cos (Real.arctan 1 * 4) A n 0 =
            sym_def id Real.cos (Real.arctan 1 * 4) A p 1)
          e.ts_last_sym (tx_bits bits e))) ∧
    (∀ (cos : ℚ → ℚ) (pi A : ℚ), 0 ≤ A → A ≤ 1 →
      cos (rnd64 (pi * 0)) = 1 → cos (rnd64 (pi * 1)) = -1 →
      (sym_def rnd64 cos pi A .SYM_L 0 = LEVEL_MIN rnd64 A ∧
        sym_def rnd64 cos pi A .SYM_L 1 = LEVEL_MIN rnd64 A ∧
        sym_def rnd64 cos pi A .SYM_H 0 = LEVEL_MAX rnd64 A ∧
        sym_def rnd64 cos pi A .SYM_H 1 = LEVEL_MAX rnd64 A ∧
        sym_def rnd64 cos pi A .SYM_LH 0 = 1 - LEVEL_MAX rnd64 A ∧
        sym_def rnd64 cos pi A .SYM_LH 1 = LEVEL_MAX rnd64 A ∧
        sym_def rnd64 cos pi A .SYM_HL 0 = LEVEL_MAX rnd64 A ∧
        sym_def rnd64 cos pi A .SYM_HL 1 = 1 - LEVEL_MAX rnd64 A ∧
        |1 - LEVEL_MAX rnd64 A - LEVEL_MIN rnd64 A| ≤ 2 ^ (-53 : ℤ)) ∧
      (∀ (s : Sym) (b : Fin 2),
        |sym_def rnd64 cos pi A (ts_next s b) 0 - sym_def rnd64 cos pi A s 1| ≤
          2 ^ (-53 : ℤ)) ∧
      (∀ (s : Sym) (b : Fin 2), ¬ (s = .SYM_L ∧ b = 0) → ¬ (s = .SYM_HL ∧ b = 1) →
        sym_def rnd64 cos pi A (ts_next s b) 0 = sym_def rnd64 cos pi A s 1) ∧
      (∀ (e : Engine) (bits : List (Fin 2)),
        List.Chain
          (fun p n => |sym_def rnd64 cos pi A n 0 - sym_def rnd64 cos pi A p 1| ≤
            2 ^ (-53 : ℤ))
          e.ts_last_sym (tx_bits bits e))) := by
  have h2 : (2 : ℚ) * 2 ^ (-54 : ℤ) = 2 ^ (-53 : ℤ) := by norm_num
  refine ⟨⟨sym_def_next, fun A e bits => tx_bits_chain A bits e⟩, ?_⟩
  intro cos pi A h0 h1 hc0 hc1
  have hs := sym_def_start_rounded fp_round_rnd64 cos pi A h0 h1 hc0
  have he := sym_def_end_rounded fp_round_rnd64 cos pi A h0 h1 hc1
  have hg := level_gap fp_round_rnd64 A h0 h1
  have hn := sym_def_next_rounded fp_round_rnd64 cos pi A h0 h1 hc0 hc1
  have hch := tx_bits_chain_rounded fp_round_rnd64 cos pi A h0 h1 hc0 hc1
  rw [h2] at hg hn hch
  exact ⟨⟨hs .SYM_L, he .SYM_L, hs .SYM_H, he .SYM_H, hs .SYM_LH, he .SYM_LH, hs .SYM_HL,
    he .SYM_HL, hg⟩, fun s b => (hn s b).1, fun s b => (hn s b).2, fun e bits => hch bits e⟩

theorem dbpsk_continuity_witness :
    |sym_def rnd64 (fun x => if x = 0 then 1 else -1) 1 (8106479329266893 / 2 ^ 53)
        (ts_next .SYM_L 0) 0 -
      sym_def rnd64 (fun x => if x = 0 then 1 else -1) 1 (8106479329266893 / 2 ^ 53)
        .SYM_L 1| ≤ 2 ^ (-53 : ℤ) ∧
    sym_def rnd64 (fun x => if x = 0 then 1 else -1) 1 (8106479329266893 / 2 ^ 53)
        (ts_next .SYM_H 0) 0 =
      sym_def rnd64 (fun x => if x = 0 then 1 else -1) 1 (8106479329266893 / 2 ^ 53)
        .SYM_H 1 := by
  have hc0 : (fun x : ℚ => if x = 0 then (1 : ℚ) else -1) (rnd64 (1 * 0)) = 1 := by
    have : rnd64 (1 * 0) = 0 := by
      have := rnd64_sign 0
      rw [mul_zero]
      exact le_antisymm (this.2 le_rfl) (this.1 le_rfl)
    simp only [this, if_true]
  have hc1 : (fun x : ℚ => if x = 0 then (1 : ℚ) else -1) (rnd64 (1 * 1)) = -1 := by
    rw [mul_one, rnd64_one]
    norm_num
  have h := dbpsk_continuity.2 (fun x => if x = 0 then 1 else -1) 1
    (8106479329266893 / 2 ^ 53) (by norm_num) (by norm_num) hc0 hc1
  exact ⟨h.2.1 .SYM_L 0, h.2.2.1 .SYM_H 0 (by decide) (by decide)⟩

/-- C2 as stated fails in the arithmetic of the program: at the default
amplitude `0.9` (the double `8106479329266893 / 2 ^ 53`), with any cosine that returns `1`
at `pi * 0`, the symbol `ts_next[L][0] = LH` starts at `900719925474100 / 2 ^ 54`
(`0.050000000000000044`) while `L` ends at `900719925474099 / 2 ^ 54`
(`0.04999999999999999`). -/
theorem dbpsk_continuity_binary64_gap :
    rnd64 (9 / 10) = 8106479329266893 / 2 ^ 53 ∧
    ts_next .SYM_L 0 = .SYM_LH ∧
    (∀ (cos : ℚ → ℚ) (pi : ℚ), cos (rnd64 (pi * 0)) = 1 →
      sym_def rnd64 cos pi (8106479329266893 / 2 ^ 53) (ts_next .SYM_L 0) 0 =
        900719925474100 / 2 ^ 54 ∧
      sym_def rnd64 cos pi (8106479329266893 / 2 ^ 53) .SYM_L 1 = 900719925474099 / 2 ^ 54 ∧
      sym_def rnd64 cos pi (8106479329266893 / 2 ^ 53) (ts_next .SYM_L 0) 0 ≠
        sym_def rnd64 cos pi (8106479329266893 / 2 ^ 53) .SYM_L 1) := by
  refine ⟨rnd64_amplitude_default, by decide, fun cos pi hc => ?_⟩
  have h := default_levels_differ cos pi
  have e : ts_next .SYM_L 0 = .SYM_LH := by decide
  rw [e, h.1 hc, h.2.2 1]
  exact ⟨rfl, rfl, by norm_num⟩

/-! ## Varicode -/

theorem varicode_decode_encode : ∀ b : Fin 256, varicode_decode (varicode b) = some b := by
  decide!

theorem varicode_injective : Function.Injective varicode := by
  intro a b h
  have := congrArg varicode_decode h
  rw [varicode_decode_encode, varicode_decode_encode] at this
  exact Option.some.inj this

/-- C3: the table has exactly 256 entries, the map from a byte to its entry
`(length, bits)` is injective, and the decoder that searches the table returns `b` for
the codeword of every byte `b`. -/
theorem varicode_round_trip :
    varicode_table.length = 256 ∧ Function.Injective varicode ∧
    ∀ b : Fin 256, varicode_decode (varicode b) = some b :=
  ⟨varicode_table_length, varicode_injective, varicode_decode_encode⟩

theorem varicode_table_ok : ∀ e ∈ varicode_table, codeword_ok e := by
  decide!

theorem varicode_ok (b : Fin 256) : codeword_ok (varicode b) :=
  varicode_table_ok _ (varicode_mem b)

theorem burst_bits_aux_length : ∀ (n : Nat) (b : burst_t), (burst_bits_aux n b).length = n := by
  intro n
  induction n with
  | zero => intro b; rfl
  | succ k ih => intro b; simp [burst_bits_aux, ih]

theorem burst_bits_length (b : burst_t) : (burst_bits b).length = b.b_len :=
  burst_bits_aux_length _ _

theorem bit_at_zero (v : Nat) : bit_at v 0 = v % 2 := by
  simp [bit_at]

theorem bit_at_succ (v i : Nat) : bit_at v (i + 1) = bit_at (v / 2) i := by
  simp [bit_at, Nat.pow_succ, Nat.div_div_eq_div_mul, Nat.mul_comm]

theorem burst_bits_aux_get : ∀ (n : Nat) (b : burst_t) (i : Nat) (x : Fin 2),
    (burst_bits_aux n b)[i]? = some x → i < n ∧ x.val = bit_at b.b_val i := by
  intro n
  induction n with
  | zero => intro b i x h; simp [burst_bits_aux] at h
  | succ k ih =>
    intro b i x h
    cases i with
    | zero =>
      simp [burst_bits_aux] at h
      rw [← h, burst_bit_val, bit_at_zero]
      exact ⟨Nat.succ_pos _, rfl⟩
    | succ j =>
      simp [burst_bits_aux] at h
      obtain ⟨h1, h2⟩ := ih _ _ _ h
      rw [burst_shift_eq] at h2
      rw [bit_at_succ]
      exact ⟨Nat.succ_lt_succ h1, h2⟩

theorem burst_bits_get (b : burst_t) (i : Nat) (x : Fin 2)
    (h : (burst_bits b)[i]? = some x) : i < b.b_len ∧ x.val = bit_at b.b_val i :=
  burst_bits_aux_get _ _ _ _ h

theorem varicode_total_take_succ (b : Fin 256) (bs : List (Fin 256)) (k : Nat) :
    varicode_total ((b :: bs).take (k + 1)) = (varicode b).b_len + varicode_total (bs.take k) := by
  simp [varicode_total]

theorem varicode_stream_zeros : ∀ (msg : List (Fin 256)) (p : Nat),
    (varicode_stream msg)[p]? = some 0 → (varicode_stream msg)[p + 1]? = some 0 →
    ∃ k, k ≤ msg.length ∧ p + 2 = varicode_total (msg.take k) := by
  intro msg
  induction msg with
  | nil => intro p h; simp [varicode_stream] at h
  | cons b bs ih =>
    intro p h0 h1
    obtain ⟨hl3, -, -, -, hlast, hfirst, hthird, hno⟩ := varicode_ok b
    have hlen := burst_bits_length (varicode b)
    simp only [varicode_stream] at h0 h1
    by_cases hp : p + 1 < (varicode b).b_len
    · -- both bits lie in the codeword of `b`
      rw [List.getElem?_append_left (by omega)] at h0 h1
      have g0 := (burst_bits_get _ _ _ h0).2
      have g1 := (burst_bits_get _ _ _ h1).2
      simp at g0 g1
      refine ⟨1, by simp, ?_⟩
      rw [varicode_total_take_succ]
      simp [varicode_total]
      by_contra hne
      by_cases hq : p < (varicode b).b_len - 3
      · exact hno p hq ⟨g0.symm, g1.symm⟩
      · have : p = (varicode b).b_len - 3 := by omega
        rw [this] at g0
        omega
    · by_cases hq : p < (varicode b).b_len
      · -- the last bit of the codeword and the first bit of the next one
        exfalso
        rw [List.getElem?_append_right (by omega)] at h1
        have hp1 : p + 1 - (burst_bits (varicode b)).length = 0 := by omega
        rw [hp1] at h1
        cases bs with
        | nil => simp [varicode_stream] at h1
        | cons c cs =>
          obtain ⟨hc3, -, -, -, -, hcfirst, -, -⟩ := varicode_ok c
          have hclen := burst_bits_length (varicode c)
          simp only [varicode_stream] at h1
          rw [List.getElem?_append_left (by omega)] at h1
          have g1 := (burst_bits_get _ _ _ h1).2
          simp at g1
          omega
      · -- both bits lie behind the codeword of `b`
        rw [List.getElem?_append_right (by omega)] at h0 h1
        have e1 : p + 1 - (burst_bits (varicode b)).length =
            (p - (burst_bits (varicode b)).length) + 1 := by omega
        rw [e1] at h1
        obtain ⟨k, hk, hsum⟩ := ih _ h0 h1
        refine ⟨k + 1, by simpa using hk, ?_⟩
        rw [varicode_total_take_succ]
        omega

/-- C4: every table entry has 3 to 14 bits, its value is below `2^(length-2)` so that
the last two bits sent (positions `length-2` and `length-1`) are 0, its first bit and
its bit `length-3` are 1, and no two neighbouring bits at positions `i`, `i+1` with
`i < length-3` are both 0; consequently, in the bit stream of the codewords of any
sequence of bytes, two consecutive 0 bits are the final two bits of a codeword. -/
theorem varicode_codeword_shape :
    (∀ b : Fin 256,
      3 ≤ (varicode b).b_len ∧ (varicode b).b_len ≤ 14 ∧
      (varicode b).b_val < 2 ^ ((varicode b).b_len - 2) ∧
      bit_at (varicode b).b_val ((varicode b).b_len - 2) = 0 ∧
      bit_at (varicode b).b_val ((varicode b).b_len - 1) = 0 ∧
      bit_at (varicode b).b_val 0 = 1 ∧
      bit_at (varicode b).b_val ((varicode b).b_len - 3) = 1 ∧
      ∀ i, i < (varicode b).b_len - 3 →
        ¬ (bit_at (varicode b).b_val i = 0 ∧ bit_at (varicode b).b_val (i + 1) = 0)) ∧
    (∀ (msg : List (Fin 256)) (p : Nat),
      (varicode_stream msg)[p]? = some 0 → (varicode_stream msg)[p + 1]? = some 0 →
      ∃ k, k ≤ msg.length ∧ p + 2 = varicode_total (msg.take k)) :=
  ⟨varicode_ok, varicode_stream_zeros⟩

/-! ## The state machine -/

/-- C5: the pass of the state machine that runs when the burst is empty follows the
transition table, for every value of `sendcount`, `fill_timeout` and `option_timeout`. -/
theorem fsm_step_table (option_timeout : Int) (g : GoState) :
    (g.state = .STATE_IDLE → (option_timeout < 0 ∨ g.sendcount ≠ 0) →
      fsm_step option_timeout g = { g with state := .STATE_START, curburst := ⟨20, 0⟩ }) ∧
    (g.state = .STATE_IDLE → ¬ (option_timeout < 0 ∨ g.sendcount ≠ 0) →
      fsm_step option_timeout g = { g with state := .STATE_IDLE, curburst := ⟨1, 1⟩ }) ∧
    (g.state = .STATE_START →
      fsm_step option_timeout g = { g with state := .STATE_SEND }) ∧
    (g.state = .STATE_SEND → g.sendcount ≠ 0 →
      fsm_step option_timeout g =
        { g with
          state := .STATE_SEND
          curburst := varicode (g.sendbuf g.sendread)
          sendcount := g.sendcount - 1
          sendread := if g.sendread + 1 = 128 then 0 else g.sendread + 1 } ∧
      varicode_table[(g.sendbuf g.sendread).val]? = some (varicode (g.sendbuf g.sendread))) ∧
    (g.state = .STATE_SEND → g.sendcount = 0 →
      fsm_step option_timeout g =
        { g with state := .STATE_FILL, fill_timeout := option_timeout }) ∧
    (g.state = .STATE_FILL → g.sendcount ≠ 0 →
      fsm_step option_timeout g = { g with state := .STATE_SEND }) ∧
    (g.state = .STATE_FILL → g.sendcount = 0 → g.fill_timeout ≠ 0 →
      fsm_step option_timeout g =
        { g with
          state := .STATE_FILL
          curburst := ⟨1, 0⟩
          fill_timeout := if 0 < g.fill_timeout then g.fill_timeout - 1 else g.fill_timeout }) ∧
    (g.state = .STATE_FILL → g.sendcount = 0 → g.fill_timeout = 0 →
      fsm_step option_timeout g = { g with state := .STATE_STOP, curburst := ⟨20, 0x000fffff⟩ }) ∧
    (g.state = .STATE_STOP →
      fsm_step option_timeout g = { g with state := .STATE_IDLE }) := by
  obtain ⟨sendbuf, sendread, sendwrite, sendcount, curburst, state, fill_timeout⟩ := g
  refine ⟨?_, ?_, ?_, ?_, ?_, ?_, ?_, ?_, ?_⟩
  · rintro h hc
    simp only at h hc
    subst h
    simp [fsm_step, hc, starting_burst]
  · rintro h hc
    simp only at h hc
    subst h
    simp [fsm_step, hc, idle_burst]
  · rintro h
    simp only at h
    subst h
    simp [fsm_step]
  · rintro h hc
    simp only at h hc
    subst h
    refine ⟨by simp [fsm_step, hc, SENDSIZE], ?_⟩
    have hlt : (sendbuf sendread).val < varicode_table.length := by
      rw [varicode_table_length]; exact (sendbuf sendread).isLt
    simp only [varicode, List.getD_eq_getElem _ _ hlt]
    exact List.getElem?_eq_getElem hlt
  · rintro h hc
    simp only at h hc
    subst h
    simp [fsm_step, hc]
  · rintro h hc
    simp only at h hc
    subst h
    simp [fsm_step, hc]
  · rintro h hc hf
    simp only at h hc hf
    subst h
    simp [fsm_step, hc, hf, fill_burst]
  · rintro h hc hf
    simp only at h hc hf
    subst h
    simp [fsm_step, hc, hf, ending_burst]
  · rintro h
    simp only at h
    subst h
    simp [fsm_step]

/-! ## Runs of the feed loop -/

theorem get_burst_fuel (ot : Int) (fuel : Nat) (g : GoState) :
    get_burst ot (fuel + 3) g = get_burst ot 3 g := by
  obtain ⟨g0, h⟩ := get_burst_three ot g
  rw [h, Nat.add_comm]
  exact get_burst_mono_add ot 3 fuel g g0 h

theorem feed_bit_fuel (ot : Int) (fuel : Nat) (g : GoState) (e : Engine) :
    feed_bit ot (fuel + 3) g e = feed_bit ot 3 g e := by
  simp only [feed_bit, get_burst_fuel]

theorem feed_hw_fuel (ot : Int) (fuel : Nat) : ∀ (n : Nat) (g : GoState) (e : Engine),
    feed_hw ot (fuel + 3) n g e = feed_hw ot 3 n g e := by
  intro n
  induction n with
  | zero => intro g e; rfl
  | succ k ih =>
    intro g e
    simp only [feed_hw, feed_bit_fuel]
    cases feed_bit ot 3 g e with
    | none => rfl
    | some r => obtain ⟨b, g1, e1⟩ := r; simp only [ih]

theorem get_burst_fsm (ot : Int) (g : GoState) (h : g.curburst.b_len = 0) :
    get_burst ot 3 g = get_burst ot 3 (fsm_step ot g) := by
  obtain ⟨g0, h0⟩ := get_burst_three ot g
  have h1 : get_burst ot 2 (fsm_step ot g) = some g0 := by
    rw [← get_burst_succ ot 2 g h]; exact h0
  rw [h0]
  exact (get_burst_mono ot 2 _ _ h1).symm

theorem feed_bit_fsm (ot : Int) (g : GoState) (e : Engine) (h : g.curburst.b_len = 0) :
    feed_bit ot 3 g e = feed_bit ot 3 (fsm_step ot g) e := by
  simp only [feed_bit, get_burst_fsm ot g h]

theorem feed_hw_fsm (ot : Int) (n : Nat) (g : GoState) (e : Engine) (hn : 0 < n)
    (h : g.curburst.b_len = 0) :
    feed_hw ot 3 n g e = feed_hw ot 3 n (fsm_step ot g) e := by
  cases n with
  | zero => omega
  | succ k => simp only [feed_hw, feed_bit_fsm ot g e h]

theorem feed_bit_send (ot : Int) (g : GoState) (e : Engine) (h : g.curburst.b_len ≠ 0) :
    feed_bit ot 3 g e =
      some (burst_bit g.curburst, { g with curburst := burst_shift g.curburst },
        tx_bit (burst_bit g.curburst) e) := by
  simp only [feed_bit, get_burst_of_len_ne_zero ot 3 g h]

theorem feed_hw_burst (ot : Int) : ∀ (n : Nat) (g : GoState) (e : Engine),
    g.curburst.b_len = n →
    ∃ e1, feed_hw ot 3 n g e =
      some (burst_bits g.curburst, { g with curburst := ⟨0, g.curburst.b_val >>> n⟩ }, e1) := by
  intro n
  induction n with
  | zero =>
    intro g e h
    refine ⟨e, ?_⟩
    obtain ⟨sendbuf, sendread, sendwrite, sendcount, ⟨len, val⟩, state, fill_timeout⟩ := g
    simp only at h
    subst h
    simp [feed_hw, burst_bits, burst_bits_aux]
  | succ k ih =>
    intro g e h
    obtain ⟨sendbuf, sendread, sendwrite, sendcount, ⟨len, val⟩, state, fill_timeout⟩ := g
    simp only at h
    subst h
    obtain ⟨e1, h1⟩ := ih ⟨sendbuf, sendread, sendwrite, sendcount, burst_shift ⟨k + 1, val⟩,
      state, fill_timeout⟩ (tx_bit (burst_bit ⟨k + 1, val⟩) e) (by simp [burst_shift])
    refine ⟨e1, ?_⟩
    rw [feed_hw, feed_bit_send ot _ e (by simp)]
    simp only [h1]
    simp [burst_bits, burst_bits_aux, burst_shift, Nat.shiftRight_add]
    rw [← Nat.shiftRight_add, ← Nat.shiftRight_add, Nat.add_comm]

theorem feed_hw_append (ot : Int) : ∀ (a b : Nat) (g g1 g2 : GoState) (e e1 e2 : Engine)
    (bs1 bs2 : List (Fin 2)),
    feed_hw ot 3 a g e = some (bs1, g1, e1) → feed_hw ot 3 b g1 e1 = some (bs2, g2, e2) →
    feed_hw ot 3 (a + b) g e = some (bs1 ++ bs2, g2, e2) := by
  intro a
  induction a with
  | zero =>
    intro b g g1 g2 e e1 e2 bs1 bs2 h1 h2
    simp only [feed_hw, Option.some.injEq, Prod.mk.injEq] at h1
    obtain ⟨rfl, rfl, rfl⟩ := h1
    simpa using h2
  | succ k ih =>
    intro b g g1 g2 e e1 e2 bs1 bs2 h1 h2
    rw [Nat.add_right_comm, feed_hw]
    rw [feed_hw] at h1
    cases hb : feed_bit ot 3 g e with
    | none => simp [hb] at h1
    | some r =>
      obtain ⟨x, gm, em⟩ := r
      simp only [hb] at h1 ⊢
      cases hk : feed_hw ot 3 k gm em with
      | none => simp [hk] at h1
      | some r2 =>
        obtain ⟨bs, g3, e3⟩ := r2
        simp only [hk, Option.some.injEq, Prod.mk.injEq] at h1
        obtain ⟨rfl, rfl, rfl⟩ := h1
        rw [ih b gm _ g2 em _ e2 bs bs2 hk h2]
        rfl

theorem feed_hw_split (ot : Int) : ∀ (a b : Nat) (g g2 : GoState) (e e2 : Engine)
    (bits : List (Fin 2)),
    feed_hw ot 3 (a + b) g e = some (bits, g2, e2) →
    ∃ bs1 g1 e1 bs2, feed_hw ot 3 a g e = some (bs1, g1, e1) ∧
      feed_hw ot 3 b g1 e1 = some (bs2, g2, e2) ∧ bits = bs1 ++ bs2 := by
  intro a
  induction a with
  | zero =>
    intro b g g2 e e2 bits h
    exact ⟨[], g, e, bits, rfl, by simpa using h, rfl⟩
  | succ k ih =>
    intro b g g2 e e2 bits h
    rw [Nat.add_right_comm, feed_hw] at h
    cases hb : feed_bit ot 3 g e with
    | none => simp [hb] at h
    | some r =>
      obtain ⟨x, gm, em⟩ := r
      simp only [hb] at h
      cases hk : feed_hw ot 3 (k + b) gm em with
      | none => simp [hk] at h
      | some r2 =>
        obtain ⟨bs, g3, e3⟩ := r2
        simp only [hk, Option.some.injEq, Prod.mk.injEq] at h
        obtain ⟨rfl, rfl, rfl⟩ := h
        obtain ⟨bs1, g1, e1, bs2, h1, h2, h3⟩ := ih b gm _ em _ bs hk
        refine ⟨x :: bs1, g1, e1, bs2, ?_, h2, by simp [h3]⟩
        simp only [feed_hw, hb, h1]

theorem burst_bits_starting : burst_bits starting_burst = List.replicate 20 0 := by
  decide

theorem burst_bits_ending : burst_bits ending_burst = List.replicate 20 1 := by
  decide

theorem burst_bits_fill : burst_bits fill_burst = [0] := by
  decide

theorem burst_bits_idle : burst_bits idle_burst = [1] := by
  decide

theorem feed_hw_msg (ot : Int) : ∀ (msg : List (Fin 256)) (g : GoState) (e : Engine),
    g.state = .STATE_SEND → g.curburst.b_len = 0 → g.sendcount = msg.length →
    g.sendread < 128 →
    (∀ (i : Nat) (h : i < msg.length), g.sendbuf ((g.sendread + i) % 128) = msg[i]) →
    ∃ g1 e1, feed_hw ot 3 (varicode_total msg) g e = some (varicode_stream msg, g1, e1) ∧
      g1.state = .STATE_SEND ∧ g1.curburst.b_len = 0 ∧ g1.sendcount = 0 := by
  intro msg
  induction msg with
  | nil =>
    intro g e hs hb hc _ _
    exact ⟨g, e, rfl, hs, hb, by simpa using hc⟩
  | cons b bs ih =>
    intro g e hs hb hc hr hbuf
    obtain ⟨sendbuf, sendread, sendwrite, sendcount, curburst, state, fill_timeout⟩ := g
    simp only at hs hb hc hr hbuf
    subst hs
    have hne : sendcount ≠ 0 := by
      rw [hc]; simp
      omega
    have hb0 : sendbuf sendread = b := by
      have := hbuf 0 (by simp)
      simpa [Nat.mod_eq_of_lt hr] using this
    have hl3 : 3 ≤ (varicode b).b_len := (varicode_ok b).1
    have hstep : fsm_step ot ⟨sendbuf, sendread, sendwrite, sendcount, curburst,
        .STATE_SEND, fill_timeout⟩ =
        ⟨sendbuf, if sendread + 1 = 128 then 0 else sendread + 1, sendwrite, sendcount - 1,
          varicode b, .STATE_SEND, fill_timeout⟩ := by
      simp [fsm_step, hne, hb0, SENDSIZE]
    obtain ⟨e1, h1⟩ := feed_hw_burst ot (varicode b).b_len
      ⟨sendbuf, if sendread + 1 = 128 then 0 else sendread + 1, sendwrite, sendcount - 1,
        varicode b, .STATE_SEND, fill_timeout⟩ e rfl
    obtain ⟨g2, e2, h2, hs2, hb2, hc2⟩ := ih
      ⟨sendbuf, if sendread + 1 = 128 then 0 else sendread + 1, sendwrite, sendcount - 1,
        ⟨0, (varicode b).b_val >>> (varicode b).b_len⟩, .STATE_SEND, fill_timeout⟩ e1
      rfl rfl (by simp only [hc]; simp [List.length_cons]) (by simp only; split_ifs <;> omega)
      (by
        intro i hi
        have := hbuf (i + 1) (by simpa using hi)
        simp only [List.getElem_cons_succ] at this
        have hidx : ((if sendread + 1 = 128 then 0 else sendread + 1) + i) % 128 =
            (sendread + (i + 1)) % 128 := by
          split_ifs <;> omega
        simp only [hidx]
        exact this)
    refine ⟨g2, e2, ?_, hs2, hb2, hc2⟩
    simp only [varicode_total, varicode_stream]
    rw [feed_hw_fsm ot _ _ e (by omega) hb, hstep]
    exact feed_hw_append ot _ _ _ _ _ _ _ _ _ _ h1 h2

theorem feed_hw_fill (ot : Int) : ∀ (t : Nat) (g : GoState) (e : Engine),
    g.state = .STATE_FILL → g.curburst.b_len = 0 → g.sendcount = 0 → g.fill_timeout = t →
    ∃ g1 e1, feed_hw ot 3 t g e = some (List.replicate t 0, g1, e1) ∧
      g1.state = .STATE_FILL ∧ g1.curburst.b_len = 0 ∧ g1.sendcount = 0 ∧
      g1.fill_timeout = 0 := by
  intro t
  induction t with
  | zero =>
    intro g e hs hb hc hf
    exact ⟨g, e, rfl, hs, hb, hc, by simpa using hf⟩
  | succ k ih =>
    intro g e hs hb hc hf
    obtain ⟨sendbuf, sendread, sendwrite, sendcount, curburst, state, fill_timeout⟩ := g
    simp only at hs hb hc hf
    subst hs hc hf
    have hstep : fsm_step ot ⟨sendbuf, sendread, sendwrite, 0, curburst,
        .STATE_FILL, ((k + 1 : Nat) : Int)⟩ =
        ⟨sendbuf, sendread, sendwrite, 0, fill_burst, .STATE_FILL, (k : Int)⟩ := by
      have h1 : ((k : Int) + 1) ≠ 0 := by omega
      have h2 : (0 : Int) < (k : Int) + 1 := by omega
      simp [fsm_step, h1, h2]
    obtain ⟨e1, h1⟩ := feed_hw_burst ot 1
      ⟨sendbuf, sendread, sendwrite, 0, fill_burst, .STATE_FILL, (k : Int)⟩ e rfl
    obtain ⟨g2, e2, h2, hs2, hb2, hc2, hf2⟩ := ih
      ⟨sendbuf, sendread, sendwrite, 0, ⟨0, fill_burst.b_val >>> 1⟩, .STATE_FILL, (k : Int)⟩ e1
      rfl rfl rfl rfl
    refine ⟨g2, e2, ?_, hs2, hb2, hc2, hf2⟩
    rw [feed_hw_fsm ot _ _ e (by omega) hb, hstep, Nat.add_comm k 1]
    have := feed_hw_append ot _ _ _ _ _ _ _ _ _ _ h1 h2
    rw [this, burst_bits_fill, Nat.add_comm 1 k, List.replicate_succ]
    rfl

theorem feed_hw_idle (ot : Int) (hot : 0 ≤ ot) : ∀ (k : Nat) (g : GoState) (e : Engine),
    g.state = .STATE_IDLE → g.curburst.b_len = 0 → g.sendcount = 0 →
    ∃ g1 e1, feed_hw ot 3 k g e = some (List.replicate k 1, g1, e1) ∧
      g1.state = .STATE_IDLE ∧ g1.curburst.b_len = 0 ∧ g1.sendcount = 0 := by
  intro k
  induction k with
  | zero =>
    intro g e hs hb hc
    exact ⟨g, e, rfl, hs, hb, hc⟩
  | succ k ih =>
    intro g e hs hb hc
    obtain ⟨sendbuf, sendread, sendwrite, sendcount, curburst, state, fill_timeout⟩ := g
    simp only at hs hb hc
    subst hs hc
    have hstep : fsm_step ot ⟨sendbuf, sendread, sendwrite, 0, curburst,
        .STATE_IDLE, fill_timeout⟩ =
        ⟨sendbuf, sendread, sendwrite, 0, idle_burst, .STATE_IDLE, fill_timeout⟩ := by
      have h1 : ¬ ot < 0 := by omega
      simp [fsm_step, h1]
    obtain ⟨e1, h1⟩ := feed_hw_burst ot 1
      ⟨sendbuf, sendread, sendwrite, 0, idle_burst, .STATE_IDLE, fill_timeout⟩ e rfl
    obtain ⟨g2, e2, h2, hs2, hb2, hc2⟩ := ih
      ⟨sendbuf, sendread, sendwrite, 0, ⟨0, idle_burst.b_val >>> 1⟩, .STATE_IDLE, fill_timeout⟩ e1
      rfl rfl rfl
    refine ⟨g2, e2, ?_, hs2, hb2, hc2⟩
    rw [feed_hw_fsm ot _ _ e (by omega) hb, hstep, Nat.add_comm k 1]
    have := feed_hw_append ot _ _ _ _ _ _ _ _ _ _ h1 h2
    rw [this, burst_bits_idle, Nat.add_comm 1 k, List.replicate_succ]
    rfl

theorem get_burst_inv (ot : Int) (P : GoState → Prop)
    (hstep : ∀ g, g.curburst.b_len = 0 → P g → P (fsm_step ot g)) :
    ∀ (fuel : Nat) (g g0 : GoState), P g → get_burst ot fuel g = some g0 → P g0 := by
  intro fuel
  induction fuel with
  | zero =>
    intro g g0 hp h
    by_cases hl : g.curburst.b_len = 0
    · simp [get_burst, hl] at h
    · simp [get_burst, hl] at h
      rw [← h]; exact hp
  | succ k ih =>
    intro g g0 hp h
    by_cases hl : g.curburst.b_len = 0
    · rw [get_burst_succ ot _ g hl] at h
      exact ih _ _ (hstep g hl hp) h
    · rw [get_burst_of_len_ne_zero ot _ g hl] at h
      simp at h
      rw [← h]; exact hp

theorem feed_hw_inv (ot : Int) (P : GoState → Prop)
    (hstep : ∀ g, g.curburst.b_len = 0 → P g → P (fsm_step ot g))
    (hshift : ∀ g : GoState, P g → P { g with curburst := burst_shift g.curburst }) :
    ∀ (n : Nat) (g g1 : GoState) (e e1 : Engine) (bits : List (Fin 2)),
    P g → feed_hw ot 3 n g e = some (bits, g1, e1) → P g1 := by
  intro n
  induction n with
  | zero =>
    intro g g1 e e1 bits hp h
    simp only [feed_hw, Option.some.injEq, Prod.mk.injEq] at h
    obtain ⟨-, rfl, -⟩ := h
    exact hp
  | succ k ih =>
    intro g g1 e e1 bits hp h
    rw [feed_hw] at h
    cases hg : get_burst ot 3 g with
    | none => simp [feed_bit, hg] at h
    | some g0 =>
      simp only [feed_bit, hg] at h
      cases hk : feed_hw ot 3 k { g0 with curburst := burst_shift g0.curburst }
          (tx_bit (burst_bit g0.curburst) e) with
      | none => simp [hk] at h
      | some r =>
        obtain ⟨bs, g3, e3⟩ := r
        simp only [hk, Option.some.injEq, Prod.mk.injEq] at h
        obtain ⟨-, rfl, -⟩ := h
        exact ih _ _ _ _ _ (hshift _ (get_burst_inv ot P hstep 3 g g0 hp hg)) hk

/-- With a non-negative timeout, `IDLE` with an empty input buffer is never left. -/
theorem feed_hw_idle_absorbing (ot : Int) (hot : 0 ≤ ot) (n : Nat) (g g1 : GoState)
    (e e1 : Engine) (bits : List (Fin 2))
    (hp : g.state = .STATE_IDLE ∧ g.sendcount = 0)
    (h : feed_hw ot 3 n g e = some (bits, g1, e1)) :
    g1.state = .STATE_IDLE ∧ g1.sendcount = 0 := by
  refine feed_hw_inv ot (fun g => g.state = .STATE_IDLE ∧ g.sendcount = 0) ?_ ?_
    n g g1 e e1 bits hp h
  · rintro g - ⟨hs, hc⟩
    have h1 : ¬ ot < 0 := by omega
    simp [fsm_step, hs, hc, h1]
  · rintro g ⟨hs, hc⟩
    exact ⟨hs, hc⟩

/-- Without new input, `STOP` and `IDLE` are only entered with an empty input buffer. -/
theorem feed_hw_stop_empty (ot : Int) (n : Nat) (g g1 : GoState)
    (e e1 : Engine) (bits : List (Fin 2))
    (hp : g.state = .STATE_STOP ∨ g.state = .STATE_IDLE → g.sendcount = 0)
    (h : feed_hw ot 3 n g e = some (bits, g1, e1)) :
    g1.state = .STATE_STOP ∨ g1.state = .STATE_IDLE → g1.sendcount = 0 := by
  refine feed_hw_inv ot
    (fun g => g.state = .STATE_STOP ∨ g.state = .STATE_IDLE → g.sendcount = 0) ?_ ?_
    n g g1 e e1 bits hp h
  · intro g _ hj
    rcases hs : g.state with _ | _ | _ | _ | _ <;>
    by_cases hc : g.sendcount = 0 <;>
    by_cases hf : g.fill_timeout = 0 <;>
    by_cases hn : ot < 0 <;>
    simp [hs] at hj <;>
    simp [fsm_step, hs, hc, hf, hn, hj]
  · intro g hj
    exact hj

/-- The preamble and the buffered bytes: from `IDLE` with the bytes `msg` buffered, the
first `20 + varicode_total msg` passes send 20 zero bits and the codewords of `msg`. -/
theorem feed_hw_start_msg (ot : Int) (msg : List (Fin 256)) (hne : msg ≠ [])
    (g : GoState) (e : Engine)
    (hs : g.state = .STATE_IDLE) (hb : g.curburst.b_len = 0)
    (hc : g.sendcount = msg.length) (hr : g.sendread < 128)
    (hbuf : ∀ (i : Nat) (h : i < msg.length), g.sendbuf ((g.sendread + i) % 128) = msg[i]) :
    ∃ g1 e1, feed_hw ot 3 (20 + varicode_total msg) g e =
        some (List.replicate 20 0 ++ varicode_stream msg, g1, e1) ∧
      g1.state = .STATE_SEND ∧ g1.curburst.b_len = 0 ∧ g1.sendcount = 0 := by
  obtain ⟨sendbuf, sendread, sendwrite, sendcount, curburst, state, fill_timeout⟩ := g
  simp only at hs hb hc hr hbuf
  subst hs
  have hlen : 0 < msg.length := List.length_pos.mpr hne
  have hne0 : sendcount ≠ 0 := by rw [hc]; omega
  have htot : 0 < varicode_total msg := by
    cases msg with
    | nil => exact absurd rfl hne
    | cons b bs =>
      have := (varicode_ok b).1
      simp only [varicode_total]; omega
  have hstep : fsm_step ot ⟨sendbuf, sendread, sendwrite, sendcount, curburst,
      .STATE_IDLE, fill_timeout⟩ =
      ⟨sendbuf, sendread, sendwrite, sendcount, starting_burst, .STATE_START, fill_timeout⟩ := by
    simp [fsm_step, hne0]
  obtain ⟨e1, h1⟩ := feed_hw_burst ot 20
    ⟨sendbuf, sendread, sendwrite, sendcount, starting_burst, .STATE_START, fill_timeout⟩ e rfl
  have hstep2 : fsm_step ot ⟨sendbuf, sendread, sendwrite, sendcount,
      ⟨0, starting_burst.b_val >>> 20⟩, .STATE_START, fill_timeout⟩ =
      ⟨sendbuf, sendread, sendwrite, sendcount,
      ⟨0, starting_burst.b_val >>> 20⟩, .STATE_SEND, fill_timeout⟩ := by
    simp [fsm_step]
  obtain ⟨g2, e2, h2, hs2, hb2, hc2⟩ := feed_hw_msg ot msg
    ⟨sendbuf, sendread, sendwrite, sendcount,
      ⟨0, starting_burst.b_val >>> 20⟩, .STATE_SEND, fill_timeout⟩ e1 rfl rfl hc hr hbuf
  refine ⟨g2, e2, ?_, hs2, hb2, hc2⟩
  rw [feed_hw_fsm ot _ _ e (by omega) hb, hstep]
  rw [← hstep2, ← feed_hw_fsm ot _ _ e1 htot rfl] at h2
  have := feed_hw_append ot _ _ _ _ _ _ _ _ _ _ h1 h2
  rw [this, burst_bits_starting]

/-- The fill bits and the postamble: from `SEND` with an empty buffer. -/
theorem feed_hw_tail (T : Nat) (g : GoState) (e : Engine)
    (hs : g.state = .STATE_SEND) (hb : g.curburst.b_len = 0) (hc : g.sendcount = 0) :
    ∃ g1 e1, feed_hw T 3 (T + 20) g e =
        some (List.replicate T 0 ++ List.replicate 20 1, g1, e1) ∧
      g1.state = .STATE_STOP ∧ g1.curburst.b_len = 0 ∧ g1.sendcount = 0 := by
  obtain ⟨sendbuf, sendread, sendwrite, sendcount, curburst, state, fill_timeout⟩ := g
  simp only at hs hb hc
  subst hs hc
  have hstep : fsm_step T ⟨sendbuf, sendread, sendwrite, 0, curburst,
      .STATE_SEND, fill_timeout⟩ =
      ⟨sendbuf, sendread, sendwrite, 0, curburst, .STATE_FILL, T⟩ := by
    simp [fsm_step]
  obtain ⟨⟨sb, sr, sw, sc, cb, st, ft⟩, e1, h1, hs1, hb1, hc1, hf1⟩ := feed_hw_fill T T
    ⟨sendbuf, sendread, sendwrite, 0, curburst, .STATE_FILL, T⟩ e rfl hb rfl rfl
  simp only at hs1 hb1 hc1 hf1
  subst hs1 hc1 hf1
  have hstep1 : fsm_step T ⟨sb, sr, sw, 0, cb, .STATE_FILL, 0⟩ =
      ⟨sb, sr, sw, 0, ending_burst, .STATE_STOP, 0⟩ := by
    simp [fsm_step]
  obtain ⟨e2, h2⟩ := feed_hw_burst T 20 ⟨sb, sr, sw, 0, ending_burst, .STATE_STOP, 0⟩ e1 rfl
  have h3 : feed_hw T 3 20 ⟨sb, sr, sw, 0, cb, .STATE_FILL, 0⟩ e1 =
      some (burst_bits ending_burst,
        ⟨sb, sr, sw, 0, ⟨0, ending_burst.b_val >>> 20⟩, .STATE_STOP, 0⟩, e2) := by
    rw [feed_hw_fsm T 20 _ e1 (by omega) hb1, hstep1]
    exact h2
  refine ⟨⟨sb, sr, sw, 0, ⟨0, ending_burst.b_val >>> 20⟩, .STATE_STOP, 0⟩, e2, ?_, rfl, rfl, rfl⟩
  rw [feed_hw_fsm T _ _ e (by omega) hb, hstep]
  have := feed_hw_append T _ _ _ _ _ _ _ _ _ _ h1 h3
  rw [this, burst_bits_ending]

/-- C6: with timeout `T >= 0` and the non-empty byte sequence `msg` (at most 128 bytes)
in the input buffer when the state machine is in `IDLE` with an empty burst, and no
further input, the feed loop sends 20 zero bits, the codewords of the bytes in order,
`T` zero bits and 20 one bits, `20 + varicode_total msg + T + 20` bits in all; after
none of these passes the state is `IDLE`, after the last it is `STOP`, and from then on
every pass sends the bit 1 in state `IDLE`. -/
theorem message_framing (T : Nat) (msg : List (Fin 256)) (hne : msg ≠ [])
    (_hlen : msg.length ≤ 128) (fuel : Nat) (g : GoState) (e : Engine)
    (hs : g.state = .STATE_IDLE) (hb : g.curburst.b_len = 0)
    (hc : g.sendcount = msg.length) (hr : g.sendread < 128)
    (hbuf : ∀ (i : Nat) (h : i < msg.length), g.sendbuf ((g.sendread + i) % 128) = msg[i]) :
    ∃ g1 e1,
      feed_hw T (fuel + 3) (20 + varicode_total msg + T + 20) g e =
        some (List.replicate 20 0 ++ varicode_stream msg ++ List.replicate T 0 ++
          List.replicate 20 1, g1, e1) ∧
      g1.state = .STATE_STOP ∧ g1.curburst.b_len = 0 ∧
      (∀ k, 1 ≤ k → k ≤ 20 + varicode_total msg + T + 20 →
        ∃ bits gk ek, feed_hw T (fuel + 3) k g e = some (bits, gk, ek) ∧
          gk.state ≠ .STATE_IDLE) ∧
      (∀ k, ∃ g2 e2, feed_hw T (fuel + 3) (k + 1) g1 e1 =
          some (List.replicate (k + 1) 1, g2, e2) ∧
        g2.state = .STATE_IDLE ∧ g2.sendcount = 0) := by
  simp only [feed_hw_fuel]
  obtain ⟨g4, e4, h4, hs4, hb4, hc4⟩ := feed_hw_start_msg T msg hne g e hs hb hc hr hbuf
  obtain ⟨g8, e8, h8, hs8, hb8, hc8⟩ := feed_hw_tail T g4 e4 hs4 hb4 hc4
  have hall : feed_hw T 3 (20 + varicode_total msg + T + 20) g e =
      some (List.replicate 20 0 ++ varicode_stream msg ++ List.replicate T 0 ++
        List.replicate 20 1, g8, e8) := by
    have := feed_hw_append T _ _ _ _ _ _ _ _ _ _ h4 h8
    rw [Nat.add_assoc (20 + varicode_total msg) T 20, this]
    simp [List.append_assoc]
  refine ⟨g8, e8, hall, hs8, hb8, ?_, ?_⟩
  · intro k hk1 hk2
    obtain ⟨j, hj⟩ : ∃ j, 20 + varicode_total msg + T + 20 = k + j := ⟨_, (Nat.add_sub_cancel' hk2).symm⟩
    rw [hj] at hall
    obtain ⟨bs1, gk, ek, bs2, hk, hrest, -⟩ := feed_hw_split T k j g g8 e e8 _ hall
    refine ⟨bs1, gk, ek, hk, ?_⟩
    intro hidle
    have hne0 : g.sendcount ≠ 0 := by
      have := List.length_pos.mpr hne
      rw [hc]; omega
    have hstart : (fsm_step T g).state = .STATE_START := by
      simp [fsm_step, hs, hne0]
    rw [feed_hw_fsm T k g e (by omega) hb] at hk
    have hj0 := feed_hw_stop_empty T k _ gk e ek bs1 (by simp [hstart]) hk (Or.inr hidle)
    have := (feed_hw_idle_absorbing T (by omega) j gk g8 ek e8 bs2 ⟨hidle, hj0⟩ hrest).1
    rw [hs8] at this
    exact absurd this (by decide)
  · intro k
    have hstep : (fsm_step T g8).state = .STATE_IDLE ∧ (fsm_step T g8).curburst.b_len = 0 ∧
        (fsm_step T g8).sendcount = 0 := by
      simp [fsm_step, hs8, hb8, hc8]
    obtain ⟨g2, e2, h2, hs2, -, hc2⟩ := feed_hw_idle T (by omega) (k + 1) (fsm_step T g8) e8
      hstep.1 hstep.2.1 hstep.2.2
    refine ⟨g2, e2, ?_, hs2, hc2⟩
    rw [feed_hw_fsm T _ _ e8 (by omega) hb8]
    exact h2

theorem message_framing_witness :
    20 + varicode_total [97, 97] + 0 + 20 = 52 ∧
    ∃ g1 e1,
      feed_hw (0 : Nat) (0 + 3) (20 + varicode_total [97, 97] + 0 + 20)
          (example_go 97 2) example_engine =
        some (List.replicate 20 0 ++ varicode_stream [97, 97] ++ List.replicate 0 0 ++
          List.replicate 20 1, g1, e1) ∧
      g1.state = .STATE_STOP ∧ g1.curburst.b_len = 0 ∧
      (∀ k, 1 ≤ k → k ≤ 20 + varicode_total [97, 97] + 0 + 20 →
        ∃ bits gk ek, feed_hw (0 : Nat) (0 + 3) k (example_go 97 2) example_engine =
            some (bits, gk, ek) ∧
          gk.state ≠ .STATE_IDLE) ∧
      (∀ k, ∃ g2 e2, feed_hw (0 : Nat) (0 + 3) (k + 1) g1 e1 =
          some (List.replicate (k + 1) 1, g2, e2) ∧
        g2.state = .STATE_IDLE ∧ g2.sendcount = 0) :=
  ⟨by decide,
    message_framing 0 [97, 97] (by decide) (by decide) 0 (example_go 97 2) example_engine
      rfl rfl rfl (by decide)
      (by
        intro i h
        have h2 : i < 2 := h
        interval_cases i <;> rfl)⟩

/-- C7, as amended: with a timeout `>= 0`, from `IDLE` with an empty burst and no input
ever arriving, every pass of the feed loop leaves the state machine in `IDLE`, every bit
sent is 1, and the burst loaded next is the idle burst `{1, 1}`. -/
theorem idle_stays_idle (option_timeout : Int) (k fuel : Nat) (g : GoState) (e : Engine)
    (hot : 0 ≤ option_timeout) (hs : g.state = .STATE_IDLE) (hb : g.curburst.b_len = 0)
    (hc : g.sendcount = 0) :
    ∃ gk ek, feed_hw option_timeout (fuel + 3) k g e = some (List.replicate k 1, gk, ek) ∧
      gk.state = .STATE_IDLE ∧ gk.curburst.b_len = 0 ∧
      fsm_step option_timeout gk = { gk with curburst := idle_burst } ∧
      get_burst option_timeout (fuel + 3) gk = some { gk with curburst := idle_burst } := by
  obtain ⟨gk, ek, h, hsk, hbk, hck⟩ := feed_hw_idle option_timeout hot k g e hs hb hc
  have hn : ¬ option_timeout < 0 := by omega
  have hstep : fsm_step option_timeout gk = { gk with curburst := idle_burst } := by
    simp [fsm_step, hsk, hck, hn]
  refine ⟨gk, ek, ?_, hsk, hbk, hstep, ?_⟩
  · rw [feed_hw_fuel]; exact h
  · rw [get_burst_fuel, get_burst_fsm option_timeout gk hbk, hstep]
    exact get_burst_of_len_ne_zero _ _ _ (by simp [idle_burst])

theorem idle_stays_idle_witness :
    ∃ gk ek, feed_hw 0 (0 + 3) 40 (example_go 0 0) example_engine =
        some (List.replicate 40 1, gk, ek) ∧
      gk.state = .STATE_IDLE ∧ gk.curburst.b_len = 0 ∧
      fsm_step 0 gk = { gk with curburst := idle_burst } ∧
      get_burst 0 (0 + 3) gk = some { gk with curburst := idle_burst } :=
  idle_stays_idle 0 40 0 (example_go 0 0) example_engine (by decide) rfl rfl rfl

/-- C7 as stated fails: with `option_timeout = -1`, in `IDLE` with an empty burst and no
input, the state machine goes to `START` and loads the starting burst `{20, 0}`; the
first bit sent is 0 and the state after the first pass is `START`. -/
theorem idle_timeout_neg_leaves_idle :
    (fsm_step (-1) (example_go 0 0)).state = .STATE_START ∧
    (fsm_step (-1) (example_go 0 0)).curburst = starting_burst ∧
    (feed_hw (-1) 3 1 (example_go 0 0) example_engine).map (fun r => (r.1, r.2.1.state)) =
      some ([0], .STATE_START) ∧
    ¬ ∃ g1 e1, feed_hw (-1) 3 1 (example_go 0 0) example_engine = some ([1], g1, e1) ∧
      g1.state = .STATE_IDLE := by
  have h : (feed_hw (-1) 3 1 (example_go 0 0) example_engine).map
      (fun r => (r.1, r.2.1.state)) = some ([0], .STATE_START) := by decide
  refine ⟨by decide, by decide, h, ?_⟩
  rintro ⟨g1, e1, h1, -⟩
  rw [h1] at h
  simp at h

theorem burst_loop_enters_of_len_ne_zero (ot : Int) (s : State) (fuel : Nat) (g : GoState)
    (h : g.curburst.b_len ≠ 0) : burst_loop_enters ot s fuel g = false := by
  cases fuel <;> simp [burst_loop_enters, h]

theorem burst_loop_enters_succ (ot : Int) (s : State) (fuel : Nat) (g : GoState)
    (h : g.curburst.b_len = 0) :
    burst_loop_enters ot s (fuel + 1) g =
      (decide ((fsm_step ot g).state = s) || burst_loop_enters ot s fuel (fsm_step ot g)) := by
  simp [burst_loop_enters, h]

theorem burst_loop_enters_mono (ot : Int) (s : State) : ∀ (fuel : Nat) (g g0 : GoState),
    get_burst ot fuel g = some g0 →
    burst_loop_enters ot s (fuel + 1) g = burst_loop_enters ot s fuel g := by
  intro fuel
  induction fuel with
  | zero =>
    intro g g0 h
    by_cases hl : g.curburst.b_len = 0
    · simp [get_burst, hl] at h
    · simp [burst_loop_enters_of_len_ne_zero ot s _ g hl]
  | succ k ih =>
    intro g g0 h
    by_cases hl : g.curburst.b_len = 0
    · rw [get_burst_succ ot _ g hl] at h
      rw [burst_loop_enters_succ ot s _ g hl, burst_loop_enters_succ ot s _ g hl, ih _ _ h]
    · simp [burst_loop_enters_of_len_ne_zero ot s _ g hl]

theorem burst_loop_enters_fuel (ot : Int) (s : State) (fuel : Nat) (g : GoState) :
    burst_loop_enters ot s (fuel + 3) g = burst_loop_enters ot s 3 g := by
  induction fuel with
  | zero => rfl
  | succ k ih =>
    obtain ⟨g0, h⟩ := get_burst_three ot g
    have h1 : get_burst ot (k + 3) g = some g0 := by
      rw [Nat.add_comm]; exact get_burst_mono_add ot 3 k g g0 h
    rw [Nat.add_right_comm, burst_loop_enters_mono ot s (k + 3) g g0 h1, ih]

theorem burst_loop_enters_fsm (ot : Int) (s : State) (g : GoState)
    (h : g.curburst.b_len = 0) (hs : (fsm_step ot g).state ≠ s) :
    burst_loop_enters ot s 3 g = burst_loop_enters ot s 3 (fsm_step ot g) := by
  obtain ⟨g0, h0⟩ := get_burst_three ot g
  rw [get_burst_succ ot 2 g h] at h0
  rw [burst_loop_enters_succ ot s 2 g h, burst_loop_enters_mono ot s 2 _ g0 h0]
  simp [hs]

theorem syms_until_fuel (ot : Int) (s : State) (fuel : Nat) :
    ∀ (n : Nat) (g : GoState) (e : Engine),
    syms_until ot s (fuel + 3) n g e = syms_until ot s 3 n g e := by
  intro n
  induction n with
  | zero => intro g e; rfl
  | succ k ih =>
    intro g e
    simp only [syms_until, burst_loop_enters_fuel, feed_bit_fuel]
    cases feed_bit ot 3 g e with
    | none => rfl
    | some r => obtain ⟨b, g1, e1⟩ := r; simp only [ih]

theorem syms_until_fsm (ot : Int) (s : State) (n : Nat) (g : GoState) (e : Engine)
    (h : g.curburst.b_len = 0) (hs : (fsm_step ot g).state ≠ s) :
    syms_until ot s 3 (n + 1) g e = syms_until ot s 3 (n + 1) (fsm_step ot g) e := by
  simp only [syms_until, burst_loop_enters_fsm ot s g h hs, feed_bit_fsm ot g e h]

theorem syms_until_enter (ot : Int) (s : State) (n : Nat) (g : GoState) (e : Engine)
    (h : g.curburst.b_len = 0) (hs : (fsm_step ot g).state = s) :
    syms_until ot s 3 (n + 1) g e = some 0 := by
  simp [syms_until, burst_loop_enters_succ ot s 2 g h, hs]

theorem syms_until_burst (ot : Int) (s : State) (n : Nat) :
    ∀ (k : Nat) (g : GoState) (e : Engine), g.curburst.b_len = k →
    ∃ e1, syms_until ot s 3 (n + k) g e =
      (syms_until ot s 3 n { g with curburst := ⟨0, g.curburst.b_val >>> k⟩ } e1).map
        (· + k) := by
  intro k
  induction k with
  | zero =>
    intro g e h
    refine ⟨e, ?_⟩
    obtain ⟨sendbuf, sendread, sendwrite, sendcount, ⟨len, val⟩, state, fill_timeout⟩ := g
    simp only at h
    subst h
    simp
  | succ k ih =>
    intro g e h
    obtain ⟨sendbuf, sendread, sendwrite, sendcount, ⟨len, val⟩, state, fill_timeout⟩ := g
    simp only at h
    subst h
    obtain ⟨e1, h1⟩ := ih ⟨sendbuf, sendread, sendwrite, sendcount, burst_shift ⟨k + 1, val⟩,
      state, fill_timeout⟩ (tx_bit (burst_bit ⟨k + 1, val⟩) e) (by simp [burst_shift])
    refine ⟨e1, ?_⟩
    rw [← Nat.add_assoc, syms_until,
      burst_loop_enters_of_len_ne_zero ot s 3 _ (by simp), feed_bit_send ot _ e (by simp)]
    simp only [h1]
    have hsh : val >>> (1 + k) = val >>> (k + 1) := by rw [Nat.add_comm]
    have hsh2 : val >>> 1 >>> k = val >>> (k + 1) := by
      rw [← Nat.shiftRight_add, Nat.add_comm]
    simp [burst_shift, Nat.add_assoc, hsh]
    rw [hsh2]

/-- C8, as amended: from `IDLE` with an empty burst and exactly the byte `0x65` in the
input buffer, exactly 24 = 20 + 4 symbols are enqueued before the state machine enters
`FILL`: 20 zero bits and the code bits 1, 1, 0, 0, whose two zeros are the separator. -/
theorem single_e_symbols (option_timeout : Int) (fuel n : Nat) (g : GoState) (e : Engine)
    (hs : g.state = .STATE_IDLE) (hb : g.curburst.b_len = 0)
    (hc : g.sendcount = 1) (hr : g.sendread < 128) (hbuf : g.sendbuf g.sendread = 0x65) :
    syms_until option_timeout .STATE_FILL (fuel + 3) (n + 25) g e = some 24 ∧
    ∃ g1 e1, feed_hw option_timeout (fuel + 3) 24 g e =
        some (List.replicate 20 0 ++ [1, 1, 0, 0], g1, e1) ∧
      g1.state = .STATE_SEND ∧ g1.curburst.b_len = 0 ∧
      (fsm_step option_timeout g1).state = .STATE_FILL := by
  have hmsg : ∀ (i : Nat) (h : i < [(0x65 : Fin 256)].length),
      g.sendbuf ((g.sendread + i) % 128) = [(0x65 : Fin 256)][i] := by
    intro i h
    have h1 : i = 0 := by simpa using h
    subst h1
    simpa [Nat.mod_eq_of_lt hr] using hbuf
  constructor
  · obtain ⟨sendbuf, sendread, sendwrite, sendcount, curburst, state, fill_timeout⟩ := g
    simp only at hs hb hc hr hbuf
    subst hs hc
    rw [syms_until_fuel]
    -- IDLE to START, loading the starting burst
    rw [syms_until_fsm option_timeout _ _ _ e hb (by simp [fsm_step])]
    have h1 : fsm_step option_timeout ⟨sendbuf, sendread, sendwrite, 1, curburst,
        .STATE_IDLE, fill_timeout⟩ =
        ⟨sendbuf, sendread, sendwrite, 1, ⟨20, 0⟩, .STATE_START, fill_timeout⟩ := by
      simp [fsm_step, starting_burst]
    rw [h1]
    obtain ⟨e1, h2⟩ := syms_until_burst option_timeout .STATE_FILL (n + 5) 20
      ⟨sendbuf, sendread, sendwrite, 1, ⟨20, 0⟩, .STATE_START, fill_timeout⟩ e rfl
    rw [show n + 25 = n + 5 + 20 by omega, h2]
    -- START to SEND, then SEND loads the codeword of the byte
    rw [show n + 5 = n + 4 + 1 by omega,
      syms_until_fsm option_timeout _ _ _ e1 rfl (by simp [fsm_step]),
      syms_until_fsm option_timeout _ _ _ e1 (by simp [fsm_step]) (by simp [fsm_step])]
    have h3 : fsm_step option_timeout (fsm_step option_timeout
        ⟨sendbuf, sendread, sendwrite, 1, ⟨0, 0 >>> 20⟩, .STATE_START, fill_timeout⟩) =
        ⟨sendbuf, if sendread + 1 = 128 then 0 else sendread + 1, sendwrite, 0, ⟨4, 3⟩,
          .STATE_SEND, fill_timeout⟩ := by
      have hv : varicode 0x65 = ⟨4, 3⟩ := by decide
      simp [fsm_step, hbuf, hv, SENDSIZE]
    rw [h3]
    obtain ⟨e2, h4⟩ := syms_until_burst option_timeout .STATE_FILL (n + 1) 4
      ⟨sendbuf, if sendread + 1 = 128 then 0 else sendread + 1, sendwrite, 0, ⟨4, 3⟩,
        .STATE_SEND, fill_timeout⟩ e1 rfl
    rw [show n + 4 + 1 = n + 1 + 4 by omega, h4]
    -- SEND with an empty buffer enters FILL
    rw [syms_until_enter option_timeout _ _ _ e2 rfl (by simp [fsm_step])]
    rfl
  · obtain ⟨g1, e1, h1, hs1, hb1, hc1⟩ := feed_hw_start_msg option_timeout [0x65]
      (by simp) g e hs hb (by simpa using hc) hr hmsg
    refine ⟨g1, e1, ?_, hs1, hb1, by simp [fsm_step, hs1, hc1]⟩
    rw [feed_hw_fuel]
    have hv : varicode_stream [0x65] = [1, 1, 0, 0] := by decide
    have ht : 20 + varicode_total [0x65] = 24 := by decide
    rw [← ht, h1, hv]

theorem single_e_symbols_witness :
    syms_until (-1) .STATE_FILL (0 + 3) (0 + 25) (example_go 0x65 1) example_engine = some 24 ∧
    ∃ g1 e1, feed_hw (-1) (0 + 3) 24 (example_go 0x65 1) example_engine =
        some (List.replicate 20 0 ++ [1, 1, 0, 0], g1, e1) ∧
      g1.state = .STATE_SEND ∧ g1.curburst.b_len = 0 ∧
      (fsm_step (-1) g1).state = .STATE_FILL :=
  single_e_symbols (-1) 0 0 (example_go 0x65 1) example_engine rfl rfl rfl (by decide) rfl

/-- C8 as stated fails: with the single byte `0x65` buffered, the number of symbols
enqueued before the state machine enters `FILL` is 24, not 26; after 24 passes the burst
is empty in `SEND` and the next pass of the state machine enters `FILL`. -/
theorem single_e_not_26 :
    syms_until (-1) .STATE_FILL 3 100 (example_go 0x65 1) example_engine = some 24 ∧
    syms_until (-1) .STATE_FILL 3 100 (example_go 0x65 1) example_engine ≠ some 26 ∧
    (feed_hw (-1) 3 24 (example_go 0x65 1) example_engine).map
        (fun r => (r.1, r.2.1.state, r.2.1.curburst.b_len, (fsm_step (-1) r.2.1).state)) =
      some (List.replicate 20 0 ++ [1, 1, 0, 0], .STATE_SEND, 0, .STATE_FILL) := by
  have h : syms_until (-1) .STATE_FILL 3 100 (example_go 0x65 1) example_engine = some 24 := by
    decide
  refine ⟨h, ?_, by decide⟩
  rw [h]
  decide

/-! ## Negative timeout -/

theorem step_always_on (ot : Int) (hot : ot < 0) (g g1 : GoState)
    (hs : g.state = .STATE_START ∨ g.state = .STATE_SEND ∨
      (g.state = .STATE_FILL ∧ g.fill_timeout < 0))
    (h : Step ot g g1) :
    g1.state = .STATE_START ∨ g1.state = .STATE_SEND ∨
      (g1.state = .STATE_FILL ∧ g1.fill_timeout < 0) := by
  cases h with
  | fsm hb =>
    rcases hs with hs | hs | ⟨hs, hf⟩
    · simp [fsm_step, hs]
    · by_cases hc : g.sendcount = 0 <;> simp [fsm_step, hs, hc, hot]
    · have hf0 : g.fill_timeout ≠ 0 := by omega
      have hf1 : ¬ 0 < g.fill_timeout := by omega
      by_cases hc : g.sendcount = 0 <;> simp [fsm_step, hs, hc, hf0, hf1, hf]
  | send hb => exact hs
  | read data h1 h2 h3 => exact hs

theorem reach_always_on (ot : Int) (hot : ot < 0) (g g1 : GoState)
    (hs : g.state = .STATE_START ∨ g.state = .STATE_SEND ∨
      (g.state = .STATE_FILL ∧ g.fill_timeout < 0))
    (h : Relation.ReflTransGen (Step ot) g g1) :
    g1.state = .STATE_START ∨ g1.state = .STATE_SEND ∨
      (g1.state = .STATE_FILL ∧ g1.fill_timeout < 0) := by
  induction h with
  | refl => exact hs
  | tail _ hbc ih => exact step_always_on ot hot _ _ ih hbc

theorem fsm_step_no_ending (ot : Int) (g : GoState) (hb : g.curburst.b_len = 0)
    (hs : (fsm_step ot g).state ≠ .STATE_STOP) :
    (fsm_step ot g).curburst ≠ ending_burst := by
  have hv := fun b => (varicode_ok b).2.1
  intro h
  have hlen : (fsm_step ot g).curburst.b_len = 20 := by rw [h]; rfl
  have hval : (fsm_step ot g).curburst.b_val = 0x000fffff := by rw [h]; rfl
  have hv1 := hv (g.sendbuf g.sendread)
  rcases hst : g.state with _ | _ | _ | _ | _ <;>
  by_cases hc : g.sendcount = 0 <;>
  by_cases hf : g.fill_timeout = 0 <;>
  by_cases hn : ot < 0 <;>
  simp [fsm_step, hst, hc, hf, hn, fill_burst, starting_burst, idle_burst] at hlen hval hs <;>
  omega

theorem step_fill_timeout (ot : Int) (hot : ot < 0) (g g1 : GoState)
    (hi : g.state = .STATE_FILL → g.fill_timeout < 0) (h : Step ot g g1) :
    g1.state = .STATE_FILL → g1.fill_timeout < 0 := by
  cases h with
  | fsm hb =>
    rcases hst : g.state with _ | _ | _ | _ | _
    · simp [fsm_step, hst]
    · by_cases hc : g.sendcount = 0 <;> simp [fsm_step, hst, hc, hot]
    · have hf := hi hst
      have hf0 : g.fill_timeout ≠ 0 := by omega
      have hf1 : ¬ 0 < g.fill_timeout := by omega
      by_cases hc : g.sendcount = 0 <;> simp [fsm_step, hst, hc, hf0, hf1, hf]
    · simp [fsm_step, hst]
    · by_cases hc : g.sendcount = 0 <;> simp [fsm_step, hst, hc, hot]
  | send hb => exact hi
  | read data h1 h2 h3 => exact hi

theorem reach_fill_timeout (ot : Int) (hot : ot < 0) (sendbuf : Nat → Fin 256) (g : GoState)
    (h : Relation.ReflTransGen (Step ot) (go_init sendbuf) g) :
    g.state = .STATE_FILL → g.fill_timeout < 0 := by
  induction h with
  | refl => intro hs; exact absurd hs (by simp [go_init])
  | tail _ hbc ih => exact step_fill_timeout ot hot _ _ ih hbc

/-- C9: if `option_timeout < 0`, then from every configuration in state `START`, `SEND` or
`FILL` that `go_go_go` reaches from its initial locals (by passes of the state machine,
bits sent and input read, for any pattern of input arrival and any contents of `sendbuf`),
no sequence of steps reaches `STOP` or `IDLE`, and no pass of the state machine loads the
ending burst; and if `option_timeout = 0`, the burst loop run in `SEND` with an empty input
buffer goes to `FILL` loading nothing and on to `STOP` loading the ending burst. -/
theorem negative_timeout_always_on :
    (∀ (option_timeout : Int) (sendbuf : Nat → Fin 256) (g g1 : GoState), option_timeout < 0 →
      Relation.ReflTransGen (Step option_timeout) (go_init sendbuf) g →
      (g.state = .STATE_START ∨ g.state = .STATE_SEND ∨ g.state = .STATE_FILL) →
      Relation.ReflTransGen (Step option_timeout) g g1 →
      g1.state ≠ .STATE_STOP ∧ g1.state ≠ .STATE_IDLE ∧
      (g1.curburst.b_len = 0 →
        (fsm_step option_timeout g1).state ≠ .STATE_STOP ∧
        (fsm_step option_timeout g1).state ≠ .STATE_IDLE ∧
        (fsm_step option_timeout g1).curburst ≠ ending_burst)) ∧
    (∀ (fuel : Nat) (g : GoState), g.state = .STATE_SEND → g.sendcount = 0 →
      g.curburst.b_len = 0 →
      fsm_step 0 g = { g with state := .STATE_FILL, fill_timeout := 0 } ∧
      fsm_step 0 (fsm_step 0 g) =
        { g with state := .STATE_STOP, fill_timeout := 0, curburst := ending_burst } ∧
      get_burst 0 (fuel + 3) g =
        some { g with state := .STATE_STOP, fill_timeout := 0, curburst := ending_burst }) := by
  constructor
  · intro ot sendbuf g g1 hot hreach hst h
    have hfill := reach_fill_timeout ot hot sendbuf g hreach
    have hs : g.state = .STATE_START ∨ g.state = .STATE_SEND ∨
        (g.state = .STATE_FILL ∧ g.fill_timeout < 0) := by
      rcases hst with h1 | h1 | h1
      · exact Or.inl h1
      · exact Or.inr (Or.inl h1)
      · exact Or.inr (Or.inr ⟨h1, hfill h1⟩)
    have h1 := reach_always_on ot hot g g1 hs h
    have hno : ∀ g2 : GoState, (g2.state = .STATE_START ∨ g2.state = .STATE_SEND ∨
        (g2.state = .STATE_FILL ∧ g2.fill_timeout < 0)) →
        g2.state ≠ .STATE_STOP ∧ g2.state ≠ .STATE_IDLE := by
      intro g2 h2
      rcases h2 with h2 | h2 | ⟨h2, -⟩ <;> simp [h2]
    refine ⟨(hno g1 h1).1, (hno g1 h1).2, ?_⟩
    intro hb
    have h2 := step_always_on ot hot g1 _ h1 (Step.fsm g1 hb)
    exact ⟨(hno _ h2).1, (hno _ h2).2, fsm_step_no_ending ot g1 hb (hno _ h2).1⟩
  · intro fuel g hs hc hb
    have h1 : fsm_step 0 g = { g with state := .STATE_FILL, fill_timeout := 0 } := by
      simp [fsm_step, hs, hc]
    have h2 : fsm_step 0 (fsm_step 0 g) =
        { g with state := .STATE_STOP, fill_timeout := 0, curburst := ending_burst } := by
      rw [h1]; simp [fsm_step, hc]
    refine ⟨h1, h2, ?_⟩
    rw [get_burst_fuel, get_burst_fsm 0 g hb, get_burst_fsm 0 _ (by rw [h1]; exact hb), h2]
    exact get_burst_of_len_ne_zero _ _ _ (by simp [ending_burst])

theorem negative_timeout_always_on_witness :
    ((fsm_step (-1) (go_init (fun _ => 0))).state ≠ .STATE_STOP ∧
      (fsm_step (-1) (go_init (fun _ => 0))).state ≠ .STATE_IDLE) ∧
    get_burst 0 (0 + 3) ⟨fun _ => 0, 0, 0, 0, ⟨0, 0⟩, .STATE_SEND, 0⟩ =
      some ⟨fun _ => 0, 0, 0, 0, ending_burst, .STATE_STOP, 0⟩ := by
  constructor
  · have h := negative_timeout_always_on.1 (-1) (fun _ => 0)
      (fsm_step (-1) (go_init (fun _ => 0))) (fsm_step (-1) (go_init (fun _ => 0)))
      (by decide) (Relation.ReflTransGen.single (Step.fsm _ rfl)) (Or.inl rfl)
      Relation.ReflTransGen.refl
    exact ⟨h.1, h.2.1⟩
  · exact (negative_timeout_always_on.2 0 ⟨fun _ => 0, 0, 0, 0, ⟨0, 0⟩, .STATE_SEND, 0⟩
      rfl rfl rfl).2.2

/-! ## Slot enqueue -/

theorem out32_same (a v : Nat) (mem : Nat → Nat) : out32 a v mem a = v := by
  simp [out32]

theorem out32_other (a v x : Nat) (mem : Nat → Nat) (h : x ≠ a) : out32 a v mem x = mem x := by
  simp [out32, h]

/-! ## Two reversals -/

/-- C19, as amended: for every symbol the zero-bit successors have period two and the first
two zero-bit successors are ramps (`LH` or `HL`). In exact arithmetic (`rnd = id` over the
reals) two transitions with bit 0 lead to a symbol with the same ending level, for every
amplitude. In the binary64 arithmetic of the program, for `0 <= A <= 1` and a cosine that
returns `-1` at `pi * 1`: `L` ends at `LEVEL_MIN`, `HL` ends at `1 - LEVEL_MAX`, `H` and
`LH` end at `LEVEL_MAX`; two transitions with bit 0 lead to a symbol with the same ending
level when `s` is `H`, `LH` or `HL`, and to one whose ending level is within `2 ^ (-53)` of
that of `s` when `s` is `L`. -/
theorem two_reversals_full_cycle :
    (∀ s : Sym, ts_next (ts_next (ts_next s 0) 0) 0 = ts_next s 0) ∧
    (∀ s : Sym,
      (ts_next s 0 = .SYM_LH ∨ ts_next s 0 = .SYM_HL) ∧
      (ts_next (ts_next s 0) 0 = .SYM_LH ∨ ts_next (ts_next s 0) 0 = .SYM_HL)) ∧
    (∀ (A : ℝ) (s : Sym),
      sym_def id Real.cos (Real.arctan 1 * 4) A (ts_next (ts_next s 0) 0) 1 =
        sym_def id Real.cos (Real.arctan 1 * 4) A s 1) ∧
    (∀ (cos : ℚ → ℚ) (pi A : ℚ), 0 ≤ A → A ≤ 1 → cos (rnd64 (pi * 1)) = -1 →
      (sym_def rnd64 cos pi A .SYM_L 1 = LEVEL_MIN rnd64 A ∧
        sym_def rnd64 cos pi A .SYM_HL 1 = 1 - LEVEL_MAX rnd64 A ∧
        sym_def rnd64 cos pi A .SYM_H 1 = LEVEL_MAX rnd64 A ∧
        sym_def rnd64 cos pi A .SYM_LH 1 = LEVEL_MAX rnd64 A ∧
        |1 - LEVEL_MAX rnd64 A - LEVEL_MIN rnd64 A| ≤ 2 ^ (-53 : ℤ)) ∧
      (∀ s : Sym, s ≠ .SYM_L →
        sym_def rnd64 cos pi A (ts_next (ts_next s 0) 0) 1 = sym_def rnd64 cos pi A s 1) ∧
      |sym_def rnd64 cos pi A (ts_next (ts_next .SYM_L 0) 0) 1 -
        sym_def rnd64 cos pi A .SYM_L 1| ≤ 2 ^ (-53 : ℤ)) := by
  have h2 : (2 : ℚ) * 2 ^ (-54 : ℤ) = 2 ^ (-53 : ℤ) := by norm_num
  refine ⟨fun s => by cases s <;> decide, fun s => by cases s <;> decide, ?_, ?_⟩
  · intro A s
    rw [sym_def_end, sym_def_end]
    cases s <;> simp [ts_next, ts_next_row]
  · intro cos pi A h0 h1 hc1
    have he := sym_def_end_rounded fp_round_rnd64 cos pi A h0 h1 hc1
    have hg := level_gap fp_round_rnd64 A h0 h1
    rw [h2] at hg
    refine ⟨⟨he .SYM_L, he .SYM_HL, he .SYM_H, he .SYM_LH, hg⟩, ?_, ?_⟩
    · intro s hs
      rw [he, he]
      cases s <;> simp [ts_next, ts_next_row] at hs ⊢
    · rw [he, he]
      simpa [ts_next, ts_next_row] using hg

theorem two_reversals_full_cycle_witness :
    |sym_def rnd64 (fun _ => -1) 1 (8106479329266893 / 2 ^ 53)
        (ts_next (ts_next .SYM_L 0) 0) 1 -
      sym_def rnd64 (fun _ => -1) 1 (8106479329266893 / 2 ^ 53) .SYM_L 1| ≤ 2 ^ (-53 : ℤ) ∧
    sym_def rnd64 (fun _ => -1) 1 (8106479329266893 / 2 ^ 53)
        (ts_next (ts_next .SYM_H 0) 0) 1 =
      sym_def rnd64 (fun _ => -1) 1 (8106479329266893 / 2 ^ 53) .SYM_H 1 := by
  have h := two_reversals_full_cycle.2.2.2 (fun _ => -1) 1 (8106479329266893 / 2 ^ 53)
    (by norm_num) (by norm_num) rfl
  exact ⟨h.2.2, h.2.1 .SYM_H (by decide)⟩

/-- C19 as stated fails in the arithmetic of the program: at the default
amplitude `0.9` (the double `8106479329266893 / 2 ^ 53`), with any cosine that returns `-1`
at `pi * 1`, two transitions with bit 0 lead from `L` to `HL`, which ends at
`900719925474100 / 2 ^ 54` (`0.050000000000000044`), while `L` ends at
`900719925474099 / 2 ^ 54` (`0.04999999999999999`). -/
theorem two_reversals_binary64_gap :
    rnd64 (9 / 10) = 8106479329266893 / 2 ^ 53 ∧
    ts_next (ts_next .SYM_L 0) 0 = .SYM_HL ∧
    (∀ (cos : ℚ → ℚ) (pi : ℚ), cos (rnd64 (pi * 1)) = -1 →
      sym_def rnd64 cos pi (8106479329266893 / 2 ^ 53) (ts_next (ts_next .SYM_L 0) 0) 1 =
        900719925474100 / 2 ^ 54 ∧
      sym_def rnd64 cos pi (8106479329266893 / 2 ^ 53) .SYM_L 1 = 900719925474099 / 2 ^ 54 ∧
      sym_def rnd64 cos pi (8106479329266893 / 2 ^ 53) (ts_next (ts_next .SYM_L 0) 0) 1 ≠
        sym_def rnd64 cos pi (8106479329266893 / 2 ^ 53) .SYM_L 1) := by
  refine ⟨rnd64_amplitude_default, by decide, fun cos pi hc => ?_⟩
  have h := default_levels_differ cos pi
  have e : ts_next (ts_next .SYM_L 0) 0 = .SYM_HL := by decide
  rw [e, h.2.1 hc, h.2.2 1]
  exact ⟨rfl, rfl, by norm_num⟩

/-! ## Pending slots -/

theorem ts_search_inv (ti : Nat → ts_info_t) (phys k : Nat)
    (hmono : ∀ m, m ≤ 15 → (phys ≥ (ti m).physaddr ↔ m ≤ k)) :
    ∀ (d l u : Nat), u - l = d → l ≤ k → k < u → u ≤ 16 → ts_search ti phys l u = k := by
  intro d
  induction d using Nat.strong_induction_on with
  | _ d ih =>
    intro l u hd hl hu hu16
    rw [ts_search]
    by_cases h : u > l + 1
    · simp only [h, if_true]
      have hm := hmono ((l + u) / 2) (by omega)
      by_cases hp : phys ≥ (ti ((l + u) / 2)).physaddr
      · simp only [hp, if_true]
        exact ih (u - (l + u) / 2) (by omega) _ _ rfl (hm.mp hp) hu hu16
      · simp only [hp, if_false]
        have : ¬ (l + u) / 2 ≤ k := fun hle => hp (hm.mpr hle)
        exact ih ((l + u) / 2 - l) (by omega) _ _ rfl hl (by omega) (by omega)
    · simp only [h, if_false]
      omega

theorem ts_search_slot (ti : Nat → ts_info_t) (phys k : Nat)
    (hinc : ∀ i j, i < j → j ≤ 15 → (ti i).physaddr < (ti j).physaddr)
    (hk : k ≤ 15) (hlo : (ti k).physaddr ≤ phys)
    (hhi : k < 15 → phys < (ti (k + 1)).physaddr) :
    ts_search ti phys 0 TS_COUNT = k := by
  refine ts_search_inv ti phys k ?_ 16 0 TS_COUNT rfl (Nat.zero_le _) ?_ (by decide)
  · intro m hm
    constructor
    · intro hge
      by_contra hlt
      have hk1 : k < 15 := by omega
      have h1 := hhi hk1
      have h2 : (ti (k + 1)).physaddr ≤ (ti m).physaddr := by
        by_cases he : k + 1 = m
        · rw [he]
        · exact Nat.le_of_lt (hinc (k + 1) m (by omega) hm)
      omega
    · intro hle
      by_cases he : m = k
      · rw [he]; exact hlo
      · have := hinc m k (by omega) hk
        omega
  · rw [TS_COUNT_eq]; omega

theorem tx_sym_pending_slot (e : Engine) (phys k : Nat)
    (hinc : ∀ i j, i < j → j ≤ 15 → (e.ts_info i).physaddr < (e.ts_info j).physaddr)
    (hk : k ≤ 15) (hlo : (e.ts_info k).physaddr ≤ phys)
    (hhi : k < 15 → phys < (e.ts_info (k + 1)).physaddr) :
    ts_search e.ts_info phys 0 TS_COUNT = k ∧
    (phys ≠ 0 → e.ts_last ≤ 15 →
      tx_sym_pending e phys = some ((((e.ts_last : Int) - k) % 16).toNat) ∧
      (((e.ts_last : Int) - k) % 16).toNat ≤ 15 ∧
      (((e.ts_last : Int) - k) % 16).toNat = (e.ts_last + 16 - k) % 16) ∧
    tx_sym_pending e 0 = none := by
  have hs := ts_search_slot e.ts_info phys k hinc hk hlo hhi
  refine ⟨hs, ?_, by simp [tx_sym_pending]⟩
  intro hp hl
  have hs2 : ts_search e.ts_info phys 0 16 = k := hs
  refine ⟨by simp [tx_sym_pending, hp, hs2, TS_COUNT_eq], by omega, by omega⟩

/-- C11: with a strictly increasing slot table and a non-zero `phys` in the range of slot
`k` (at or above `ts_info[15].physaddr` for `k = 15`), the binary search ends with `k`
and `tx_sym_pending` returns `(ts_last - k) mod 16`, a value in `0..15`, for every
`ts_last` in `0..15`; with `phys = 0` the call is fatal. -/
theorem tx_sym_pending_spec (e : Engine) (phys k : Nat)
    (hinc : ∀ i j, i < j → j ≤ 15 → (e.ts_info i).physaddr < (e.ts_info j).physaddr)
    (hk : k ≤ 15) (hlo : (e.ts_info k).physaddr ≤ phys)
    (hhi : k < 15 → phys < (e.ts_info (k + 1)).physaddr) :
    ts_search e.ts_info phys 0 TS_COUNT = k ∧
    (phys ≠ 0 → e.ts_last ≤ 15 →
      tx_sym_pending e phys = some ((((e.ts_last : Int) - k) % 16).toNat) ∧
      (((e.ts_last : Int) - k) % 16).toNat ≤ 15 ∧
      (((e.ts_last : Int) - k) % 16).toNat = (e.ts_last + 16 - k) % 16) ∧
    tx_sym_pending e 0 = none :=
  tx_sym_pending_slot e phys k hinc hk hlo hhi

theorem tx_sym_pending_spec_witness :
    ts_search example_engine_mid.ts_info 0x4000d020 0 TS_COUNT = 3 ∧
    (0x4000d020 ≠ 0 → example_engine_mid.ts_last ≤ 15 →
      tx_sym_pending example_engine_mid 0x4000d020 =
        some ((((example_engine_mid.ts_last : Int) - (3 : Nat)) % 16).toNat) ∧
      (((example_engine_mid.ts_last : Int) - (3 : Nat)) % 16).toNat ≤ 15 ∧
      (((example_engine_mid.ts_last : Int) - (3 : Nat)) % 16).toNat =
        (example_engine_mid.ts_last + 16 - 3) % 16) ∧
    tx_sym_pending example_engine_mid 0 = none :=
  tx_sym_pending_spec example_engine_mid 0x4000d020 3
    (by
      intro i j hij _
      show 0x40000000 + 0x4000 * i < 0x40000000 + 0x4000 * j
      omega)
    (by decide) (by decide) (by intro _; decide)

/-! ## The feed batch -/

/-- C13, evaluation at the failing input: for a payload of 102 bytes, the first `send` is
asked for offset 0 and 102 bytes; when it transmits 51 of them, the connection is kept
with `s_read = 51` and `s_count = 51`, the next `send` is asked for offset 51 and `0`
bytes instead of the 51 that remain, and a `send` that transmits 0 bytes leaves the
connection as it is, so it is never closed. When the first `send` transmits 60 bytes, the
next length argument is negative. -/
theorem stat_write_partial_send :
    stat_send_args (stat_accept_conn 102) = (0, 102) ∧
    stat_write_conn (stat_accept_conn 102) (.sent 102) = .close ∧
    stat_write_conn (stat_accept_conn 102) (.sent 51) = .keep ⟨51, 51⟩ ∧
    stat_send_args ⟨51, 51⟩ = (51, 0) ∧
    stat_send_args ⟨51, 51⟩ ≠ (51, 102 - 51) ∧
    stat_write_conn ⟨51, 51⟩ (.sent 0) = .keep ⟨51, 51⟩ ∧
    stat_write_conn (stat_accept_conn 102) (.sent 60) = .keep ⟨60, 42⟩ ∧
    stat_send_args ⟨60, 42⟩ = (60, -18) := by
  decide

/-! ## MASH stage -/

theorem mash_loop_one (divi : Nat) :
    mash_loop divi 1 =
      if divi < 2 then some 0 else if divi < 20 + 0 then some 0
      else if divi > 4095 - 1 then some 0 else some 1 := rfl

theorem mash_loop_two (divi : Nat) :
    mash_loop divi 2 =
      if divi < 3 then mash_loop divi 1 else if divi < 20 + 1 then mash_loop divi 1
      else if divi > 4095 - 2 then mash_loop divi 1 else some 2 := rfl

theorem mash_loop_three (divi : Nat) :
    mash_loop divi 3 =
      if divi < 5 then mash_loop divi 2 else if divi < 20 + 3 then mash_loop divi 2
      else if divi > 4095 - 4 then mash_loop divi 2 else some 3 := rfl

theorem mash_loop_step (divi k : Nat) (hk : k = 1 ∨ k = 2 ∨ k = 3) :
    (mash_feasible k divi → mash_loop divi k = some k) ∧
    (¬ mash_feasible k divi → mash_loop divi k = mash_loop divi (k - 1)) := by
  rcases hk with rfl | rfl | rfl
  · rw [mash_loop_one]
    constructor
    · intro h
      simp only [mash_feasible] at h
      split_ifs <;> first | rfl | omega
    · intro h
      simp [mash_feasible] at h
      split_ifs <;> first | rfl | omega
  · rw [mash_loop_two]
    constructor
    · intro h
      simp only [mash_feasible] at h
      split_ifs <;> first | rfl | omega
    · intro h
      simp [mash_feasible] at h
      split_ifs <;> first | rfl | omega
  · rw [mash_loop_three]
    constructor
    · intro h
      simp only [mash_feasible] at h
      split_ifs <;> first | rfl | omega
    · intro h
      simp [mash_feasible] at h
      split_ifs <;> first | rfl | omega

theorem mash_feasible_pos (m divi : Nat) (h : mash_feasible m divi) : m = 1 ∨ m = 2 ∨ m = 3 := by
  simp only [mash_feasible] at h
  omega

theorem mash_loop_spec (divi : Nat) : ∀ m0, m0 ≤ 3 →
    ∃ m, mash_loop divi m0 = some m ∧ m ≤ m0 ∧
      (m ≠ 0 → mash_feasible m divi) ∧
      ∀ m1, m < m1 → m1 ≤ m0 → ¬ mash_feasible m1 divi := by
  intro m0
  induction m0 with
  | zero =>
    intro _
    exact ⟨0, rfl, le_refl _, fun h => absurd rfl h, fun m1 h1 h2 => by omega⟩
  | succ k ih =>
    intro hk
    obtain ⟨h1, h2⟩ := mash_loop_step divi (k + 1) (by omega)
    by_cases hf : mash_feasible (k + 1) divi
    · exact ⟨k + 1, h1 hf, le_refl _, fun _ => hf, fun m1 h3 h4 => by omega⟩
    · obtain ⟨m, hm, hle, hfm, hmax⟩ := ih (by omega)
      refine ⟨m, ?_, by omega, hfm, ?_⟩
      · rw [h2 hf]; exact hm
      · intro m1 h3 h4
        by_cases he : m1 = k + 1
        · rw [he]; exact hf
        · exact hmax m1 h3 (by omega)

/-- C14: for every divider `4096 <= div <= 0x00fff000` with `divi = div >> 12`: if
`option_mash >= 1` the stage selected is the largest `m` in `1..min(option_mash, 3)` that
is feasible for `divi`, or 0 if there is none; if `-3 <= option_mash <= 0` it is
`-option_mash`, with no feasibility check; and the stage is stored in `clock_cb.c_mash`
and placed in the control word `0x5a000006 | (mash << 9)`. -/
theorem clock_start_mash (option_mash : Int) (div : Nat) (cb : clock_cb_t)
    (hlo : 4096 ≤ div) (hhi : div ≤ 0x00fff000) :
    (1 ≤ option_mash →
      ∃ m, mash_select option_mash (div >>> 12) = some m ∧ m ≤ 3 ∧ (m : Int) ≤ option_mash ∧
        (m ≠ 0 → mash_feasible m (div >>> 12)) ∧
        ∀ m1, m < m1 → m1 ≤ 3 → (m1 : Int) ≤ option_mash → ¬ mash_feasible m1 (div >>> 12)) ∧
    (-3 ≤ option_mash → option_mash ≤ 0 →
      mash_select option_mash (div >>> 12) = some (-option_mash).toNat) ∧
    (∀ m, mash_select option_mash (div >>> 12) = some m → m ≤ 3 →
      clock_setup option_mash div cb =
        some ([(CM_GP0DIV, 0x5a000000 ||| div),
               (CM_GP0CTL, 0x5a000006 ||| (m <<< 9)),
               (CM_GP0CTL, 0x5a000006 ||| (m <<< 9) ||| 0x00000010)],
              { c_div := div, c_mash := m })) := by
  refine ⟨?_, ?_, ?_⟩
  · intro h1
    have hsel : mash_select option_mash (div >>> 12) =
        mash_loop (div >>> 12) (if option_mash ≥ 3 then 3 else option_mash.toNat) := by
      have hn : ¬ (option_mash ≥ -3 ∧ option_mash ≤ 0) := by omega
      simp only [mash_select, hn, if_false]
      congr 1
      split_ifs
      · rfl
      · omega
    obtain ⟨m, hm, hle, hf, hmax⟩ := mash_loop_spec (div >>> 12)
      (if option_mash ≥ 3 then 3 else option_mash.toNat) (by split_ifs <;> omega)
    refine ⟨m, by rw [hsel, hm], by split_ifs at hle <;> omega,
      by split_ifs at hle <;> omega, hf, ?_⟩
    intro m1 h2 h3 h4
    exact hmax m1 h2 (by split_ifs <;> omega)
  · intro h1 h2
    have hn : option_mash ≥ -3 ∧ option_mash ≤ 0 := ⟨h1, h2⟩
    simp only [mash_select, hn, and_self, if_true]
    congr 1
    omega
  · intro m hm hm3
    have hd : ¬ (div >>> 12 < 1 ∨ div > 0x00fff000) := by
      rw [Nat.shiftRight_eq_div_pow]
      omega
    simp only [clock_setup, hd, if_false, hm]
    have hw : (0x5a000006 ||| (m <<< 9)) % 2 ^ 32 = 0x5a000006 ||| (m <<< 9) := by
      interval_cases m <;> decide
    rw [hw]

theorem clock_start_mash_witness :
    (mash_select 3 (0x64000 >>> 12) = some 3 ∧ mash_feasible 3 (0x64000 >>> 12)) ∧
    mash_select (-2) (0x64000 >>> 12) = some 2 ∧
    clock_setup 3 0x64000 ⟨0, 0⟩ =
      some ([(CM_GP0DIV, 0x5a064000), (CM_GP0CTL, 0x5a000606), (CM_GP0CTL, 0x5a000616)],
        { c_div := 0x64000, c_mash := 3 }) := by
  obtain ⟨h1, h2, h3⟩ := clock_start_mash 3 0x64000 ⟨0, 0⟩ (by decide) (by decide)
  obtain ⟨m, hm, -, -, hf, -⟩ := h1 (by decide)
  have h4 : mash_select 3 (0x64000 >>> 12) = some 3 := by decide
  have hm3 : m = 3 := by
    rw [h4] at hm
    exact (Option.some.inj hm).symm
  subst hm3
  refine ⟨⟨h4, hf (by decide)⟩, ?_, ?_⟩
  · obtain ⟨-, h5, -⟩ := clock_start_mash (-2) 0x64000 ⟨0, 0⟩ (by decide) (by decide)
    exact h5 (by decide) (by decide)
  · exact h3 3 h4 (by decide)

/-- C20, evaluation at the failing input: with `option_mash = -4` and `div = 0x64000`
the `uint32_t mash` starts at `4294967292`, the first pass of the loop reads
`dt[4294967291]`, outside the three entries of `dt`, and no stage is programmed; for
`option_mash` from `-3` on, and above 3, the stage is in `0..3`. -/
theorem clock_start_mash_below_range :
    ((-4 : Int) % 2 ^ 32).toNat = 4294967292 ∧
    clock_dt[4294967292 - 1]? = none ∧
    mash_select (-4) (0x64000 >>> 12) = none ∧
    clock_setup (-4) 0x64000 ⟨0, 0⟩ = none ∧
    mash_select (-3) (0x64000 >>> 12) = some 3 ∧
    mash_select 7 (0x64000 >>> 12) = some 3 := by
  refine ⟨by decide, by decide, ?_, ?_, by decide, by decide⟩
  · have h : mash_select (-4) (0x64000 >>> 12) = mash_loop (0x64000 >>> 12) (4294967291 + 1) := by
      rfl
    rw [h]
    simp [mash_loop, clock_dt]
  · have h : mash_select (-4) (0x64000 >>> 12) = none := by
      have h : mash_select (-4) (0x64000 >>> 12) =
          mash_loop (0x64000 >>> 12) (4294967291 + 1) := by
        rfl
      rw [h]
      simp [mash_loop, clock_dt]
    have hd : ¬ (0x64000 >>> 12 < 1 ∨ 0x64000 > 0x00fff000) := by decide
    simp only [clock_setup, hd, if_false, h]

/-! ## The arena -/

theorem ARENA_eq : ARENA = 19660800 := by decide

theorem NUM_PAGES_CBS_eq : NUM_PAGES_CBS = 4800 := by decide

theorem cb_offset_to_virt_eq {vb : Nat} {pi : Nat → page_map_t} (h : arena_ok vb pi) (o : Nat)
    (ho : o < ARENA) :
    ∃ i, i < 4800 ∧ cb_offset_to_virt pi o = vb + 4096 * i + o % 4096 := by
  have hp : o >>> PAGE_SHIFT < NUM_PAGES_CBS := by
    rw [Nat.shiftRight_eq_div_pow, NUM_PAGES_CBS_eq]
    rw [ARENA_eq] at ho
    simp only [PAGE_SHIFT]
    omega
  obtain ⟨i, hi, hv⟩ := h.page _ hp
  refine ⟨i, by rw [NUM_PAGES_CBS_eq] at hi; exact hi, ?_⟩
  simp only [cb_offset_to_virt, hv, PAGE_SIZE]
  omega

theorem cb_offset_to_virt_sep {vb : Nat} {pi : Nat → page_map_t} (h : arena_ok vb pi)
    (o q : Nat) (ho : o < ARENA) (hq : q < ARENA) (ho32 : o % 32 = 0) (hq32 : q % 32 = 0)
    (hne : o ≠ q) :
    cb_offset_to_virt pi o + 32 ≤ cb_offset_to_virt pi q ∨
    cb_offset_to_virt pi q + 32 ≤ cb_offset_to_virt pi o := by
  have hpo : o >>> PAGE_SHIFT < NUM_PAGES_CBS := by
    rw [Nat.shiftRight_eq_div_pow, NUM_PAGES_CBS_eq]
    rw [ARENA_eq] at ho
    simp only [PAGE_SHIFT]
    omega
  have hpq : q >>> PAGE_SHIFT < NUM_PAGES_CBS := by
    rw [Nat.shiftRight_eq_div_pow, NUM_PAGES_CBS_eq]
    rw [ARENA_eq] at hq
    simp only [PAGE_SHIFT]
    omega
  obtain ⟨i, hi, hvi⟩ := h.page _ hpo
  obtain ⟨j, hj, hvj⟩ := h.page _ hpq
  by_cases hpage : o >>> PAGE_SHIFT = q >>> PAGE_SHIFT
  · simp only [cb_offset_to_virt, hpage, PAGE_SIZE]
    rw [Nat.shiftRight_eq_div_pow, Nat.shiftRight_eq_div_pow] at hpage
    simp only [PAGE_SHIFT] at hpage
    omega
  · have hij : i ≠ j := by
      intro hij
      apply hpage
      apply h.inj _ _ hpo hpq
      rw [hvi, hvj, hij]
    simp only [cb_offset_to_virt, hvi, hvj, PAGE_SIZE]
    omega

theorem cb_offset_to_virt_range {vb : Nat} {pi : Nat → page_map_t} (h : arena_ok vb pi)
    (o : Nat) (ho : o < ARENA) (ho32 : o % 32 = 0) :
    0 < cb_offset_to_virt pi o ∧ vb ≤ cb_offset_to_virt pi o ∧
    cb_offset_to_virt pi o + 32 ≤ vb + NUM_PAGES_CBS * PAGE_SIZE := by
  obtain ⟨i, hi, hv⟩ := cb_offset_to_virt_eq h o ho
  have := h.base_pos
  rw [hv, NUM_PAGES_CBS_eq]
  simp only [PAGE_SIZE]
  omega
/-! ## One pass of the loop of `init_bs` -/

theorem sample_cbs_length (first up_old up : Bool) :
    (sample_cbs first up_old up).length = if first ∨ up_old ≠ up then 3 else 1 := by
  unfold sample_cbs
  split_ifs <;> rfl

/-- The stores of a pass that writes the two GPIO CBs and the delay CB, as a function of
the three CB pointers. -/
theorem init_bs_cbs_three (env : bs_env) (i : Nat) (up : Bool) (c : bs_cb_t)
    (h : i = 0 ∨ c.up_old ≠ up) :
    init_bs_cbs env i up c =
      { cbp := cb_offset_to_virt env.phys_info (c.cb_offset + 64)
        cb_offset := c.cb_offset + 96
        up_old := up
        mem :=
          cb_write (cb_offset_to_virt env.phys_info (c.cb_offset + 64)) env.cbp_info
            env.phys_sample_pos env.phys_fifo_addr
            (out32 (cb_offset_to_virt env.phys_info (c.cb_offset + 32) + CB_NEXT)
              (cb_offset_to_phys env.phys_info (c.cb_offset + 64))
              (cb_write (cb_offset_to_virt env.phys_info (c.cb_offset + 32))
                (DMA_NO_WIDE_BURSTS ||| DMA_WAIT_RESP) env.phys_sample_neg
                (if up then phys_gpclr0 else phys_gpset0)
                (out32 (cb_offset_to_virt env.phys_info c.cb_offset + CB_NEXT)
                  (cb_offset_to_phys env.phys_info (c.cb_offset + 32))
                  (cb_write (cb_offset_to_virt env.phys_info c.cb_offset)
                    (DMA_NO_WIDE_BURSTS ||| DMA_WAIT_RESP) env.phys_sample_pos
                    (if up then phys_gpset0 else phys_gpclr0)
                    (if c.cbp ≠ 0 then
                      out32 (c.cbp + CB_NEXT) (cb_offset_to_phys env.phys_info c.cb_offset) c.mem
                    else c.mem))))) } := by
  simp only [init_bs_cbs, h, if_true, Nat.add_assoc]

theorem init_bs_cbs_one (env : bs_env) (i : Nat) (up : Bool) (c : bs_cb_t)
    (h : ¬ (i = 0 ∨ c.up_old ≠ up)) :
    init_bs_cbs env i up c =
      { cbp := cb_offset_to_virt env.phys_info c.cb_offset
        cb_offset := c.cb_offset + 32
        up_old := up
        mem :=
          cb_write (cb_offset_to_virt env.phys_info c.cb_offset) env.cbp_info
            env.phys_sample_pos env.phys_fifo_addr
            (if c.cbp ≠ 0 then
              out32 (c.cbp + CB_NEXT) (cb_offset_to_phys env.phys_info c.cb_offset) c.mem
            else c.mem) } := by
  simp only [init_bs_cbs, h, if_false]

/-- Reading a word that the five stores of `cb_write` leave alone. -/
theorem cb_write_other (cbp info src dst a : Nat) (mem : Nat → Nat)
    (h : a < cbp ∨ cbp + 20 ≤ a) : cb_write cbp info src dst mem a = mem a := by
  simp only [cb_write, out32, CB_INFO, CB_SRC, CB_DST, CB_LENGTH, CB_STRIDE]
  split_ifs <;> first | rfl | omega

theorem cb_write_fields (cbp info src dst : Nat) (mem : Nat → Nat) :
    cb_write cbp info src dst mem (cbp + CB_INFO) = info ∧
    cb_write cbp info src dst mem (cbp + CB_SRC) = src ∧
    cb_write cbp info src dst mem (cbp + CB_DST) = dst ∧
    cb_write cbp info src dst mem (cbp + CB_LENGTH) = 4 ∧
    cb_write cbp info src dst mem (cbp + CB_STRIDE) = 0 := by
  simp [cb_write, out32, CB_INFO, CB_SRC, CB_DST, CB_LENGTH, CB_STRIDE]

theorem out32_other_of (a v x : Nat) (mem : Nat → Nat) (h : x < a ∨ a < x) :
    out32 a v mem x = mem x :=
  out32_other a v x mem (by omega)

theorem cb_write_info (cbp info src dst : Nat) (mem : Nat → Nat) :
    cb_write cbp info src dst mem cbp = info := by
  simp [cb_write, out32, CB_INFO, CB_SRC, CB_DST, CB_LENGTH, CB_STRIDE]

theorem cb_write_src (cbp info src dst : Nat) (mem : Nat → Nat) :
    cb_write cbp info src dst mem (cbp + 4) = src := by
  simp [cb_write, out32, CB_INFO, CB_SRC, CB_DST, CB_LENGTH, CB_STRIDE]

theorem cb_write_dst (cbp info src dst : Nat) (mem : Nat → Nat) :
    cb_write cbp info src dst mem (cbp + 8) = dst := by
  simp [cb_write, out32, CB_INFO, CB_SRC, CB_DST, CB_LENGTH, CB_STRIDE]

theorem cb_write_length (cbp info src dst : Nat) (mem : Nat → Nat) :
    cb_write cbp info src dst mem (cbp + 12) = 4 := by
  simp [cb_write, out32, CB_INFO, CB_SRC, CB_DST, CB_LENGTH, CB_STRIDE]

theorem cb_write_stride (cbp info src dst : Nat) (mem : Nat → Nat) :
    cb_write cbp info src dst mem (cbp + 16) = 0 := by
  simp [cb_write, out32, CB_INFO, CB_SRC, CB_DST, CB_LENGTH, CB_STRIDE]

/-- The memory after the stores of a pass that writes three CBs at the pointers `p0`,
`p1`, `p2`, which are 32 bytes apart from each other and from the previous CB `q`. -/
theorem three_cbs_mem (p0 p1 p2 q i0 s0 d0 n0 i1 s1 d1 n1 i2 s2 d2 nq : Nat) (mem : Nat → Nat)
    (h01 : p0 + 32 ≤ p1 ∨ p1 + 32 ≤ p0) (h02 : p0 + 32 ≤ p2 ∨ p2 + 32 ≤ p0)
    (h12 : p1 + 32 ≤ p2 ∨ p2 + 32 ≤ p1)
    (hq0 : q ≠ 0 → q + 32 ≤ p0 ∨ p0 + 32 ≤ q) (hq1 : q ≠ 0 → q + 32 ≤ p1 ∨ p1 + 32 ≤ q)
    (hq2 : q ≠ 0 → q + 32 ≤ p2 ∨ p2 + 32 ≤ q) (m : Nat → Nat)
    (hm : m = cb_write p2 i2 s2 d2 (out32 (p1 + 20) n1 (cb_write p1 i1 s1 d1
      (out32 (p0 + 20) n0 (cb_write p0 i0 s0 d0
        (if q ≠ 0 then out32 (q + 20) nq mem else mem)))))) :
    (m p0 = i0 ∧ m (p0 + 4) = s0 ∧ m (p0 + 8) = d0 ∧ m (p0 + 12) = 4 ∧ m (p0 + 16) = 0 ∧
      m (p0 + 20) = n0) ∧
    (m p1 = i1 ∧ m (p1 + 4) = s1 ∧ m (p1 + 8) = d1 ∧ m (p1 + 12) = 4 ∧ m (p1 + 16) = 0 ∧
      m (p1 + 20) = n1) ∧
    (m p2 = i2 ∧ m (p2 + 4) = s2 ∧ m (p2 + 8) = d2 ∧ m (p2 + 12) = 4 ∧ m (p2 + 16) = 0 ∧
      m (p2 + 20) = mem (p2 + 20)) ∧
    (q ≠ 0 → m (q + 20) = nq) ∧
    (∀ a, (q ≠ 0 → a ≠ q + 20) → (a < p0 ∨ p0 + 32 ≤ a) → (a < p1 ∨ p1 + 32 ≤ a) →
      (a < p2 ∨ p2 + 32 ≤ a) → m a = mem a) := by
  subst hm
  by_cases hq : q = 0
  · subst hq
    simp only [ne_eq, not_true_eq_false, if_false]
    refine ⟨?_, ?_, ?_, fun h => h.elim, ?_⟩
    · simp (disch := omega) only [cb_write_other, out32_other_of, out32_same, cb_write_info,
        cb_write_src, cb_write_dst, cb_write_length, cb_write_stride, and_self]
    · simp (disch := omega) only [cb_write_other, out32_other_of, out32_same, cb_write_info,
        cb_write_src, cb_write_dst, cb_write_length, cb_write_stride, and_self]
    · simp (disch := omega) only [cb_write_other, out32_other_of, out32_same, cb_write_info,
        cb_write_src, cb_write_dst, cb_write_length, cb_write_stride, and_self]
    · intro a _ ha0 ha1 ha2
      simp (disch := omega) only [cb_write_other, out32_other_of]
  · have h0 := hq0 hq
    have h1 := hq1 hq
    have h2 := hq2 hq
    simp only [ne_eq, hq, not_false_eq_true, if_true]
    refine ⟨?_, ?_, ?_, ?_, ?_⟩
    · simp (disch := omega) only [cb_write_other, out32_other_of, out32_same, cb_write_info,
        cb_write_src, cb_write_dst, cb_write_length, cb_write_stride, and_self]
    · simp (disch := omega) only [cb_write_other, out32_other_of, out32_same, cb_write_info,
        cb_write_src, cb_write_dst, cb_write_length, cb_write_stride, and_self]
    · simp (disch := omega) only [cb_write_other, out32_other_of, out32_same, cb_write_info,
        cb_write_src, cb_write_dst, cb_write_length, cb_write_stride, and_self]
    · intro _
      simp (disch := omega) only [cb_write_other, out32_other_of, out32_same]
    · intro a haq ha0 ha1 ha2
      have haq2 := haq trivial
      simp (disch := omega) only [cb_write_other, out32_other_of]

theorem one_cb_mem (p0 q i0 s0 d0 nq : Nat) (mem : Nat → Nat)
    (hq0 : q ≠ 0 → q + 32 ≤ p0 ∨ p0 + 32 ≤ q) (m : Nat → Nat)
    (hm : m = cb_write p0 i0 s0 d0 (if q ≠ 0 then out32 (q + 20) nq mem else mem)) :
    (m p0 = i0 ∧ m (p0 + 4) = s0 ∧ m (p0 + 8) = d0 ∧ m (p0 + 12) = 4 ∧ m (p0 + 16) = 0 ∧
      m (p0 + 20) = mem (p0 + 20)) ∧
    (q ≠ 0 → m (q + 20) = nq) ∧
    (∀ a, (q ≠ 0 → a ≠ q + 20) → (a < p0 ∨ p0 + 32 ≤ a) → m a = mem a) := by
  subst hm
  by_cases hq : q = 0
  · subst hq
    simp only [ne_eq, not_true_eq_false, if_false]
    refine ⟨?_, fun h => h.elim, ?_⟩
    · simp (disch := omega) only [cb_write_other, cb_write_info,
        cb_write_src, cb_write_dst, cb_write_length, cb_write_stride, and_self]
    · intro a _ ha0
      simp (disch := omega) only [cb_write_other]
  · have h0 := hq0 hq
    simp only [ne_eq, hq, not_false_eq_true, if_true]
    refine ⟨?_, ?_, ?_⟩
    · simp (disch := omega) only [cb_write_other, out32_other_of, cb_write_info,
        cb_write_src, cb_write_dst, cb_write_length, cb_write_stride, and_self]
    · intro _
      simp (disch := omega) only [cb_write_other, out32_same]
    · intro a haq ha0
      have haq2 := haq trivial
      simp (disch := omega) only [cb_write_other, out32_other_of]

theorem cbs_step_spec {vb : Nat} (env : bs_env) (h : arena_ok vb env.phys_info)
    (i : Nat) (up : Bool) (c : bs_cb_t) (ha : c.cb_offset % 32 = 0)
    (hb : c.cb_offset + 32 * (sample_cbs (decide (i = 0)) c.up_old up).length ≤ ARENA)
    (hq : c.cbp ≠ 0 → ∃ q, q % 32 = 0 ∧ q < c.cb_offset ∧
      c.cbp = cb_offset_to_virt env.phys_info q) :
    (init_bs_cbs env i up c).cb_offset =
      c.cb_offset + 32 * (sample_cbs (decide (i = 0)) c.up_old up).length ∧
    (init_bs_cbs env i up c).up_old = up ∧
    (init_bs_cbs env i up c).cbp = cb_offset_to_virt env.phys_info
      (c.cb_offset + 32 * ((sample_cbs (decide (i = 0)) c.up_old up).length - 1)) ∧
    chain_holds env (init_bs_cbs env i up c).mem c.cb_offset
      (sample_cbs (decide (i = 0)) c.up_old up) ∧
    (init_bs_cbs env i up c).mem ((init_bs_cbs env i up c).cbp + CB_NEXT) =
      c.mem ((init_bs_cbs env i up c).cbp + CB_NEXT) ∧
    (c.cbp ≠ 0 → (init_bs_cbs env i up c).mem (c.cbp + CB_NEXT) =
      cb_offset_to_phys env.phys_info c.cb_offset) ∧
    (∀ a, (c.cbp ≠ 0 → a ≠ c.cbp + CB_NEXT) →
      (∀ t, t < (sample_cbs (decide (i = 0)) c.up_old up).length →
        a < cb_offset_to_virt env.phys_info (c.cb_offset + 32 * t) ∨
        cb_offset_to_virt env.phys_info (c.cb_offset + 32 * t) + 32 ≤ a) →
      (init_bs_cbs env i up c).mem a = c.mem a) := by
  have hsep : ∀ x y, x < ARENA → y < ARENA → x % 32 = 0 → y % 32 = 0 → x ≠ y →
      cb_offset_to_virt env.phys_info x + 32 ≤ cb_offset_to_virt env.phys_info y ∨
      cb_offset_to_virt env.phys_info y + 32 ≤ cb_offset_to_virt env.phys_info x :=
    fun x y hx hy hx32 hy32 hne => cb_offset_to_virt_sep h x y hx hy hx32 hy32 hne
  have hqsep : ∀ y, c.cb_offset ≤ y → y < ARENA → y % 32 = 0 → c.cbp ≠ 0 →
      c.cbp + 32 ≤ cb_offset_to_virt env.phys_info y ∨
      cb_offset_to_virt env.phys_info y + 32 ≤ c.cbp := by
    intro y hy1 hy2 hy3 hne
    obtain ⟨q, hq1, hq2, hq3⟩ := hq hne
    rw [hq3]
    exact hsep q y (by omega) hy2 hq1 hy3 (by omega)
  rw [sample_cbs_length] at hb ⊢
  by_cases hw : i = 0 ∨ c.up_old ≠ up
  · have hw2 : (decide (i = 0) = true ∨ c.up_old ≠ up) := by
      rcases hw with hw | hw
      · exact Or.inl (by simp [hw])
      · exact Or.inr hw
    simp only [hw2, if_true] at hb ⊢
    rw [init_bs_cbs_three env i up c hw]
    obtain ⟨f0, f1, f2, fq, fr⟩ := three_cbs_mem
      (cb_offset_to_virt env.phys_info c.cb_offset)
      (cb_offset_to_virt env.phys_info (c.cb_offset + 32))
      (cb_offset_to_virt env.phys_info (c.cb_offset + 64)) c.cbp
      _ _ _ _ _ _ _ _ _ _ _ _ c.mem
      (hsep _ _ (by omega) (by omega) ha (by omega) (by omega))
      (hsep _ _ (by omega) (by omega) ha (by omega) (by omega))
      (hsep _ _ (by omega) (by omega) (by omega) (by omega) (by omega))
      (hqsep _ (le_refl _) (by omega) ha)
      (hqsep _ (by omega) (by omega) (by omega))
      (hqsep _ (by omega) (by omega) (by omega)) _ rfl
    refine ⟨rfl, rfl, rfl, ?_, ?_, ?_, ?_⟩
    · intro j k hjk
      simp only [sample_cbs, hw2, if_true] at hjk ⊢
      match j, hjk with
      | 0, hjk =>
        simp only [List.getElem?_cons_zero, Option.some.injEq] at hjk
        subst hjk
        simp only [cb_holds, cb_fields, CB_INFO, CB_SRC, CB_DST, CB_LENGTH, CB_STRIDE,
          CB_NEXT, Nat.mul_zero, Nat.add_zero]
        exact ⟨⟨f0.1, f0.2.1, f0.2.2.1, f0.2.2.2.1, f0.2.2.2.2.1⟩, fun _ => f0.2.2.2.2.2⟩
      | 1, hjk =>
        simp only [List.getElem?_cons_succ, List.getElem?_cons_zero, Option.some.injEq] at hjk
        subst hjk
        simp only [cb_holds, cb_fields, CB_INFO, CB_SRC, CB_DST, CB_LENGTH, CB_STRIDE,
          CB_NEXT, Nat.mul_one, Nat.add_zero]
        exact ⟨⟨f1.1, f1.2.1, f1.2.2.1, f1.2.2.2.1, f1.2.2.2.2.1⟩, fun _ => f1.2.2.2.2.2⟩
      | 2, hjk =>
        simp only [List.getElem?_cons_succ, List.getElem?_cons_zero, Option.some.injEq] at hjk
        subst hjk
        simp only [cb_holds, cb_fields, CB_INFO, CB_SRC, CB_DST, CB_LENGTH, CB_STRIDE,
          CB_NEXT, Nat.add_zero]
        refine ⟨⟨f2.1, f2.2.1, f2.2.2.1, f2.2.2.2.1, f2.2.2.2.2.1⟩, fun hlt => ?_⟩
        simp at hlt
      | j + 3, hjk =>
        simp at hjk
    · exact f2.2.2.2.2.2
    · intro hne
      exact fq hne
    · intro a haq hat
      exact fr a haq (by simpa using hat 0 (by omega)) (by simpa using hat 1 (by omega))
        (by simpa using hat 2 (by omega))
  · have hw2 : ¬ (decide (i = 0) = true ∨ c.up_old ≠ up) := by
      intro hh
      apply hw
      rcases hh with hh | hh
      · exact Or.inl (by simpa using hh)
      · exact Or.inr hh
    simp only [hw2, if_false] at hb ⊢
    rw [init_bs_cbs_one env i up c hw]
    obtain ⟨f0, fq, fr⟩ := one_cb_mem
      (cb_offset_to_virt env.phys_info c.cb_offset) c.cbp _ _ _ _ c.mem
      (hqsep _ (le_refl _) (by omega) ha) _ rfl
    refine ⟨rfl, rfl, rfl, ?_, ?_, ?_, ?_⟩
    · intro j k hjk
      simp only [sample_cbs, hw2, if_false] at hjk ⊢
      match j, hjk with
      | 0, hjk =>
        simp only [List.getElem?_cons_zero, Option.some.injEq] at hjk
        subst hjk
        simp only [cb_holds, cb_fields, CB_INFO, CB_SRC, CB_DST, CB_LENGTH, CB_STRIDE,
          CB_NEXT, Nat.mul_zero, Nat.add_zero]
        refine ⟨⟨f0.1, f0.2.1, f0.2.2.1, f0.2.2.2.1, f0.2.2.2.2.1⟩, fun hlt => ?_⟩
        simp at hlt
      | j + 1, hjk =>
        simp at hjk
    · exact f0.2.2.2.2.2
    · intro hne
      exact fq hne
    · intro a haq hat
      exact fr a haq (by simpa using hat 0 (by omega))

/-! ## The loop of `init_bs` -/

theorem cb_holds_congr (env : bs_env) (m1 m2 : Nat → Nat) (o : Nat) (k : cb_kind)
    (hm : ∀ f, f < 20 → m2 (cb_offset_to_virt env.phys_info o + f) =
      m1 (cb_offset_to_virt env.phys_info o + f))
    (hc : cb_holds env m1 o k) : cb_holds env m2 o k := by
  simp only [cb_holds, CB_INFO, CB_SRC, CB_DST, CB_LENGTH, CB_STRIDE] at hc ⊢
  rw [hm 0 (by omega), hm 4 (by omega), hm 8 (by omega), hm 12 (by omega), hm 16 (by omega)]
  exact hc

theorem sample_cbs_getLast (first up_old up : Bool) :
    (sample_cbs first up_old up).getLast? = some .delay := by
  unfold sample_cbs
  split_ifs <;> rfl

theorem sample_cbs_ne_nil (first up_old up : Bool) : sample_cbs first up_old up ≠ [] := by
  unfold sample_cbs
  split_ifs <;> simp

theorem chain_cbs_ne_nil (i : Nat) (up_old u : Bool) (us : List Bool) :
    chain_cbs i up_old (u :: us) ≠ [] := by
  simp [chain_cbs, sample_cbs_ne_nil]

theorem chain_cbs_getLast : ∀ (us : List Bool) (i : Nat) (up_old u : Bool),
    (chain_cbs i up_old (u :: us)).getLast? = some .delay := by
  intro us
  induction us with
  | nil =>
    intro i up_old u
    simp [chain_cbs, sample_cbs_getLast]
  | cons v vs ih =>
    intro i up_old u
    rw [chain_cbs, List.getLast?_append_of_ne_nil _ (chain_cbs_ne_nil _ _ _ _)]
    exact ih _ _ _

theorem cbs_run_spec {vb : Nat} (env : bs_env) (h : arena_ok vb env.phys_info) :
    ∀ (us : List Bool) (i : Nat) (c : bs_cb_t), c.cb_offset % 32 = 0 →
    c.cb_offset + 32 * (chain_cbs i c.up_old us).length ≤ ARENA →
    (c.cbp ≠ 0 → ∃ q, q % 32 = 0 ∧ q < c.cb_offset ∧
      c.cbp = cb_offset_to_virt env.phys_info q) →
    (init_bs_cbs_run env us i c).cb_offset =
      c.cb_offset + 32 * (chain_cbs i c.up_old us).length ∧
    (us ≠ [] →
      (init_bs_cbs_run env us i c).cbp = cb_offset_to_virt env.phys_info
        (c.cb_offset + 32 * ((chain_cbs i c.up_old us).length - 1)) ∧
      (init_bs_cbs_run env us i c).mem ((init_bs_cbs_run env us i c).cbp + CB_NEXT) =
        c.mem ((init_bs_cbs_run env us i c).cbp + CB_NEXT)) ∧
    chain_holds env (init_bs_cbs_run env us i c).mem c.cb_offset (chain_cbs i c.up_old us) ∧
    (us ≠ [] → c.cbp ≠ 0 → (init_bs_cbs_run env us i c).mem (c.cbp + CB_NEXT) =
      cb_offset_to_phys env.phys_info c.cb_offset) ∧
    (∀ a, (c.cbp ≠ 0 → a ≠ c.cbp + CB_NEXT) →
      (∀ x, x % 32 = 0 → c.cb_offset ≤ x →
        x < c.cb_offset + 32 * (chain_cbs i c.up_old us).length →
        a < cb_offset_to_virt env.phys_info x ∨ cb_offset_to_virt env.phys_info x + 32 ≤ a) →
      (init_bs_cbs_run env us i c).mem a = c.mem a) := by
  have hsep : ∀ x y, x < ARENA → y < ARENA → x % 32 = 0 → y % 32 = 0 → x ≠ y →
      cb_offset_to_virt env.phys_info x + 32 ≤ cb_offset_to_virt env.phys_info y ∨
      cb_offset_to_virt env.phys_info y + 32 ≤ cb_offset_to_virt env.phys_info x :=
    fun x y hx hy hx32 hy32 hne => cb_offset_to_virt_sep h x y hx hy hx32 hy32 hne
  intro us
  induction us with
  | nil =>
    intro i c _ _ _
    refine ⟨by simp [init_bs_cbs_run, chain_cbs], fun hne => absurd rfl hne, ?_,
      fun hne => absurd rfl hne, fun a _ _ => rfl⟩
    intro j k hjk
    simp [chain_cbs] at hjk
  | cons u rest ih =>
    intro i c ha hb hq
    have hlen : (chain_cbs i c.up_old (u :: rest)).length =
        (sample_cbs (decide (i = 0)) c.up_old u).length +
          (chain_cbs (i + 1) u rest).length := by
      simp [chain_cbs]
    have hm13 : (sample_cbs (decide (i = 0)) c.up_old u).length = 1 ∨
        (sample_cbs (decide (i = 0)) c.up_old u).length = 3 := by
      rw [sample_cbs_length]; split_ifs <;> simp
    rw [hlen] at hb ⊢
    obtain ⟨s1, s2, s3, s4, s5, s6, s7⟩ := cbs_step_spec env h i u c ha (by omega) hq
    have hc1pos : (init_bs_cbs env i u c).cbp ≠ 0 := by
      rw [s3]
      have := (cb_offset_to_virt_range h
        (c.cb_offset + 32 * ((sample_cbs (decide (i = 0)) c.up_old u).length - 1))
        (by omega) (by omega)).1
      omega
    have hq1 : (init_bs_cbs env i u c).cbp ≠ 0 → ∃ q, q % 32 = 0 ∧
        q < (init_bs_cbs env i u c).cb_offset ∧
        (init_bs_cbs env i u c).cbp = cb_offset_to_virt env.phys_info q := by
      intro _
      exact ⟨c.cb_offset + 32 * ((sample_cbs (decide (i = 0)) c.up_old u).length - 1),
        by omega, by rw [s1]; omega, s3⟩
    obtain ⟨r1, r2, r3, r4, r5⟩ := ih (i + 1) (init_bs_cbs env i u c)
      (by rw [s1]; omega) (by rw [s1, s2]; omega) hq1
    rw [s2] at r1 r3 r5
    rw [s1] at r1 r3 r5
    simp only [init_bs_cbs_run]
    -- words of the CBs of this pass and the previous CB are not written by later passes
    have hkeep : ∀ a, (a ≠ (init_bs_cbs env i u c).cbp + CB_NEXT) →
        (∃ x f, x % 32 = 0 ∧ x < c.cb_offset + 32 * (sample_cbs (decide (i = 0)) c.up_old u).length ∧
          f < 32 ∧ a = cb_offset_to_virt env.phys_info x + f) →
        (init_bs_cbs_run env rest (i + 1) (init_bs_cbs env i u c)).mem a =
          (init_bs_cbs env i u c).mem a := by
      intro a ha1 hx
      obtain ⟨x, f, hx32, hxlt, hf, hax⟩ := hx
      refine r5 a (fun _ => ha1) ?_
      intro y hy32 hy1 hy2
      have := hsep x y (by omega) (by omega) hx32 hy32 (by omega)
      omega
    refine ⟨?_, ?_, ?_, ?_, ?_⟩
    · rw [r1]; omega
    · intro _
      by_cases hrest : rest = []
      · subst hrest
        simp only [init_bs_cbs_run, chain_cbs, List.length_nil, Nat.add_zero]
        exact ⟨s3, s5⟩
      · obtain ⟨t1, t2⟩ := r2 hrest
        rw [s2, s1] at t1
        have hpos : 0 < (chain_cbs (i + 1) u rest).length := by
          cases rest with
          | nil => exact absurd rfl hrest
          | cons v vs => exact List.length_pos.mpr (chain_cbs_ne_nil _ _ _ _)
        have hoff : c.cb_offset + 32 * (sample_cbs (decide (i = 0)) c.up_old u).length +
            32 * ((chain_cbs (i + 1) u rest).length - 1) =
            c.cb_offset + 32 * ((sample_cbs (decide (i = 0)) c.up_old u).length +
              (chain_cbs (i + 1) u rest).length - 1) := by omega
        rw [hoff] at t1
        refine ⟨t1, ?_⟩
        rw [t2]
        rw [t1]
        refine s7 _ ?_ ?_
        · intro hne
          obtain ⟨q, hq1, hq2, hq3⟩ := hq hne
          rw [hq3]
          have := hsep q (c.cb_offset + 32 * ((sample_cbs (decide (i = 0)) c.up_old u).length +
              (chain_cbs (i + 1) u rest).length - 1)) (by omega) (by omega) hq1 (by omega)
              (by omega)
          simp only [CB_NEXT]
          omega
        · intro t ht
          have := hsep (c.cb_offset + 32 * t)
            (c.cb_offset + 32 * ((sample_cbs (decide (i = 0)) c.up_old u).length +
              (chain_cbs (i + 1) u rest).length - 1)) (by omega) (by omega) (by omega)
              (by omega) (by omega)
          simp only [CB_NEXT]
          omega
    · intro j k hjk
      simp only [chain_cbs] at hjk ⊢
      by_cases hj : j < (sample_cbs (decide (i = 0)) c.up_old u).length
      · rw [List.getElem?_append_left hj] at hjk
        obtain ⟨g1, g2⟩ := s4 j k hjk
        constructor
        · refine cb_holds_congr env _ _ _ _ ?_ g1
          intro f hf
          refine hkeep _ ?_ ⟨c.cb_offset + 32 * j, f, by omega, by omega, by omega, rfl⟩
          rw [s3]
          by_cases hjl : j = (sample_cbs (decide (i = 0)) c.up_old u).length - 1
          · rw [hjl]
            simp only [CB_NEXT]
            omega
          · have := hsep (c.cb_offset + 32 * j)
              (c.cb_offset + 32 * ((sample_cbs (decide (i = 0)) c.up_old u).length - 1))
              (by omega) (by omega) (by omega) (by omega) (by omega)
            simp only [CB_NEXT]
            omega
        · intro hj1
          by_cases hjl : j + 1 < (sample_cbs (decide (i = 0)) c.up_old u).length
          · rw [← g2 hjl]
            refine hkeep _ ?_ ⟨c.cb_offset + 32 * j, CB_NEXT, by omega, by omega,
              by simp [CB_NEXT], rfl⟩
            rw [s3]
            have := hsep (c.cb_offset + 32 * j)
              (c.cb_offset + 32 * ((sample_cbs (decide (i = 0)) c.up_old u).length - 1))
              (by omega) (by omega) (by omega) (by omega) (by omega)
            omega
          · have hjeq : j = (sample_cbs (decide (i = 0)) c.up_old u).length - 1 := by omega
            have hrest : rest ≠ [] := by
              intro hr
              subst hr
              simp [chain_cbs] at hj1
              omega
            have := r4 hrest hc1pos
            rw [s3, ← hjeq, s1] at this
            rw [this]
            congr 1
            omega
      · rw [List.getElem?_append_right (by omega)] at hjk
        obtain ⟨g1, g2⟩ := r3 _ k hjk
        have hoff : c.cb_offset + 32 * (sample_cbs (decide (i = 0)) c.up_old u).length +
            32 * (j - (sample_cbs (decide (i = 0)) c.up_old u).length) =
            c.cb_offset + 32 * j := by omega
        rw [hoff] at g1 g2
        refine ⟨g1, ?_⟩
        intro hj1
        rw [g2 (by simp only [List.length_append] at hj1; omega)]
        congr 1
        omega
    · intro _ hne
      rw [← s6 hne]
      obtain ⟨q, hq1, hq2, hq3⟩ := hq hne
      refine hkeep _ ?_ ⟨q, CB_NEXT, hq1, by omega, by simp [CB_NEXT], by rw [hq3]⟩
      rw [s3, hq3]
      have := hsep q
        (c.cb_offset + 32 * ((sample_cbs (decide (i = 0)) c.up_old u).length - 1))
        (by omega) (by omega) hq1 (by omega) (by omega)
      omega
    · intro a haq hax
      clear hq hq1 hkeep
      rw [r5 a ?_ ?_]
      · refine s7 a haq ?_
        intro t ht
        exact hax _ (by omega) (by omega) (by omega)
      · intro _
        rw [s3]
        have := hax (c.cb_offset + 32 * ((sample_cbs (decide (i = 0)) c.up_old u).length - 1))
          (by omega) (by omega) (by omega)
        simp only [CB_NEXT]
        omega
      · intro y hy32 hy1 hy2
        exact hax y hy32 (by omega) (by omega)

/-! ## Counting the CBs of a chain -/

theorem chain_cbs_length_succ : ∀ (us : List Bool) (i : Nat) (p : Bool),
    (chain_cbs (i + 1) p us).length + 2 * same_count p us = 3 * us.length := by
  intro us
  induction us with
  | nil => intro i p; rfl
  | cons u rest ih =>
    intro i p
    have := ih (i + 1) u
    simp only [chain_cbs, same_count, List.length_append, List.length_cons, sample_cbs_length]
    by_cases hup : u = p
    · subst hup
      simp
      omega
    · have hpu : p ≠ u := fun h => hup h.symm
      simp [hup, hpu]
      omega

theorem chain_len_cons (u : Bool) (us : List Bool) :
    chain_len (u :: us) + 2 * same_count u us = 3 * (us.length + 1) ∧
    same_count u us ≤ us.length ∧
    us.length + 1 ≤ chain_len (u :: us) ∧ chain_len (u :: us) ≤ 3 * (us.length + 1) := by
  have h := chain_cbs_length_succ us 0 u
  have hlen : chain_len (u :: us) = 3 + (chain_cbs 1 u us).length := by
    simp [chain_len, chain_cbs, sample_cbs_length]
  have hs : ∀ (l : List Bool) (p : Bool), same_count p l ≤ l.length := by
    intro l
    induction l with
    | nil => intro p; simp [same_count]
    | cons v vs ih =>
      intro p
      have := ih v
      simp only [same_count, List.length_cons]
      split_ifs <;> omega
  have := hs us u
  simp only [Nat.zero_add] at h
  omega

/-! ## One chain -/

theorem init_bs_chain_spec {vb : Nat} (env : bs_env) (h : arena_ok vb env.phys_info)
    (us : List Bool) (o : Nat) (mem : Nat → Nat) (hus : us ≠ []) (ho : o % 32 = 0)
    (hb : o + 32 * chain_len us ≤ ARENA) (hz : zero_from env mem o) :
    (init_bs_chain env us o mem).1.physaddr = cb_offset_to_phys env.phys_info o ∧
    (init_bs_chain env us o mem).1.cb_last =
      cb_offset_to_virt env.phys_info (o + 32 * (chain_len us - 1)) ∧
    (init_bs_chain env us o mem).2.1 = o + 32 * chain_len us ∧
    0 < chain_len us ∧
    chain_holds env (init_bs_chain env us o mem).2.2 o (chain_cbs 0 false us) ∧
    (init_bs_chain env us o mem).2.2
      (cb_offset_to_virt env.phys_info (o + 32 * (chain_len us - 1)) + CB_NEXT) = 0 ∧
    zero_from env (init_bs_chain env us o mem).2.2 (o + 32 * chain_len us) ∧
    (∀ x f, x % 32 = 0 → x < o → f < 32 →
      (init_bs_chain env us o mem).2.2 (cb_offset_to_virt env.phys_info x + f) =
        mem (cb_offset_to_virt env.phys_info x + f)) ∧
    (∀ a, a < vb ∨ vb + ARENA ≤ a → (init_bs_chain env us o mem).2.2 a = mem a) := by
  obtain ⟨r1, r2, r3, -, r5⟩ := cbs_run_spec env h us 0
    { cbp := 0, cb_offset := o, up_old := false, mem := mem } ho hb
    (fun hne => absurd rfl hne)
  obtain ⟨t1, t2⟩ := r2 hus
  have hpos : 0 < chain_len us := by
    cases us with
    | nil => exact absurd rfl hus
    | cons u rest => exact List.length_pos.mpr (chain_cbs_ne_nil _ _ _ _)
  have hsep : ∀ x y, x < ARENA → y < ARENA → x % 32 = 0 → y % 32 = 0 → x ≠ y →
      cb_offset_to_virt env.phys_info x + 32 ≤ cb_offset_to_virt env.phys_info y ∨
      cb_offset_to_virt env.phys_info y + 32 ≤ cb_offset_to_virt env.phys_info x :=
    fun x y hx hy hx32 hy32 hne => cb_offset_to_virt_sep h x y hx hy hx32 hy32 hne
  dsimp only at r1 t1 t2 r3 r5
  simp only [init_bs_chain]
  simp only [chain_len] at hpos hb ⊢
  refine ⟨by first | rfl | trivial, t1, r1, hpos, r3, ?_, ?_, ?_, ?_⟩
  · rw [← t1, t2]
    rw [t1]
    exact hz _ CB_NEXT (by omega) (by omega) (by omega) (by simp [CB_NEXT])
  · intro x f hx32 hx1 hx2 hf
    rw [r5 _ (fun hne => absurd rfl hne)]
    · exact hz x f hx32 (by omega) hx2 hf
    · intro y hy32 hy1 hy2
      have := hsep x y hx2 (by omega) hx32 hy32 (by omega)
      omega
  · intro x f hx32 hx1 hf
    refine r5 _ (fun hne => absurd rfl hne) ?_
    intro y hy32 hy1 hy2
    have := hsep x y (by omega) (by omega) hx32 hy32 (by omega)
    omega
  · intro a ha
    refine r5 _ (fun hne => absurd rfl hne) ?_
    intro y hy32 hy1 hy2
    have := cb_offset_to_virt_range h y (by omega) hy32
    rw [ARENA] at ha
    omega

/-! ## The chains of one slot and of all slots -/

theorem chain_holds_stable (env : bs_env) (m1 m2 : Nat → Nat) (o F : Nat) (ks : List cb_kind)
    (ho : o % 32 = 0) (hF : o + 32 * ks.length ≤ F)
    (hm : ∀ x f, x % 32 = 0 → x < F → f < 32 →
      m2 (cb_offset_to_virt env.phys_info x + f) = m1 (cb_offset_to_virt env.phys_info x + f))
    (hc : chain_holds env m1 o ks) : chain_holds env m2 o ks := by
  intro j k hjk
  have hj : j < ks.length := by
    rcases List.getElem?_eq_some_iff.mp hjk with ⟨hj, -⟩
    exact hj
  obtain ⟨c1, c2⟩ := hc j k hjk
  refine ⟨cb_holds_congr env m1 m2 _ k (fun f hf => hm _ f (by omega) (by omega) (by omega)) c1,
    fun hj1 => ?_⟩
  rw [hm _ CB_NEXT (by omega) (by omega) (by simp [CB_NEXT])]
  exact c2 hj1

theorem chain_done_stable (env : bs_env) (st1 st2 : cbs_t) (ts : Nat) (s : Sym) (o F : Nat)
    (us : List Bool) (ho : o % 32 = 0) (hpos : 0 < chain_len us)
    (hF : o + 32 * chain_len us ≤ F)
    (hm : ∀ x f, x % 32 = 0 → x < F → f < 32 →
      st2.mem (cb_offset_to_virt env.phys_info x + f) =
        st1.mem (cb_offset_to_virt env.phys_info x + f))
    (hbs : (st2.ts_info ts).bs s = (st1.ts_info ts).bs s)
    (hc : chain_done env st1 ts s o us) : chain_done env st2 ts s o us := by
  obtain ⟨c1, c2, c3, c4⟩ := hc
  refine ⟨by rw [hbs]; exact c1, by rw [hbs]; exact c2,
    chain_holds_stable env st1.mem st2.mem o F _ ho hF hm c3, ?_⟩
  rw [hm _ CB_NEXT (by omega) (by omega) (by simp [CB_NEXT])]
  exact c4

theorem init_cbs_syms_spec {vb : Nat} (env : bs_env) (h : arena_ok vb env.phys_info)
    (us : Sym → List Bool) (ts : Nat) :
    ∀ (syms : List Sym) (st : cbs_t), syms.Nodup → (∀ s, s ∈ syms → us s ≠ []) →
    st.cb_offset % 32 = 0 → st.cb_offset + 32 * syms_cbs us syms ≤ ARENA →
    zero_from env st.mem st.cb_offset →
    (init_cbs_syms env us ts syms st).cb_offset = st.cb_offset + 32 * syms_cbs us syms ∧
    zero_from env (init_cbs_syms env us ts syms st).mem
      (init_cbs_syms env us ts syms st).cb_offset ∧
    (∀ s, s ∈ syms → 0 < chain_len (us s) ∧
      sym_offset us syms s + chain_len (us s) ≤ syms_cbs us syms ∧
      chain_done env (init_cbs_syms env us ts syms st) ts s
        (st.cb_offset + 32 * sym_offset us syms s) (us s)) ∧
    (∀ s, s ∉ syms →
      ((init_cbs_syms env us ts syms st).ts_info ts).bs s = (st.ts_info ts).bs s) ∧
    ((init_cbs_syms env us ts syms st).ts_info ts).physaddr = (st.ts_info ts).physaddr ∧
    (∀ t, t ≠ ts → (init_cbs_syms env us ts syms st).ts_info t = st.ts_info t) ∧
    (∀ x f, x % 32 = 0 → x < st.cb_offset → f < 32 →
      (init_cbs_syms env us ts syms st).mem (cb_offset_to_virt env.phys_info x + f) =
        st.mem (cb_offset_to_virt env.phys_info x + f)) ∧
    (∀ a, a < vb ∨ vb + ARENA ≤ a → (init_cbs_syms env us ts syms st).mem a = st.mem a) := by
  intro syms
  induction syms with
  | nil =>
    intro st _ _ ho hb hz
    exact ⟨rfl, hz, fun s hs => absurd hs (List.not_mem_nil s), fun _ _ => rfl, rfl,
      fun _ _ => rfl, fun _ _ _ _ _ => rfl, fun _ _ => rfl⟩
  | cons s rest ih =>
    intro st hnd hne ho hb hz
    have hsr : s ∉ rest := (List.nodup_cons.mp hnd).1
    have hndr : rest.Nodup := (List.nodup_cons.mp hnd).2
    simp only [syms_cbs] at hb ⊢
    obtain ⟨a1, a2, a3, a4, a5, a6, a7, a8, a9⟩ :=
      init_bs_chain_spec env h (us s) st.cb_offset st.mem (hne s (List.mem_cons_self _ _)) ho
        (by omega) hz
    obtain ⟨st1, hst1, e1, e2, e3, e4, e5, e6⟩ : ∃ st1 : cbs_t,
        init_cbs_syms env us ts (s :: rest) st = init_cbs_syms env us ts rest st1 ∧
        st1.cb_offset = st.cb_offset + 32 * chain_len (us s) ∧
        st1.mem = (init_bs_chain env (us s) st.cb_offset st.mem).2.2 ∧
        (st1.ts_info ts).bs s = (init_bs_chain env (us s) st.cb_offset st.mem).1 ∧
        (∀ x, x ≠ s → (st1.ts_info ts).bs x = (st.ts_info ts).bs x) ∧
        (st1.ts_info ts).physaddr = (st.ts_info ts).physaddr ∧
        (∀ t, t ≠ ts → st1.ts_info t = st.ts_info t) := by
      refine ⟨_, rfl, a3, rfl, by simp, fun x hx => by simp [hx], by simp,
        fun t ht => by simp [ht]⟩
    rw [hst1]
    obtain ⟨b1, b2, b3, b4, b5, b6, b7, b8⟩ := ih st1 hndr
      (fun x hx => hne x (List.mem_cons_of_mem _ hx)) (by rw [e1]; omega)
      (by rw [e1]; omega) (by rw [e1, e2]; exact a7)
    have d1 : chain_done env st1 ts s st.cb_offset (us s) := by
      refine ⟨by rw [e3]; exact a1, by rw [e3]; exact a2, by rw [e2]; exact a5,
        by rw [e2]; exact a6⟩
    refine ⟨by rw [b1, e1]; omega, b2, ?_, ?_, by rw [b5, e5], ?_, ?_, ?_⟩
    · intro x hx
      rcases List.mem_cons.mp hx with hxs | hxr
      · subst hxs
        refine ⟨a4, by simp [sym_offset], ?_⟩
        have : sym_offset us (x :: rest) x = 0 := by simp [sym_offset]
        rw [this]
        exact chain_done_stable env st1 _ ts x st.cb_offset st1.cb_offset (us x) ho a4
          (by rw [e1]) b7 (b4 x hsr) d1
      · have hxs : x ≠ s := fun hxs => hsr (hxs ▸ hxr)
        obtain ⟨c1, c2, c3⟩ := b3 x hxr
        have : sym_offset us (s :: rest) x = chain_len (us s) + sym_offset us rest x := by
          simp [sym_offset, hxs]
        rw [this]
        refine ⟨c1, by omega, ?_⟩
        rw [e1] at c3
        rw [show st.cb_offset + 32 * (chain_len (us s) + sym_offset us rest x) =
          st.cb_offset + 32 * chain_len (us s) + 32 * sym_offset us rest x by omega]
        exact c3
    · intro x hx
      have hxs : x ≠ s := fun hxs => hx (hxs ▸ List.mem_cons_self _ _)
      have hxr : x ∉ rest := fun hxr => hx (List.mem_cons_of_mem _ hxr)
      rw [b4 x hxr, e4 x hxs]
    · intro t ht
      rw [b6 t ht, e6 t ht]
    · intro x f hx hxo hf
      rw [b7 x f hx (by rw [e1]; omega) hf, e2, a8 x f hx hxo hf]
    · intro a ha
      rw [b8 a ha, e2, a9 a ha]

theorem slot_start_succ (us : Nat → Sym → List Bool) (ts : Nat) :
    slot_start us (ts + 1) =
      slot_start us ts + 32 * syms_cbs (us ts) [.SYM_L, .SYM_H, .SYM_LH, .SYM_HL] := rfl

theorem slot_start_mod (us : Nat → Sym → List Bool) : ∀ ts, slot_start us ts % 32 = 0 := by
  intro ts
  induction ts with
  | zero => rfl
  | succ n ih => rw [slot_start_succ]; omega

theorem slot_start_mono (us : Nat → Sym → List Bool) :
    ∀ k ts, slot_start us ts ≤ slot_start us (ts + k) := by
  intro k
  induction k with
  | zero => intro ts; exact Nat.le_refl _
  | succ n ih =>
    intro ts
    have := ih ts
    rw [← Nat.add_assoc, slot_start_succ]
    omega

theorem chain_start_mod (us : Nat → Sym → List Bool) (ts : Nat) (s : Sym) :
    chain_start us ts s % 32 = 0 := by
  have := slot_start_mod us ts
  unfold chain_start
  omega

theorem syms_nodup : ([.SYM_L, .SYM_H, .SYM_LH, .SYM_HL] : List Sym).Nodup := by decide

theorem syms_mem (s : Sym) : s ∈ ([.SYM_L, .SYM_H, .SYM_LH, .SYM_HL] : List Sym) := by
  cases s <;> simp

theorem init_cbs_slots_spec {vb : Nat} (env : bs_env) (h : arena_ok vb env.phys_info)
    (us : Nat → Sym → List Bool) :
    ∀ (k ts : Nat) (st : cbs_t), (∀ t s, ts ≤ t → t < ts + k → us t s ≠ []) →
    st.cb_offset = slot_start us ts → slot_start us (ts + k) ≤ ARENA →
    zero_from env st.mem st.cb_offset →
    (init_cbs_slots env us k ts st).cb_offset = slot_start us (ts + k) ∧
    zero_from env (init_cbs_slots env us k ts st).mem (init_cbs_slots env us k ts st).cb_offset ∧
    (∀ t, ts ≤ t → t < ts + k →
      ((init_cbs_slots env us k ts st).ts_info t).physaddr =
        cb_offset_to_phys env.phys_info (slot_start us t) ∧
      ∀ s, 0 < chain_len (us t s) ∧
        chain_start us t s + 32 * chain_len (us t s) ≤ slot_start us (t + 1) ∧
        chain_done env (init_cbs_slots env us k ts st) t s (chain_start us t s) (us t s)) ∧
    (∀ t, t < ts → (init_cbs_slots env us k ts st).ts_info t = st.ts_info t) ∧
    (∀ x f, x % 32 = 0 → x < st.cb_offset → f < 32 →
      (init_cbs_slots env us k ts st).mem (cb_offset_to_virt env.phys_info x + f) =
        st.mem (cb_offset_to_virt env.phys_info x + f)) ∧
    (∀ a, a < vb ∨ vb + ARENA ≤ a → (init_cbs_slots env us k ts st).mem a = st.mem a) := by
  intro k
  induction k with
  | zero =>
    intro ts st _ ho hb hz
    exact ⟨ho, hz, fun t h1 h2 => absurd h2 (by omega), fun _ _ => rfl,
      fun _ _ _ _ _ => rfl, fun _ _ => rfl⟩
  | succ n ih =>
    intro ts st hne ho hb hz
    obtain ⟨st0, hst0, f1, f2, f3, f4, f5⟩ : ∃ st0 : cbs_t,
        init_cbs_slots env us (n + 1) ts st = init_cbs_slots env us n (ts + 1)
          (init_cbs_syms env (us ts) ts [.SYM_L, .SYM_H, .SYM_LH, .SYM_HL] st0) ∧
        st0.cb_offset = st.cb_offset ∧ st0.mem = st.mem ∧
        (st0.ts_info ts).physaddr = cb_offset_to_phys env.phys_info st.cb_offset ∧
        (st0.ts_info ts).bs = (st.ts_info ts).bs ∧
        (∀ t, t ≠ ts → st0.ts_info t = st.ts_info t) := by
      refine ⟨_, rfl, rfl, rfl, by simp, by simp, fun t ht => by simp [ht]⟩
    rw [hst0]
    have hm1 := slot_start_mono us n (ts + 1)
    have hmod := slot_start_mod us ts
    have hss := slot_start_succ us ts
    have hidx : ts + 1 + n = ts + (n + 1) := by omega
    rw [hidx] at hm1
    obtain ⟨a1, a2, a3, a4, a5, a6, a7, a8⟩ := init_cbs_syms_spec env h (us ts) ts
      [.SYM_L, .SYM_H, .SYM_LH, .SYM_HL] st0 syms_nodup
      (fun s _ => hne ts s (Nat.le_refl _) (by omega)) (by rw [f1, ho]; exact hmod)
      (by rw [f1, ho]; omega) (by rw [f1, f2]; exact hz)
    generalize init_cbs_syms env (us ts) ts [.SYM_L, .SYM_H, .SYM_LH, .SYM_HL] st0 = st1
      at a1 a2 a3 a4 a5 a6 a7 a8 ⊢
    have e1 : st1.cb_offset = slot_start us (ts + 1) := by rw [a1, f1, ho, hss]
    obtain ⟨b1, b2, b3, b4, b5, b6⟩ := ih (ts + 1) st1
      (fun t s h1 h2 => hne t s (by omega) (by omega)) e1 (by rw [hidx]; exact hb) a2
    rw [hidx] at b1
    refine ⟨b1, b2, ?_, ?_, ?_, ?_⟩
    · intro t h1 h2
      by_cases hts : t = ts
      · subst hts
        rw [b4 t (by omega)]
        refine ⟨by rw [a5, f3, ho], fun s => ?_⟩
        obtain ⟨c1, c2, c3⟩ := a3 s (syms_mem s)
        rw [f1, ho] at c3
        refine ⟨c1, by unfold chain_start; omega, ?_⟩
        refine chain_done_stable env st1 _ t s (chain_start us t s) st1.cb_offset (us t s)
          (chain_start_mod us t s) c1 (by rw [e1]; unfold chain_start; omega) b5
          (by rw [b4 t (by omega)]) c3
      · exact b3 t (by omega) (by omega)
    · intro t ht
      rw [b4 t (by omega), a6 t (by omega), f5 t (by omega)]
    · intro x f hx hxo hf
      rw [b5 x f hx (by rw [e1]; omega) hf, a7 x f hx (by rw [f1]; exact hxo) hf, f2]
    · intro a ha
      rw [b6 a ha, a8 a ha, f2]

theorem ctl_mem_zero {vb : Nat} (env : bs_env) (h : arena_ok vb env.phys_info)
    (mem : Nat → Nat) : zero_from env (ctl_mem vb mem) 0 := by
  intro x f hx _ hxa hf
  have := cb_offset_to_virt_range h x hxa hx
  simp only [ctl_mem, out32]
  rw [if_neg (by omega), if_neg (by omega), if_pos]
  simp only [PAGE_SIZE] at this ⊢
  omega

theorem ctl_mem_samples (vb : Nat) (mem : Nat → Nat) :
    ctl_mem vb mem (vb + ARENA) = 1 <<< GPIO_POS_NUM ∧
    ctl_mem vb mem (vb + ARENA + 4) = 1 <<< GPIO_NEG_NUM := by
  simp [ctl_mem, out32, ARENA]

/-! ## The stores of `init_ctrl_data` are those of its drive decisions -/

theorem ctrl_cbs_mk {K : Type} (a : Nat → ts_info_t) (b : Nat) (c : Nat → Nat) (d : K) :
    (ctrl_t.mk a b c d).cbs = cbs_t.mk a b c := rfl

theorem ctrl_cbs_ts_info {K : Type} (st : ctrl_t K) : st.cbs.ts_info = st.ts_info := rfl

theorem ctrl_cbs_cb_offset {K : Type} (st : ctrl_t K) : st.cbs.cb_offset = st.cb_offset := rfl

theorem ctrl_cbs_mem {K : Type} (st : ctrl_t K) : st.cbs.mem = st.mem := rfl

section Link

variable {K : Type} [LinearOrderedField K]

theorem bs_decisions_length (rnd : K → K) (sd_fn : K → K) (md mw : K) :
    ∀ (k i : Nat) (v : K), (bs_decisions rnd sd_fn md mw k i v).length = k := by
  intro k
  induction k with
  | zero => intro i v; rfl
  | succ n ih => intro i v; simp [bs_decisions, ih]

theorem init_bs_loop_cbs (env : bs_env) (rnd : K → K) (sd_fn : K → K) (md mw : K) :
    ∀ (k i : Nat) (c : bs_cb_t) (v lem : K),
    (init_bs_loop env rnd sd_fn md mw k i (c, v, lem)).1 =
      init_bs_cbs_run env (bs_decisions rnd sd_fn md mw k i v) i c := by
  intro k
  induction k with
  | zero => intro i c v lem; rfl
  | succ n ih =>
    intro i c v lem
    rw [init_bs_loop, bs_decisions, init_bs_cbs_run, ih]
    rfl

theorem init_bs_fst (env : bs_env) (rnd : K → K) (sd_fn : K → K) (exp : K → K) (rc : K)
    (o : Nat) (mem : Nat → Nat) (lem : K) :
    (init_bs env rnd sd_fn exp rc o mem lem).1 =
    { physaddr := cb_offset_to_phys env.phys_info o,
       cb_last := (init_bs_loop env rnd sd_fn (exp (rnd (-(PULSE_WIDTH_INCR_US : K) / rnd (1000000 * rc))))
        (rnd (1 - exp (rnd (-(PULSE_WIDTH_INCR_US : K) / rnd (1000000 * rc))))) BS_SAMPLES 0
        ({ cbp := 0, cb_offset := o, up_old := false, mem := mem }, sd_fn 0, lem)).1.cbp } := by
  unfold init_bs
  simp only []

theorem init_bs_snd (env : bs_env) (rnd : K → K) (sd_fn : K → K) (exp : K → K) (rc : K)
    (o : Nat) (mem : Nat → Nat) (lem : K) :
    (init_bs env rnd sd_fn exp rc o mem lem).2 =
    ((init_bs_loop env rnd sd_fn (exp (rnd (-(PULSE_WIDTH_INCR_US : K) / rnd (1000000 * rc))))
        (rnd (1 - exp (rnd (-(PULSE_WIDTH_INCR_US : K) / rnd (1000000 * rc))))) BS_SAMPLES 0
        ({ cbp := 0, cb_offset := o, up_old := false, mem := mem }, sd_fn 0, lem)).1.cb_offset,
     (init_bs_loop env rnd sd_fn (exp (rnd (-(PULSE_WIDTH_INCR_US : K) / rnd (1000000 * rc))))
        (rnd (1 - exp (rnd (-(PULSE_WIDTH_INCR_US : K) / rnd (1000000 * rc))))) BS_SAMPLES 0
        ({ cbp := 0, cb_offset := o, up_old := false, mem := mem }, sd_fn 0, lem)).1.mem,
     (init_bs_loop env rnd sd_fn (exp (rnd (-(PULSE_WIDTH_INCR_US : K) / rnd (1000000 * rc))))
        (rnd (1 - exp (rnd (-(PULSE_WIDTH_INCR_US : K) / rnd (1000000 * rc))))) BS_SAMPLES 0
        ({ cbp := 0, cb_offset := o, up_old := false, mem := mem }, sd_fn 0, lem)).2.2) := by
  unfold init_bs
  simp only []

theorem init_bs_chain_fst (env : bs_env) (us : List Bool) (o : Nat) (mem : Nat → Nat) :
    (init_bs_chain env us o mem).1 =
    { physaddr := cb_offset_to_phys env.phys_info o,
      cb_last := (init_bs_cbs_run env us 0
        { cbp := 0, cb_offset := o, up_old := false, mem := mem }).cbp } := by
  unfold init_bs_chain
  simp only []

theorem init_bs_chain_snd (env : bs_env) (us : List Bool) (o : Nat) (mem : Nat → Nat) :
    (init_bs_chain env us o mem).2 =
    ((init_bs_cbs_run env us 0
        { cbp := 0, cb_offset := o, up_old := false, mem := mem }).cb_offset,
     (init_bs_cbs_run env us 0
        { cbp := 0, cb_offset := o, up_old := false, mem := mem }).mem) := by
  unfold init_bs_chain
  simp only []

theorem init_bs_eq_chain (env : bs_env) (rnd : K → K) (sd_fn : K → K) (exp : K → K) (rc : K)
    (o : Nat) (mem : Nat → Nat) (lem : K) :
    (init_bs env rnd sd_fn exp rc o mem lem).1 =
      (init_bs_chain env
        (bs_decisions rnd sd_fn (exp (rnd (-(PULSE_WIDTH_INCR_US : K) / rnd (1000000 * rc))))
          (rnd (1 - exp (rnd (-(PULSE_WIDTH_INCR_US : K) / rnd (1000000 * rc))))) BS_SAMPLES 0 (sd_fn 0))
        o mem).1 ∧
    (init_bs env rnd sd_fn exp rc o mem lem).2.1 =
      (init_bs_chain env
        (bs_decisions rnd sd_fn (exp (rnd (-(PULSE_WIDTH_INCR_US : K) / rnd (1000000 * rc))))
          (rnd (1 - exp (rnd (-(PULSE_WIDTH_INCR_US : K) / rnd (1000000 * rc))))) BS_SAMPLES 0 (sd_fn 0))
        o mem).2.1 ∧
    (init_bs env rnd sd_fn exp rc o mem lem).2.2.1 =
      (init_bs_chain env
        (bs_decisions rnd sd_fn (exp (rnd (-(PULSE_WIDTH_INCR_US : K) / rnd (1000000 * rc))))
          (rnd (1 - exp (rnd (-(PULSE_WIDTH_INCR_US : K) / rnd (1000000 * rc))))) BS_SAMPLES 0 (sd_fn 0))
        o mem).2.2 := by
  rw [init_bs_fst, init_bs_snd, init_bs_chain_fst, init_bs_chain_snd, init_bs_loop_cbs]
  exact ⟨rfl, rfl, rfl⟩

theorem init_bs_sym_chain (env : bs_env) (rnd : K → K) (cos : K → K) (pi : K) (exp : K → K) (A rc : K)
    (s : Sym) (o : Nat) (mem : Nat → Nat) (lem : K) :
    (init_bs env rnd (sym_def rnd cos pi A s) exp rc o mem lem).1 =
      (init_bs_chain env (sym_decisions rnd cos pi exp A rc s) o mem).1 ∧
    (init_bs env rnd (sym_def rnd cos pi A s) exp rc o mem lem).2.1 =
      (init_bs_chain env (sym_decisions rnd cos pi exp A rc s) o mem).2.1 ∧
    (init_bs env rnd (sym_def rnd cos pi A s) exp rc o mem lem).2.2.1 =
      (init_bs_chain env (sym_decisions rnd cos pi exp A rc s) o mem).2.2 := by
  unfold sym_decisions
  exact init_bs_eq_chain env rnd (sym_def rnd cos pi A s) exp rc o mem lem

theorem init_ctrl_syms_cbs (env : bs_env) (rnd : K → K) (cos : K → K) (pi : K) (exp : K → K) (A rc : K)
    (ts : Nat) : ∀ (syms : List Sym) (st : ctrl_t K),
    (init_ctrl_syms env rnd cos pi exp A rc ts syms st).cbs =
      init_cbs_syms env (sym_decisions rnd cos pi exp A rc) ts syms st.cbs := by
  intro syms
  induction syms with
  | nil => intro st; rfl
  | cons s rest ih =>
    intro st
    rw [init_ctrl_syms, init_cbs_syms, ih]
    obtain ⟨e1, e2, e3⟩ := init_bs_sym_chain env rnd cos pi exp A rc s st.cb_offset st.mem
      st.level_error_max
    refine congrArg (init_cbs_syms env (sym_decisions rnd cos pi exp A rc) ts rest) ?_
    rw [ctrl_cbs_mk, ctrl_cbs_cb_offset, ctrl_cbs_mem, ctrl_cbs_ts_info, e1, e2, e3]

theorem init_ctrl_slots_cbs (env : bs_env) (rnd : K → K) (cos : K → K) (pi : K) (exp : K → K) (A rc : K) :
    ∀ (k ts : Nat) (st : ctrl_t K),
    (init_ctrl_slots env rnd cos pi exp A rc k ts st).cbs =
      init_cbs_slots env (fun _ => sym_decisions rnd cos pi exp A rc) k ts st.cbs := by
  intro k
  induction k with
  | zero => intro ts st; rfl
  | succ n ih =>
    intro ts st
    rw [init_ctrl_slots, init_cbs_slots, ih, init_ctrl_syms_cbs]
    refine congrArg (init_cbs_slots env (fun _ => sym_decisions rnd cos pi exp A rc) n (ts + 1)) ?_
    refine congrArg (init_cbs_syms env (sym_decisions rnd cos pi exp A rc) ts
      [.SYM_L, .SYM_H, .SYM_LH, .SYM_HL]) ?_
    rw [ctrl_cbs_mk, ctrl_cbs_cb_offset, ctrl_cbs_mem, ctrl_cbs_ts_info]

theorem init_ctrl_data_cbs (vb : Nat) (page_map phys_info : Nat → page_map_t) (delay_hw : Nat)
    (rnd : K → K) (cos : K → K) (pi : K) (exp : K → K) (A rc : K) (mem : Nat → Nat) :
    (init_ctrl_data vb page_map phys_info delay_hw rnd cos pi exp A rc mem).cbs =
      init_ctrl_cbs vb page_map phys_info delay_hw (fun _ => sym_decisions rnd cos pi exp A rc)
        mem := by
  rw [init_ctrl_data, init_ctrl_cbs, init_ctrl_slots_cbs, ctrl_cbs_mk]

theorem sym_decisions_length (rnd : K → K) (cos : K → K) (pi : K) (exp : K → K) (A rc : K) (s : Sym) :
    (sym_decisions rnd cos pi exp A rc s).length = BS_SAMPLES :=
  bs_decisions_length _ _ _ _ _ _ _

end Link

/-! ## C15: the shape of a compiled chain -/

theorem BS_SAMPLES_eq : BS_SAMPLES = 3200 := by decide

theorem same_change_count : ∀ (us : List Bool) (u : Bool),
    same_count u us + change_count u us = us.length := by
  intro us
  induction us with
  | nil => intro u; rfl
  | cons v rest ih =>
    intro u
    have := ih v
    simp only [same_count, change_count, List.length_cons]
    split_ifs <;> omega

theorem chain_len_bounds (us : List Bool) (h : us.length = BS_SAMPLES) :
    us ≠ [] ∧ chain_len us + 2 * same_pairs us = 3 * BS_SAMPLES ∧
    same_pairs us + changed_pairs us + 1 = BS_SAMPLES ∧
    BS_SAMPLES ≤ chain_len us ∧ chain_len us ≤ 3 * BS_SAMPLES := by
  rw [BS_SAMPLES_eq] at h ⊢
  cases us with
  | nil => simp at h
  | cons u rest =>
    obtain ⟨h1, h2, h3, h4⟩ := chain_len_cons u rest
    have h5 := same_change_count rest u
    simp only [List.length_cons] at h
    simp only [same_pairs, changed_pairs]
    refine ⟨by simp, ?_, ?_, ?_, ?_⟩ <;> omega

theorem syms_cbs_bounds (us : Sym → List Bool) (h : ∀ s, (us s).length = BS_SAMPLES) :
    4 * BS_SAMPLES ≤ syms_cbs us [.SYM_L, .SYM_H, .SYM_LH, .SYM_HL] ∧
    syms_cbs us [.SYM_L, .SYM_H, .SYM_LH, .SYM_HL] ≤ 12 * BS_SAMPLES := by
  have h1 := chain_len_bounds _ (h .SYM_L)
  have h2 := chain_len_bounds _ (h .SYM_H)
  have h3 := chain_len_bounds _ (h .SYM_LH)
  have h4 := chain_len_bounds _ (h .SYM_HL)
  simp only [syms_cbs]
  omega

theorem slot_start_bounds (us : Nat → Sym → List Bool)
    (h : ∀ ts s, (us ts s).length = BS_SAMPLES) :
    ∀ ts, slot_start us ts + 32 * (4 * BS_SAMPLES) ≤ slot_start us (ts + 1) ∧
      slot_start us ts ≤ 32 * (12 * BS_SAMPLES) * ts := by
  intro ts
  induction ts with
  | zero =>
    have := syms_cbs_bounds (us 0) (h 0)
    rw [slot_start_succ]
    simp only [slot_start]
    omega
  | succ n ih =>
    have := syms_cbs_bounds (us (n + 1)) (h (n + 1))
    have := syms_cbs_bounds (us n) (h n)
    rw [slot_start_succ us (n + 1)]
    rw [slot_start_succ us n] at ih ⊢
    rw [BS_SAMPLES_eq] at *
    omega

theorem slot_start_arena (us : Nat → Sym → List Bool)
    (h : ∀ ts s, (us ts s).length = BS_SAMPLES) : slot_start us TS_COUNT ≤ ARENA := by
  have := (slot_start_bounds us h TS_COUNT).2
  rw [BS_SAMPLES_eq, TS_COUNT_eq] at this
  rw [ARENA_eq, TS_COUNT_eq]
  omega

theorem init_ctrl_cbs_spec {vb : Nat} (page_map phys_info : Nat → page_map_t) (delay_hw : Nat)
    (us : Nat → Sym → List Bool) (mem : Nat → Nat) (h : arena_ok vb phys_info)
    (hlen : ∀ ts s, (us ts s).length = BS_SAMPLES) :
    (init_ctrl_cbs vb page_map phys_info delay_hw us mem).cb_offset = slot_start us TS_COUNT ∧
    (∀ t, t < TS_COUNT →
      ((init_ctrl_cbs vb page_map phys_info delay_hw us mem).ts_info t).physaddr =
        cb_offset_to_phys phys_info (slot_start us t) ∧
      ∀ s, 0 < chain_len (us t s) ∧
        chain_start us t s + 32 * chain_len (us t s) ≤ slot_start us (t + 1) ∧
        chain_done (ctl_env page_map phys_info delay_hw)
          (init_ctrl_cbs vb page_map phys_info delay_hw us mem) t s (chain_start us t s)
          (us t s)) ∧
    (init_ctrl_cbs vb page_map phys_info delay_hw us mem).mem (vb + ARENA) =
      1 <<< GPIO_POS_NUM ∧
    (init_ctrl_cbs vb page_map phys_info delay_hw us mem).mem (vb + ARENA + 4) =
      1 <<< GPIO_NEG_NUM := by
  have henv : (ctl_env page_map phys_info delay_hw).phys_info = phys_info := rfl
  have h2 : arena_ok vb (ctl_env page_map phys_info delay_hw).phys_info := by rw [henv]; exact h
  obtain ⟨a1, -, a3, -, -, a6⟩ := init_cbs_slots_spec (ctl_env page_map phys_info delay_hw) h2 us
    TS_COUNT 0
    { ts_info := fun _ => { bs := fun _ => { physaddr := 0, cb_last := 0 }, physaddr := 0 }
      cb_offset := 0
      mem := ctl_mem vb mem }
    (fun t s _ _ => (chain_len_bounds _ (hlen t s)).1) rfl
    (by rw [Nat.zero_add]; exact slot_start_arena us hlen)
    (ctl_mem_zero _ h2 mem)
  rw [Nat.zero_add] at a1 a3
  obtain ⟨s1, s2⟩ := ctl_mem_samples vb mem
  have b1 := a6 (vb + ARENA) (Or.inr (Nat.le_refl _))
  have b2 := a6 (vb + ARENA + 4) (Or.inr (Nat.le_add_right _ _))
  dsimp only at b1 b2
  rw [init_ctrl_cbs]
  refine ⟨a1, fun t ht => a3 t (Nat.zero_le _) ht, ?_, ?_⟩
  · rw [b1]; exact s1
  · rw [b2]; exact s2

theorem example_arena_ok : arena_ok example_virtbase example_page_map where
  base_pos := by decide
  base_aligned := by decide
  page := fun p hp => ⟨p, hp, rfl⟩
  inj := fun p q _ _ hpq => by
    simp only [example_page_map, PAGE_SIZE] at hpq
    omega

theorem example_us_length (ts : Nat) (s : Sym) : (example_us ts s).length = BS_SAMPLES :=
  List.length_replicate _ _

/-- C15: for the chain of every slot `ts < 16` and symbol `s` that `init_ctrl_data` compiles
with `init_bs` over the zeroed arena, whatever the 3200 drive decisions `us ts s` of each
chain are: the chain has `3 * 3200 - 2 * #{i >= 1 : u_i = u_(i-1)}` CBs, which is
`3200 + 2 * (1 + #{i >= 1 : u_i != u_(i-1)})`; they lie at the consecutive 32-byte offsets
from `chain_start us ts s` on, inside the arena; `bs.physaddr` is the bus address of the
first; each CB holds the fields of its kind and `next` of each but the last is the bus
address of the CB at the following offset (`chain_holds`); `bs.cb_last` points to the last
CB, which is a delay CB, and its `next` is 0. -/
theorem chain_shape (vb : Nat) (page_map phys_info : Nat → page_map_t) (delay_hw : Nat)
    (us : Nat → Sym → List Bool) (mem : Nat → Nat) (h : arena_ok vb phys_info)
    (hlen : ∀ ts s, (us ts s).length = BS_SAMPLES) (ts : Nat) (s : Sym) (hts : ts < TS_COUNT) :
    chain_len (us ts s) = 3 * 3200 - 2 * same_pairs (us ts s) ∧
    chain_len (us ts s) = 3200 + 2 * (1 + changed_pairs (us ts s)) ∧
    chain_start us ts s % 32 = 0 ∧
    chain_start us ts s + 32 * chain_len (us ts s) ≤ ARENA ∧
    (((init_ctrl_cbs vb page_map phys_info delay_hw us mem).ts_info ts).bs s).physaddr =
      cb_offset_to_phys phys_info (chain_start us ts s) ∧
    chain_holds (ctl_env page_map phys_info delay_hw)
      (init_ctrl_cbs vb page_map phys_info delay_hw us mem).mem (chain_start us ts s)
      (chain_cbs 0 false (us ts s)) ∧
    (((init_ctrl_cbs vb page_map phys_info delay_hw us mem).ts_info ts).bs s).cb_last =
      cb_offset_to_virt phys_info (chain_start us ts s + 32 * (chain_len (us ts s) - 1)) ∧
    (chain_cbs 0 false (us ts s)).getLast? = some .delay ∧
    (init_ctrl_cbs vb page_map phys_info delay_hw us mem).mem
      ((((init_ctrl_cbs vb page_map phys_info delay_hw us mem).ts_info ts).bs s).cb_last +
        CB_NEXT) = 0 := by
  obtain ⟨-, a2, -, -⟩ := init_ctrl_cbs_spec page_map phys_info delay_hw us mem h hlen
  obtain ⟨-, a3⟩ := a2 ts hts
  obtain ⟨-, c2, d1, d2, d3, d4⟩ := a3 s
  obtain ⟨-, b2, b3, -, -⟩ := chain_len_bounds (us ts s) (hlen ts s)
  have hm := slot_start_mono us (15 - ts) (ts + 1)
  have ha := slot_start_arena us hlen
  rw [TS_COUNT_eq] at hts ha
  rw [show ts + 1 + (15 - ts) = 16 by omega] at hm
  rw [BS_SAMPLES_eq] at b2 b3
  have hlast : (chain_cbs 0 false (us ts s)).getLast? = some .delay := by
    cases hu : us ts s with
    | nil =>
      have := hlen ts s
      rw [hu] at this
      exact absurd this (by decide)
    | cons u rest => exact chain_cbs_getLast rest 0 false u
  refine ⟨by omega, by omega, chain_start_mod us ts s, by omega, d1, d3, d2, hlast, ?_⟩
  rw [d2]
  exact d4

theorem chain_shape_witness :
    arena_ok example_virtbase example_page_map ∧
    (∀ ts s, (example_us ts s).length = BS_SAMPLES) ∧
    (((init_ctrl_cbs example_virtbase example_page_map example_page_map DELAY_VIA_PWM
      example_us (fun _ => 0)).ts_info 0).bs .SYM_L).physaddr =
      cb_offset_to_phys example_page_map (chain_start example_us 0 .SYM_L) ∧
    chain_len (example_us 0 .SYM_L) = 3 * 3200 - 2 * same_pairs (example_us 0 .SYM_L) :=
  ⟨example_arena_ok, example_us_length,
    (chain_shape example_virtbase example_page_map example_page_map DELAY_VIA_PWM example_us
      (fun _ => 0) example_arena_ok example_us_length 0 .SYM_L (by decide)).2.2.2.2.1,
    (chain_shape example_virtbase example_page_map example_page_map DELAY_VIA_PWM example_us
      (fun _ => 0) example_arena_ok example_us_length 0 .SYM_L (by decide)).1⟩

/-! ## C16: the order of the slot addresses -/

theorem cb_offset_to_phys_mono (phys_info : Nat → page_map_t)
    (hal : ∀ p, p < NUM_PAGES_CBS →
      (phys_info p).physaddr % PAGE_SIZE = 0 ∧ (phys_info p).physaddr < 2 ^ 32)
    (hsort : ∀ p q, p < q → q < NUM_PAGES_CBS →
      (phys_info p).physaddr < (phys_info q).physaddr)
    (o q : Nat) (hoq : o < q) (hq : q < ARENA) :
    cb_offset_to_phys phys_info o < cb_offset_to_phys phys_info q := by
  rw [ARENA_eq] at hq
  have hpq : q >>> PAGE_SHIFT < NUM_PAGES_CBS := by
    rw [Nat.shiftRight_eq_div_pow, NUM_PAGES_CBS_eq]
    simp only [PAGE_SHIFT]
    omega
  have hpo : o >>> PAGE_SHIFT < NUM_PAGES_CBS := by
    rw [Nat.shiftRight_eq_div_pow, NUM_PAGES_CBS_eq]
    simp only [PAGE_SHIFT]
    omega
  obtain ⟨a1, a2⟩ := hal _ hpo
  obtain ⟨b1, b2⟩ := hal _ hpq
  have hle : o >>> PAGE_SHIFT ≤ q >>> PAGE_SHIFT := by
    rw [Nat.shiftRight_eq_div_pow, Nat.shiftRight_eq_div_pow]
    simp only [PAGE_SHIFT]
    omega
  simp only [cb_offset_to_phys]
  rcases Nat.lt_or_eq_of_le hle with hlt | heq
  · have := hsort _ _ hlt hpq
    simp only [PAGE_SIZE] at a1 b1 ⊢
    omega
  · rw [← heq] at b1 b2 ⊢
    rw [Nat.shiftRight_eq_div_pow, Nat.shiftRight_eq_div_pow] at heq
    simp only [PAGE_SHIFT] at heq
    simp only [PAGE_SIZE] at a1 ⊢
    omega

theorem slot_start_lt (us : Nat → Sym → List Bool)
    (h : ∀ ts s, (us ts s).length = BS_SAMPLES) (i j : Nat) (hij : i < j) :
    slot_start us i < slot_start us j := by
  have h1 := (slot_start_bounds us h i).1
  have h2 := slot_start_mono us (j - (i + 1)) (i + 1)
  rw [show i + 1 + (j - (i + 1)) = j by omega] at h2
  rw [BS_SAMPLES_eq] at h1
  omega

theorem slot_start_lt_arena (us : Nat → Sym → List Bool)
    (h : ∀ ts s, (us ts s).length = BS_SAMPLES) (i : Nat) (hi : i ≤ 15) :
    slot_start us i < ARENA := by
  have h1 := slot_start_lt us h i 16 (by omega)
  have h2 := slot_start_arena us h
  rw [TS_COUNT_eq] at h2
  omega

theorem init_ctrl_cbs_order {vb : Nat} (page_map phys_info : Nat → page_map_t) (delay_hw : Nat)
    (us : Nat → Sym → List Bool) (mem : Nat → Nat) (h : arena_ok vb phys_info)
    (hlen : ∀ ts s, (us ts s).length = BS_SAMPLES)
    (hal : ∀ p, p < NUM_PAGES_CBS →
      (phys_info p).physaddr % PAGE_SIZE = 0 ∧ (phys_info p).physaddr < 2 ^ 32)
    (hsort : ∀ p q, p < q → q < NUM_PAGES_CBS →
      (phys_info p).physaddr < (phys_info q).physaddr) :
    (∀ i j, i < j → j ≤ 15 →
      ((init_ctrl_cbs vb page_map phys_info delay_hw us mem).ts_info i).physaddr <
        ((init_ctrl_cbs vb page_map phys_info delay_hw us mem).ts_info j).physaddr) ∧
    (∀ i s n, i ≤ 15 → n < chain_len (us i s) →
      ((init_ctrl_cbs vb page_map phys_info delay_hw us mem).ts_info i).physaddr ≤
        cb_offset_to_phys phys_info (chain_start us i s + 32 * n) ∧
      (i < 15 → cb_offset_to_phys phys_info (chain_start us i s + 32 * n) <
        ((init_ctrl_cbs vb page_map phys_info delay_hw us mem).ts_info (i + 1)).physaddr) ∧
      ts_search (init_ctrl_cbs vb page_map phys_info delay_hw us mem).ts_info
        (cb_offset_to_phys phys_info (chain_start us i s + 32 * n)) 0 TS_COUNT = i) := by
  obtain ⟨-, a2, -, -⟩ := init_ctrl_cbs_spec page_map phys_info delay_hw us mem h hlen
  have hinc : ∀ i j, i < j → j ≤ 15 →
      ((init_ctrl_cbs vb page_map phys_info delay_hw us mem).ts_info i).physaddr <
        ((init_ctrl_cbs vb page_map phys_info delay_hw us mem).ts_info j).physaddr := by
    intro i j hij hj
    rw [(a2 i (by rw [TS_COUNT_eq]; omega)).1, (a2 j (by rw [TS_COUNT_eq]; omega)).1]
    exact cb_offset_to_phys_mono phys_info hal hsort _ _ (slot_start_lt us hlen i j hij)
      (slot_start_lt_arena us hlen j hj)
  refine ⟨hinc, ?_⟩
  intro i s n hi hn
  obtain ⟨e1, e2⟩ := a2 i (by rw [TS_COUNT_eq]; omega)
  obtain ⟨-, c2, -⟩ := e2 s
  have hcs : slot_start us i ≤ chain_start us i s := by unfold chain_start; omega
  have hlo : ((init_ctrl_cbs vb page_map phys_info delay_hw us mem).ts_info i).physaddr ≤
      cb_offset_to_phys phys_info (chain_start us i s + 32 * n) := by
    rw [e1]
    rcases Nat.eq_or_lt_of_le (show slot_start us i ≤ chain_start us i s + 32 * n by omega)
      with heq | hlt
    · rw [← heq]
    · have hm := slot_start_mono us (15 - i) (i + 1)
      rw [show i + 1 + (15 - i) = 16 by omega] at hm
      have ha := slot_start_arena us hlen
      rw [TS_COUNT_eq] at ha
      exact Nat.le_of_lt (cb_offset_to_phys_mono phys_info hal hsort _ _ hlt (by omega))
  have hhi : i < 15 → cb_offset_to_phys phys_info (chain_start us i s + 32 * n) <
      ((init_ctrl_cbs vb page_map phys_info delay_hw us mem).ts_info (i + 1)).physaddr := by
    intro hi15
    rw [(a2 (i + 1) (by rw [TS_COUNT_eq]; omega)).1]
    exact cb_offset_to_phys_mono phys_info hal hsort _ _ (by omega)
      (slot_start_lt_arena us hlen (i + 1) (by omega))
  exact ⟨hlo, hhi, ts_search_slot _ _ i hinc hi hlo hhi⟩

/-- C16: if the entries of `phys_info` are page-aligned 32-bit bus addresses in strictly
ascending order, then after `init_ctrl_data`, for every amplitude and RC (and whatever the
rounding `rnd`, `cos`, `pi`, `exp` and the field of the levels are): the slot addresses
`ts_info[i].physaddr` are strictly ascending over `0 <= i < j <= 15`; the bus address `a` of
the `n`-th CB of each of the four chains of slot `i` has `ts_info[i].physaddr <= a` and, for
`i < 15`, `a < ts_info[i + 1].physaddr`; and the binary search of `tx_sym_pending` for `a`
ends in slot `i`. -/
theorem slot_address_order {K : Type} [LinearOrderedField K] (vb : Nat)
    (page_map phys_info : Nat → page_map_t) (delay_hw : Nat) (rnd : K → K) (cos : K → K)
    (pi : K) (exp : K → K) (A rc : K) (mem : Nat → Nat) (h : arena_ok vb phys_info)
    (hal : ∀ p, p < NUM_PAGES_CBS →
      (phys_info p).physaddr % PAGE_SIZE = 0 ∧ (phys_info p).physaddr < 2 ^ 32)
    (hsort : ∀ p q, p < q → q < NUM_PAGES_CBS →
      (phys_info p).physaddr < (phys_info q).physaddr) :
    (∀ i j, i < j → j ≤ 15 →
      ((init_ctrl_data vb page_map phys_info delay_hw rnd cos pi exp A rc mem).ts_info i).physaddr <
        ((init_ctrl_data vb page_map phys_info delay_hw rnd cos pi exp A rc mem).ts_info
          j).physaddr) ∧
    (∀ i s n, i ≤ 15 → n < chain_len (sym_decisions rnd cos pi exp A rc s) →
      ((init_ctrl_data vb page_map phys_info delay_hw rnd cos pi exp A rc mem).ts_info i).physaddr ≤
        cb_offset_to_phys phys_info
          (chain_start (fun _ => sym_decisions rnd cos pi exp A rc) i s + 32 * n) ∧
      (i < 15 → cb_offset_to_phys phys_info
          (chain_start (fun _ => sym_decisions rnd cos pi exp A rc) i s + 32 * n) <
        ((init_ctrl_data vb page_map phys_info delay_hw rnd cos pi exp A rc mem).ts_info
          (i + 1)).physaddr) ∧
      ts_search (init_ctrl_data vb page_map phys_info delay_hw rnd cos pi exp A rc mem).ts_info
        (cb_offset_to_phys phys_info
          (chain_start (fun _ => sym_decisions rnd cos pi exp A rc) i s + 32 * n)) 0 TS_COUNT =
        i) := by
  rw [← ctrl_cbs_ts_info, init_ctrl_data_cbs]
  exact init_ctrl_cbs_order page_map phys_info delay_hw _ mem h
    (fun _ s => sym_decisions_length rnd cos pi exp A rc s) hal hsort

theorem example_page_map_sorted :
    (∀ p, p < NUM_PAGES_CBS →
      (example_page_map p).physaddr % PAGE_SIZE = 0 ∧ (example_page_map p).physaddr < 2 ^ 32) ∧
    (∀ p q, p < q → q < NUM_PAGES_CBS →
      (example_page_map p).physaddr < (example_page_map q).physaddr) := by
  rw [NUM_PAGES_CBS_eq]
  simp only [example_page_map, PAGE_SIZE]
  refine ⟨fun p hp => ⟨by omega, by omega⟩, fun p q hpq _ => by omega⟩

theorem slot_address_order_witness :
    arena_ok example_virtbase example_page_map ∧
    ((init_ctrl_data example_virtbase example_page_map example_page_map DELAY_VIA_PWM id
        Real.cos (Real.arctan 1 * 4) Real.exp (9 / 10) (47 / 10000)
        (fun _ => 0)).ts_info 0).physaddr <
      ((init_ctrl_data example_virtbase example_page_map example_page_map DELAY_VIA_PWM id
        Real.cos (Real.arctan 1 * 4) Real.exp (9 / 10) (47 / 10000)
        (fun _ => 0)).ts_info 1).physaddr :=
  ⟨example_arena_ok,
    (slot_address_order example_virtbase example_page_map example_page_map DELAY_VIA_PWM
      id Real.cos (Real.arctan 1 * 4) Real.exp (9 / 10) (47 / 10000) (fun _ => 0)
      example_arena_ok example_page_map_sorted.1 example_page_map_sorted.2).1 0 1
      (by decide) (by decide)⟩

/-! ## C18: the bound of the sigma-delta error -/

section LevelBound

variable {K : Type} [LinearOrderedField K]

theorem bs_level_bound (sd_fn : K → K) (md : K) (i : Nat) (v_old lem : K)
    (hsd : ∀ t, 0 ≤ sd_fn t ∧ sd_fn t ≤ 1) (hmd0 : 0 < md) (hmd1 : md < 1)
    (hv0 : 0 ≤ v_old) (hv1 : v_old ≤ 1) (hl : lem < 1) :
    0 ≤ (bs_level id sd_fn md (1 - md) i v_old lem).2.1 ∧
    (bs_level id sd_fn md (1 - md) i v_old lem).2.1 ≤ 1 ∧
    (bs_level id sd_fn md (1 - md) i v_old lem).2.2 < 1 := by
  obtain ⟨hs0, hs1⟩ := hsd (((i + 1 : Nat) : K) / (BS_SAMPLES : K))
  simp only [bs_level, id]
  have hm : 0 ≤ v_old * md := mul_nonneg hv0 (le_of_lt hmd0)
  have hm1 : v_old * md ≤ md := by
    have := mul_le_mul_of_nonneg_right hv1 (le_of_lt hmd0)
    rwa [one_mul] at this
  by_cases hup : sd_fn (((i + 1 : Nat) : K) / (BS_SAMPLES : K)) > v_old
  · simp only [hup, decide_True, if_true]
    have herr : |sd_fn (((i + 1 : Nat) : K) / (BS_SAMPLES : K)) -
        (v_old * md + (1 - md))| < 1 := by
      rw [abs_lt]
      constructor <;> linarith
    refine ⟨by linarith, by linarith, ?_⟩
    split_ifs
    · exact herr
    · exact hl
  · simp only [hup, decide_False, Bool.false_eq_true, if_false]
    have hle : sd_fn (((i + 1 : Nat) : K) / (BS_SAMPLES : K)) ≤ v_old := not_lt.mp hup
    have hm2 : v_old * (1 - md) ≤ 1 * (1 - md) :=
      mul_le_mul_of_nonneg_right hv1 (by linarith)
    have herr : |sd_fn (((i + 1 : Nat) : K) / (BS_SAMPLES : K)) - v_old * md| < 1 := by
      rw [abs_lt]
      constructor <;> linarith
    refine ⟨hm, by linarith, ?_⟩
    split_ifs
    · exact herr
    · exact hl

theorem init_bs_loop_bound (env : bs_env) (sd_fn : K → K) (md : K)
    (hsd : ∀ t, 0 ≤ sd_fn t ∧ sd_fn t ≤ 1) (hmd0 : 0 < md) (hmd1 : md < 1) :
    ∀ (k i : Nat) (c : bs_cb_t) (v_old lem : K), 0 ≤ v_old → v_old ≤ 1 → lem < 1 →
    (init_bs_loop env id sd_fn md (1 - md) k i (c, v_old, lem)).2.2 < 1 := by
  intro k
  induction k with
  | zero => intro i c v_old lem _ _ hl; exact hl
  | succ n ih =>
    intro i c v_old lem hv0 hv1 hl
    obtain ⟨b1, b2, b3⟩ := bs_level_bound sd_fn md i v_old lem hsd hmd0 hmd1 hv0 hv1 hl
    rw [init_bs_loop]
    exact ih _ _ _ _ b1 b2 b3

theorem init_bs_bound (env : bs_env) (sd_fn : K → K) (exp : K → K) (rc : K) (o : Nat)
    (mem : Nat → Nat) (lem : K) (hsd : ∀ t, 0 ≤ sd_fn t ∧ sd_fn t ≤ 1)
    (hmd0 : 0 < exp (-(PULSE_WIDTH_INCR_US : K) / (1000000 * rc)))
    (hmd1 : exp (-(PULSE_WIDTH_INCR_US : K) / (1000000 * rc)) < 1) (hl : lem < 1) :
    (init_bs env id sd_fn exp rc o mem lem).2.2.2 < 1 := by
  rw [init_bs_snd]
  dsimp only [id]
  exact init_bs_loop_bound env sd_fn _ hsd hmd0 hmd1 BS_SAMPLES 0 _ _ _ (hsd 0).1 (hsd 0).2 hl

theorem init_ctrl_syms_bound (env : bs_env) (cos : K → K) (pi : K) (exp : K → K) (A rc : K)
    (ts : Nat) (hsd : ∀ s t, 0 ≤ sym_def id cos pi A s t ∧ sym_def id cos pi A s t ≤ 1)
    (hmd0 : 0 < exp (-(PULSE_WIDTH_INCR_US : K) / (1000000 * rc)))
    (hmd1 : exp (-(PULSE_WIDTH_INCR_US : K) / (1000000 * rc)) < 1) :
    ∀ (syms : List Sym) (st : ctrl_t K), st.level_error_max < 1 →
    (init_ctrl_syms env id cos pi exp A rc ts syms st).level_error_max < 1 := by
  intro syms
  induction syms with
  | nil => intro st hl; exact hl
  | cons s rest ih =>
    intro st hl
    rw [init_ctrl_syms]
    refine ih _ ?_
    dsimp only
    exact init_bs_bound env _ exp rc _ _ _ (hsd s) hmd0 hmd1 hl

theorem init_ctrl_slots_bound (env : bs_env) (cos : K → K) (pi : K) (exp : K → K) (A rc : K)
    (hsd : ∀ s t, 0 ≤ sym_def id cos pi A s t ∧ sym_def id cos pi A s t ≤ 1)
    (hmd0 : 0 < exp (-(PULSE_WIDTH_INCR_US : K) / (1000000 * rc)))
    (hmd1 : exp (-(PULSE_WIDTH_INCR_US : K) / (1000000 * rc)) < 1) :
    ∀ (k ts : Nat) (st : ctrl_t K), st.level_error_max < 1 →
    (init_ctrl_slots env id cos pi exp A rc k ts st).level_error_max < 1 := by
  intro k
  induction k with
  | zero => intro ts st hl; exact hl
  | succ n ih =>
    intro ts st hl
    rw [init_ctrl_slots]
    refine ih _ _ (init_ctrl_syms_bound env cos pi exp A rc ts hsd hmd0 hmd1 _ _ ?_)
    dsimp only
    exact hl

/-! ### The bound under a rounding -/

variable {rnd : K → K} {ε : K}

theorem sym_def_range_rounded (hr : fp_round rnd ε) (cos : K → K) (pi A : K) (h0 : 0 ≤ A)
    (h1 : A ≤ 1) (hc : ∀ x, -1 ≤ cos x ∧ cos x ≤ 1) (s : Sym) (t : K) :
    0 ≤ sym_def rnd cos pi A s t ∧ sym_def rnd cos pi A s t ≤ 1 := by
  obtain ⟨m1, m2⟩ := LEVEL_MAX_range hr A h0 h1
  obtain ⟨n1, n2⟩ := LEVEL_MIN_range hr A h0 h1
  obtain ⟨-, e2, -, -⟩ := LEVEL_MAX_exact hr A h0 h1
  obtain ⟨c1, c2⟩ := hc (rnd (pi * t))
  have hd0 : 0 ≤ LEVEL_MAX rnd A - 1 / 2 := by linarith
  have hd1 : LEVEL_MAX rnd A - 1 / 2 ≤ 1 / 2 := by linarith
  have hp1 : cos (rnd (pi * t)) * (LEVEL_MAX rnd A - 1 / 2) ≤ 1 / 2 := by nlinarith
  have hp0 : -(1 / 2) ≤ cos (rnd (pi * t)) * (LEVEL_MAX rnd A - 1 / 2) := by nlinarith
  obtain ⟨-, q1, -, -, q0, -⟩ := fp_round_unit_range hr
    (cos (rnd (pi * t)) * (LEVEL_MAX rnd A - 1 / 2)) (by rw [abs_le]; constructor <;> linarith)
  have r1 := q1 hp1
  have r0 := q0 hp0
  cases s
  · show 0 ≤ LEVEL_MIN rnd A ∧ LEVEL_MIN rnd A ≤ 1
    exact ⟨n1, by linarith⟩
  · show 0 ≤ LEVEL_MAX rnd A ∧ LEVEL_MAX rnd A ≤ 1
    exact ⟨by linarith, m2⟩
  · show 0 ≤ sym_lh_fn rnd cos pi A t ∧ sym_lh_fn rnd cos pi A t ≤ 1
    unfold sym_lh_fn LEVEL_MED
    rw [e2]
    obtain ⟨a, -, -, b, -⟩ := fp_round_unit_range hr
      (1 / 2 - rnd (cos (rnd (pi * t)) * (LEVEL_MAX rnd A - 1 / 2)))
      (by rw [abs_le]; constructor <;> linarith)
    exact ⟨a (by linarith), b (by linarith)⟩
  · show 0 ≤ sym_hl_fn rnd cos pi A t ∧ sym_hl_fn rnd cos pi A t ≤ 1
    unfold sym_hl_fn LEVEL_MED
    rw [e2]
    obtain ⟨a, -, -, b, -⟩ := fp_round_unit_range hr
      (1 / 2 + rnd (cos (rnd (pi * t)) * (LEVEL_MAX rnd A - 1 / 2)))
      (by rw [abs_le]; constructor <;> linarith)
    exact ⟨a (by linarith), b (by linarith)⟩

theorem bs_level_le_one (hr : fp_round rnd ε) (sd_fn : K → K) (md : K) (i : Nat)
    (v_old lem : K) (hsd : ∀ t, 0 ≤ sd_fn t ∧ sd_fn t ≤ 1) (hmd0 : 0 ≤ md) (hmd1 : md ≤ 1)
    (hv0 : 0 ≤ v_old) (hv1 : v_old ≤ 1) (hl : lem ≤ 1) :
    0 ≤ (bs_level rnd sd_fn md (rnd (1 - md)) i v_old lem).2.1 ∧
    (bs_level rnd sd_fn md (rnd (1 - md)) i v_old lem).2.1 ≤ 1 ∧
    (bs_level rnd sd_fn md (rnd (1 - md)) i v_old lem).2.2 ≤ 1 := by
  obtain ⟨hs0, hs1⟩ := hsd (rnd (((i + 1 : Nat) : K) / (BS_SAMPLES : K)))
  have he := hr.eps_nonneg
  have hm : 0 ≤ v_old * md := mul_nonneg hv0 hmd0
  have hm1 : v_old * md ≤ md := by
    have := mul_le_mul_of_nonneg_right hv1 hmd0
    rwa [one_mul] at this
  have p0 : 0 ≤ rnd (v_old * md) := (hr.sign _).1 hm
  have p1 : rnd (v_old * md) ≤ 1 :=
    (fp_round_unit_range hr _ (by rw [abs_le]; constructor <;> linarith)).2.2.2.1 (by linarith)
  have pe := hr.err (v_old * md) hm (by linarith)
  have w0 : 0 ≤ rnd (1 - md) := (hr.sign _).1 (by linarith)
  have we := hr.err (1 - md) (by linarith) (by linarith)
  rw [abs_le] at pe we
  have s0 : 0 ≤ rnd (rnd (v_old * md) + rnd (1 - md)) := (hr.sign _).1 (by linarith)
  have s1 : rnd (rnd (v_old * md) + rnd (1 - md)) ≤ 1 :=
    hr.le_one _ (by linarith) (by linarith)
  have herr : ∀ w : K, 0 ≤ w → w ≤ 1 →
      |rnd (sd_fn (rnd (((i + 1 : Nat) : K) / (BS_SAMPLES : K))) - w)| ≤ 1 := by
    intro w hw0 hw1
    obtain ⟨-, -, -, a, -, b⟩ := fp_round_unit_range hr
      (sd_fn (rnd (((i + 1 : Nat) : K) / (BS_SAMPLES : K))) - w)
      (by rw [abs_le]; constructor <;> linarith)
    rw [abs_le]
    exact ⟨b (by linarith), a (by linarith)⟩
  simp only [bs_level]
  split_ifs
  · exact ⟨s0, s1, herr _ s0 s1⟩
  · exact ⟨s0, s1, hl⟩
  · exact ⟨p0, p1, herr _ p0 p1⟩
  · exact ⟨p0, p1, hl⟩

theorem init_bs_loop_le_one (hr : fp_round rnd ε) (env : bs_env) (sd_fn : K → K) (md : K)
    (hsd : ∀ t, 0 ≤ sd_fn t ∧ sd_fn t ≤ 1) (hmd0 : 0 ≤ md) (hmd1 : md ≤ 1) :
    ∀ (k i : Nat) (c : bs_cb_t) (v_old lem : K), 0 ≤ v_old → v_old ≤ 1 → lem ≤ 1 →
    (init_bs_loop env rnd sd_fn md (rnd (1 - md)) k i (c, v_old, lem)).2.2 ≤ 1 := by
  intro k
  induction k with
  | zero => intro i c v_old lem _ _ hl; exact hl
  | succ n ih =>
    intro i c v_old lem hv0 hv1 hl
    obtain ⟨b1, b2, b3⟩ := bs_level_le_one hr sd_fn md i v_old lem hsd hmd0 hmd1 hv0 hv1 hl
    rw [init_bs_loop]
    exact ih _ _ _ _ b1 b2 b3

theorem init_bs_le_one (hr : fp_round rnd ε) (env : bs_env) (sd_fn : K → K) (exp : K → K)
    (rc : K) (o : Nat) (mem : Nat → Nat) (lem : K) (hsd : ∀ t, 0 ≤ sd_fn t ∧ sd_fn t ≤ 1)
    (hmd0 : 0 ≤ exp (rnd (-(PULSE_WIDTH_INCR_US : K) / rnd (1000000 * rc))))
    (hmd1 : exp (rnd (-(PULSE_WIDTH_INCR_US : K) / rnd (1000000 * rc))) ≤ 1) (hl : lem ≤ 1) :
    (init_bs env rnd sd_fn exp rc o mem lem).2.2.2 ≤ 1 := by
  rw [init_bs_snd]
  dsimp only
  exact init_bs_loop_le_one hr env sd_fn _ hsd hmd0 hmd1 BS_SAMPLES 0 _ _ _ (hsd 0).1
    (hsd 0).2 hl

theorem init_ctrl_syms_le_one (hr : fp_round rnd ε) (env : bs_env) (cos : K → K) (pi : K)
    (exp : K → K) (A rc : K) (ts : Nat)
    (hsd : ∀ s t, 0 ≤ sym_def rnd cos pi A s t ∧ sym_def rnd cos pi A s t ≤ 1)
    (hmd0 : 0 ≤ exp (rnd (-(PULSE_WIDTH_INCR_US : K) / rnd (1000000 * rc))))
    (hmd1 : exp (rnd (-(PULSE_WIDTH_INCR_US : K) / rnd (1000000 * rc))) ≤ 1) :
    ∀ (syms : List Sym) (st : ctrl_t K), st.level_error_max ≤ 1 →
    (init_ctrl_syms env rnd cos pi exp A rc ts syms st).level_error_max ≤ 1 := by
  intro syms
  induction syms with
  | nil => intro st hl; exact hl
  | cons s rest ih =>
    intro st hl
    rw [init_ctrl_syms]
    refine ih _ ?_
    dsimp only
    exact init_bs_le_one hr env _ exp rc _ _ _ (hsd s) hmd0 hmd1 hl

theorem init_ctrl_slots_le_one (hr : fp_round rnd ε) (env : bs_env) (cos : K → K) (pi : K)
    (exp : K → K) (A rc : K)
    (hsd : ∀ s t, 0 ≤ sym_def rnd cos pi A s t ∧ sym_def rnd cos pi A s t ≤ 1)
    (hmd0 : 0 ≤ exp (rnd (-(PULSE_WIDTH_INCR_US : K) / rnd (1000000 * rc))))
    (hmd1 : exp (rnd (-(PULSE_WIDTH_INCR_US : K) / rnd (1000000 * rc))) ≤ 1) :
    ∀ (k ts : Nat) (st : ctrl_t K), st.level_error_max ≤ 1 →
    (init_ctrl_slots env rnd cos pi exp A rc k ts st).level_error_max ≤ 1 := by
  intro k
  induction k with
  | zero => intro ts st hl; exact hl
  | succ n ih =>
    intro ts st hl
    rw [init_ctrl_slots]
    refine ih _ _ (init_ctrl_syms_le_one hr env cos pi exp A rc ts hsd hmd0 hmd1 _ _ ?_)
    dsimp only
    exact hl

/-- The argument of `exp` in `init_bs` is not positive when `option_rc` is positive. -/
theorem mean_decay_arg_nonpos (hr : fp_round rnd ε) (rc : K) (hrc : 0 < rc) :
    rnd (-((PULSE_WIDTH_INCR_US : Nat) : K) / rnd (1000000 * rc)) ≤ 0 := by
  have h1 : 0 ≤ rnd (1000000 * rc) := (hr.sign _).1 (by positivity)
  have h2 : (0 : K) ≤ ((PULSE_WIDTH_INCR_US : Nat) : K) := Nat.cast_nonneg _
  refine (hr.sign _).2 ?_
  rw [neg_div]
  exact neg_nonpos.mpr (div_nonneg h2 h1)

/-! ### `level_error_max` never decreases -/

theorem bs_level_lem_ge (sd_fn : K → K) (md mw : K) (i : Nat) (v_old lem : K) :
    lem ≤ (bs_level rnd sd_fn md mw i v_old lem).2.2 := by
  simp only [bs_level]
  split_ifs with h1 h2 h3
  · exact le_of_lt h2
  · exact le_rfl
  · exact le_of_lt h3
  · exact le_rfl

theorem bs_level_err_le (sd_fn : K → K) (md mw : K) (i : Nat) (v_old lem : K) :
    |rnd (sd_fn (rnd (((i + 1 : Nat) : K) / (BS_SAMPLES : K))) -
        (bs_level rnd sd_fn md mw i v_old lem).2.1)| ≤
      (bs_level rnd sd_fn md mw i v_old lem).2.2 := by
  simp only [bs_level]
  split_ifs with h1 h2 h3
  · exact le_rfl
  · exact not_lt.mp h2
  · exact le_rfl
  · exact not_lt.mp h3

theorem init_bs_loop_lem_ge (env : bs_env) (sd_fn : K → K) (md mw : K) :
    ∀ (k i : Nat) (c : bs_cb_t) (v_old lem : K),
    lem ≤ (init_bs_loop env rnd sd_fn md mw k i (c, v_old, lem)).2.2 := by
  intro k
  induction k with
  | zero => intro i c v_old lem; exact le_rfl
  | succ n ih =>
    intro i c v_old lem
    rw [init_bs_loop]
    exact (bs_level_lem_ge sd_fn md mw i v_old lem).trans (ih _ _ _ _)

/-- The error of the first sub-sample of a chain is at most the `level_error_max` that
`init_bs` returns. -/
theorem init_bs_first_le (env : bs_env) (sd_fn : K → K) (exp : K → K) (rc : K) (o : Nat)
    (mem : Nat → Nat) (lem : K) :
    lem ≤ (init_bs env rnd sd_fn exp rc o mem lem).2.2.2 ∧
    (bs_level rnd sd_fn (exp (rnd (-(PULSE_WIDTH_INCR_US : K) / rnd (1000000 * rc))))
        (rnd (1 - exp (rnd (-(PULSE_WIDTH_INCR_US : K) / rnd (1000000 * rc))))) 0
        (sd_fn 0) lem).2.2 ≤
      (init_bs env rnd sd_fn exp rc o mem lem).2.2.2 := by
  rw [init_bs_snd]
  dsimp only
  refine ⟨init_bs_loop_lem_ge env sd_fn _ _ _ _ _ _ _, ?_⟩
  obtain ⟨k, hk⟩ : ∃ k, BS_SAMPLES = k + 1 := ⟨3199, BS_SAMPLES_eq⟩
  rw [hk, init_bs_loop]
  exact init_bs_loop_lem_ge env sd_fn _ _ _ _ _ _ _

theorem init_ctrl_syms_lem_ge (env : bs_env) (cos : K → K) (pi : K) (exp : K → K) (A rc : K)
    (ts : Nat) : ∀ (syms : List Sym) (st : ctrl_t K) (l : K), l ≤ st.level_error_max →
    l ≤ (init_ctrl_syms env rnd cos pi exp A rc ts syms st).level_error_max := by
  intro syms
  induction syms with
  | nil => intro st l hl; exact hl
  | cons s rest ih =>
    intro st l hl
    rw [init_ctrl_syms]
    refine ih _ l ?_
    dsimp only
    exact hl.trans (init_bs_first_le env _ exp rc _ _ _).1

theorem init_ctrl_syms_first_le (env : bs_env) (cos : K → K) (pi : K) (exp : K → K)
    (A rc : K) (ts : Nat) (s : Sym) (E : K)
    (hE : ∀ lem, E ≤ (bs_level rnd (sym_def rnd cos pi A s)
      (exp (rnd (-(PULSE_WIDTH_INCR_US : K) / rnd (1000000 * rc))))
      (rnd (1 - exp (rnd (-(PULSE_WIDTH_INCR_US : K) / rnd (1000000 * rc))))) 0
      (sym_def rnd cos pi A s 0) lem).2.2) :
    ∀ (syms : List Sym) (st : ctrl_t K), s ∈ syms →
    E ≤ (init_ctrl_syms env rnd cos pi exp A rc ts syms st).level_error_max := by
  intro syms
  induction syms with
  | nil => intro st hs; exact absurd hs (List.not_mem_nil _)
  | cons x rest ih =>
    intro st hs
    rw [init_ctrl_syms]
    rcases List.mem_cons.mp hs with rfl | hr
    · refine init_ctrl_syms_lem_ge env cos pi exp A rc ts rest _ E ?_
      dsimp only
      exact (hE _).trans (init_bs_first_le env _ exp rc _ _ _).2
    · exact ih _ hr

theorem init_ctrl_slots_lem_ge (env : bs_env) (cos : K → K) (pi : K) (exp : K → K) (A rc : K) :
    ∀ (k ts : Nat) (st : ctrl_t K) (l : K), l ≤ st.level_error_max →
    l ≤ (init_ctrl_slots env rnd cos pi exp A rc k ts st).level_error_max := by
  intro k
  induction k with
  | zero => intro ts st l hl; exact hl
  | succ n ih =>
    intro ts st l hl
    rw [init_ctrl_slots]
    refine ih _ _ l (init_ctrl_syms_lem_ge env cos pi exp A rc ts _ _ l ?_)
    dsimp only
    exact hl

/-- The error of the first sub-sample of the chain of any symbol `s` is at most the
`level_error_max` that `init_ctrl_data` leaves. -/
theorem init_ctrl_data_first_le (vb : Nat) (page_map phys_info : Nat → page_map_t)
    (delay_hw : Nat) (cos : K → K) (pi : K) (exp : K → K) (A rc : K) (mem : Nat → Nat)
    (s : Sym) (E : K)
    (hE : ∀ lem, E ≤ (bs_level rnd (sym_def rnd cos pi A s)
      (exp (rnd (-(PULSE_WIDTH_INCR_US : K) / rnd (1000000 * rc))))
      (rnd (1 - exp (rnd (-(PULSE_WIDTH_INCR_US : K) / rnd (1000000 * rc))))) 0
      (sym_def rnd cos pi A s 0) lem).2.2) :
    E ≤ (init_ctrl_data vb page_map phys_info delay_hw rnd cos pi exp A rc
      mem).level_error_max := by
  rw [init_ctrl_data]
  obtain ⟨k, hk⟩ : ∃ k, TS_COUNT = k + 1 := ⟨15, TS_COUNT_eq⟩
  rw [hk, init_ctrl_slots]
  refine init_ctrl_slots_lem_ge _ cos pi exp A rc _ _ _ E ?_
  refine init_ctrl_syms_first_le _ cos pi exp A rc 0 s E hE _ _ ?_
  cases s <;> simp

end LevelBound

theorem sym_def_range (A : ℝ) (hA0 : 0 < A) (hA1 : A ≤ 1) (s : Sym) (t : ℝ) :
    0 ≤ sym_def id Real.cos (Real.arctan 1 * 4) A s t ∧
    sym_def id Real.cos (Real.arctan 1 * 4) A s t ≤ 1 := by
  have h1 := Real.neg_one_le_cos (Real.arctan 1 * 4 * t)
  have h2 := Real.cos_le_one (Real.arctan 1 * 4 * t)
  cases s <;>
    simp only [sym_def, sym_l_fn, sym_h_fn, sym_lh_fn, sym_hl_fn, LEVEL_MIN, LEVEL_MAX,
      LEVEL_MED, id] <;>
    generalize Real.cos (Real.arctan 1 * 4 * t) = c at h1 h2 <;>
    constructor <;> nlinarith

theorem mean_decay_range (rc : ℝ) (hrc : 0 < rc) :
    0 < Real.exp (-((PULSE_WIDTH_INCR_US : Nat) : ℝ) / (1000000 * rc)) ∧
    Real.exp (-((PULSE_WIDTH_INCR_US : Nat) : ℝ) / (1000000 * rc)) < 1 := by
  refine ⟨Real.exp_pos _, ?_⟩
  have h1 : (0 : ℝ) < ((PULSE_WIDTH_INCR_US : Nat) : ℝ) := by
    simp [PULSE_WIDTH_INCR_US]
  have h2 : (0 : ℝ) < 1000000 * rc := by positivity
  have h3 : -((PULSE_WIDTH_INCR_US : Nat) : ℝ) / (1000000 * rc) < 0 := by
    rw [neg_div]
    exact neg_neg_of_pos (div_pos h1 h2)
  calc Real.exp (-((PULSE_WIDTH_INCR_US : Nat) : ℝ) / (1000000 * rc))
      < Real.exp 0 := Real.exp_lt_exp.mpr h3
    _ = 1 := Real.exp_zero

/-! ### The run with amplitude 1.0 and RC 1e-7 in binary64 -/

theorem rnd64_rc_small : rnd64 (1 / 10 ^ 7) = 944473296573929 / 2 ^ 73 := by
  rw [rnd64_eq (1 / 10 ^ 7) (-76) 7555786372591432
    (by have := ulp_exp_pos (1 / 10 ^ 7) (-24) (by norm_num) (by norm_num) (by norm_num); omega)
    (rne_near _ _ (by norm_num) (by norm_num))]
  norm_num

theorem mean_decay_arg_small :
    rnd64 (-((PULSE_WIDTH_INCR_US : Nat) : ℚ) / rnd64 (1000000 * (944473296573929 / 2 ^ 73))) =
      -(7036874417766401 / 2 ^ 46) := by
  have a : rnd64 (1000000 * (944473296573929 / 2 ^ 73)) = 7205759403792793 / 2 ^ 56 := by
    rw [rnd64_eq _ (-56) 7205759403792793
      (by have := ulp_exp_pos (1000000 * (944473296573929 / 2 ^ 73)) (-4) (by norm_num)
            (by norm_num) (by norm_num); omega)
      (rne_near _ _ (by norm_num) (by norm_num))]
    norm_num
  have b : ((PULSE_WIDTH_INCR_US : Nat) : ℚ) = 10 := by norm_num [PULSE_WIDTH_INCR_US]
  rw [a, b, rnd64_eq _ (-46) (-7036874417766401)
    (by have := ulp_exp_neg (-10 / (7205759403792793 / 2 ^ 56)) 6 (by norm_num)
          (by norm_num) (by norm_num); omega)
    (rne_near _ _ (by norm_num) (by norm_num))]
  norm_num

theorem LEVEL_MAX_one : LEVEL_MAX rnd64 1 = 1 := by
  unfold LEVEL_MAX
  rw [rnd64_half]
  norm_num
  exact rnd64_one

/-- With amplitude 1 and a decay factor of at most `2 ^ (-54)`, the first sub-sample of
the chain of `H` has the error 1: the target and the old filter state are 1, the pin is
driven low, the new filter state is at most `2 ^ (-54)` and `1 - v_new` rounds to 1. -/
theorem first_error_one (cos : ℚ → ℚ) (pi md mw lem : ℚ) (h0 : 0 ≤ md)
    (h1 : md ≤ 2 ^ (-54 : ℤ)) :
    1 ≤ (bs_level rnd64 (sym_def rnd64 cos pi 1 .SYM_H) md mw 0
      (sym_def rnd64 cos pi 1 .SYM_H 0) lem).2.2 := by
  have hv : ∀ t, sym_def rnd64 cos pi 1 .SYM_H t = 1 := fun t => LEVEL_MAX_one
  have hn : (bs_level rnd64 (sym_def rnd64 cos pi 1 .SYM_H) md mw 0
      (sym_def rnd64 cos pi 1 .SYM_H 0) lem).2.1 = rnd64 md := by
    simp only [bs_level, hv]
    simp
  have he := @bs_level_err_le ℚ _ rnd64 (sym_def rnd64 cos pi 1 .SYM_H) md mw 0
    (sym_def rnd64 cos pi 1 .SYM_H 0) lem
  rw [hn, hv] at he
  obtain ⟨a, b⟩ := rnd64_small md h0 h1
  rw [rnd64_one_sub_small _ a b] at he
  simpa using he

/-- C18, as amended: after `init_ctrl_data` has compiled the 16 x 4 chains, for every
amplitude `0 < A <= 1` and every `RC > 0`: (1) in exact arithmetic (`rnd = id` over the
reals with `Real.exp`, `Real.cos`, `pi = atan(1) * 4`: the real-number model) the value of
`level_error_max` is less than 1; (2) in the binary64 arithmetic of the program
(`rnd = rnd64`), with a cosine whose values are in `[-1, 1]` and an exponential function
whose values at non-positive arguments are in `[0, 1]`, the value of `level_error_max` is at
most 1. -/
theorem level_error_max_le_one :
    (∀ (vb : Nat) (page_map phys_info : Nat → page_map_t) (delay_hw : Nat) (A rc : ℝ)
      (mem : Nat → Nat), 0 < A → A ≤ 1 → 0 < rc →
      (init_ctrl_data vb page_map phys_info delay_hw id Real.cos (Real.arctan 1 * 4) Real.exp
        A rc mem).level_error_max < 1) ∧
    (∀ (vb : Nat) (page_map phys_info : Nat → page_map_t) (delay_hw : Nat) (cos exp : ℚ → ℚ)
      (pi A rc : ℚ) (mem : Nat → Nat), (∀ x, -1 ≤ cos x ∧ cos x ≤ 1) →
      (∀ x, x ≤ 0 → 0 ≤ exp x ∧ exp x ≤ 1) → 0 < A → A ≤ 1 → 0 < rc →
      (init_ctrl_data vb page_map phys_info delay_hw rnd64 cos pi exp A rc
        mem).level_error_max ≤ 1) := by
  constructor
  · intro vb page_map phys_info delay_hw A rc mem hA0 hA1 hrc
    rw [init_ctrl_data]
    exact init_ctrl_slots_bound _ Real.cos _ Real.exp A rc (sym_def_range A hA0 hA1)
      (mean_decay_range rc hrc).1 (mean_decay_range rc hrc).2 TS_COUNT 0 _ zero_lt_one
  · intro vb page_map phys_info delay_hw cos exp pi A rc mem hc hexp hA0 hA1 hrc
    have hm := hexp _ (mean_decay_arg_nonpos fp_round_rnd64 rc hrc)
    rw [init_ctrl_data]
    exact init_ctrl_slots_le_one fp_round_rnd64 _ cos pi exp A rc
      (sym_def_range_rounded fp_round_rnd64 cos pi A hA0.le hA1 hc) hm.1 hm.2 TS_COUNT 0 _
      zero_le_one

theorem level_error_max_le_one_witness :
    (init_ctrl_data example_virtbase example_page_map example_page_map DELAY_VIA_PWM id
      Real.cos (Real.arctan 1 * 4) Real.exp (9 / 10) (47 / 10000)
      (fun _ => 0)).level_error_max < 1 ∧
    (init_ctrl_data example_virtbase example_page_map example_page_map DELAY_VIA_PWM rnd64
      (fun _ => 1) 1 (fun _ => 1 / 2) 1 (944473296573929 / 2 ^ 73)
      (fun _ => 0)).level_error_max ≤ 1 :=
  ⟨level_error_max_le_one.1 example_virtbase example_page_map example_page_map DELAY_VIA_PWM
      (9 / 10) (47 / 10000) (fun _ => 0) (by norm_num) (by norm_num) (by norm_num),
    level_error_max_le_one.2 example_virtbase example_page_map example_page_map DELAY_VIA_PWM
      (fun _ => 1) (fun _ => 1 / 2) 1 1 (944473296573929 / 2 ^ 73) (fun _ => 0)
      (fun _ => by norm_num) (fun _ _ => by norm_num) (by norm_num) (by norm_num)
      (by norm_num)⟩

/-- C18 as stated fails in the arithmetic of the program: with amplitude `1.0`
and RC `1e-7` (the double `944473296573929 / 2 ^ 73`) the argument of `exp` is the double
`-7036874417766401 / 2 ^ 46` (`-100.00000000000001`); whenever `exp` returns there a value
between 0 and `2 ^ (-54)` (the exponential is about `3.72e-44`), `level_error_max` is not
less than 1 after `init_ctrl_data`, whatever the cosine, `pi` and the page tables are. -/
theorem level_error_max_binary64_one :
    rnd64 (1 / 10 ^ 7) = 944473296573929 / 2 ^ 73 ∧
    rnd64 (-((PULSE_WIDTH_INCR_US : Nat) : ℚ) / rnd64 (1000000 * (944473296573929 / 2 ^ 73))) =
      -(7036874417766401 / 2 ^ 46) ∧
    (∀ (vb : Nat) (page_map phys_info : Nat → page_map_t) (delay_hw : Nat) (cos exp : ℚ → ℚ)
      (pi : ℚ) (mem : Nat → Nat), 0 ≤ exp (-(7036874417766401 / 2 ^ 46)) →
      exp (-(7036874417766401 / 2 ^ 46)) ≤ 2 ^ (-54 : ℤ) →
      ¬ (init_ctrl_data vb page_map phys_info delay_hw rnd64 cos pi exp 1
        (944473296573929 / 2 ^ 73) mem).level_error_max < 1) := by
  refine ⟨rnd64_rc_small, mean_decay_arg_small, ?_⟩
  intro vb page_map phys_info delay_hw cos exp pi mem h0 h1
  refine not_lt.mpr (init_ctrl_data_first_le vb page_map phys_info delay_hw cos pi exp 1 _ mem
    .SYM_H 1 (fun lem => ?_))
  refine first_error_one cos pi _ _ lem ?_ ?_
  · rw [mean_decay_arg_small]; exact h0
  · rw [mean_decay_arg_small]; exact h1

/-! ## C17: the omitted GPIO writes -/

theorem testBit_set_same (p n : Nat) : (p ||| (1 <<< n)).testBit n = true := by
  simp [Nat.testBit_or, Nat.one_shiftLeft, Nat.testBit_two_pow_self]

theorem testBit_set_other (p n m : Nat) (h : n ≠ m) :
    (p ||| (1 <<< n)).testBit m = p.testBit m := by
  simp [Nat.testBit_or, Nat.one_shiftLeft, Nat.testBit_two_pow, h]

theorem testBit_clear_same (p n : Nat) : (p ^^^ (p &&& (1 <<< n))).testBit n = false := by
  simp [Nat.testBit_xor, Nat.testBit_and, Nat.one_shiftLeft, Nat.testBit_two_pow_self]

theorem testBit_clear_other (p n m : Nat) (h : n ≠ m) :
    (p ^^^ (p &&& (1 <<< n))).testBit m = p.testBit m := by
  simp [Nat.testBit_xor, Nat.testBit_and, Nat.one_shiftLeft, Nat.testBit_two_pow, h]

theorem pins_exec_sample (u : Bool) (ks : List cb_kind) (pins : Nat) :
    ∃ p, pin_levels p = (u, !u) ∧
      pins_exec ([.pos_pad u, .neg_pad u, .delay] ++ ks) pins = p :: pins_exec ks p := by
  cases u
  · refine ⟨(pins ^^^ (pins &&& (1 <<< GPIO_POS_NUM))) ||| (1 <<< GPIO_NEG_NUM), ?_, ?_⟩
    · simp only [pin_levels]
      rw [testBit_set_other _ _ _ (by decide), testBit_clear_same, testBit_set_same]
      rfl
    · simp [pins_exec]
  · refine ⟨(pins ||| (1 <<< GPIO_POS_NUM)) ^^^
      ((pins ||| (1 <<< GPIO_POS_NUM)) &&& (1 <<< GPIO_NEG_NUM)), ?_, ?_⟩
    · simp only [pin_levels]
      rw [testBit_clear_other _ _ _ (by decide), testBit_set_same, testBit_clear_same]
      rfl
    · simp [pins_exec]

theorem pins_exec_naive : ∀ (us : List Bool) (pins : Nat),
    (pins_exec (naive_cbs us) pins).map pin_levels = us.map (fun u => (u, !u)) := by
  intro us
  induction us with
  | nil => intro pins; rfl
  | cons u rest ih =>
    intro pins
    obtain ⟨p, hp, he⟩ := pins_exec_sample u (naive_cbs rest) pins
    rw [naive_cbs, he, List.map_cons, List.map_cons, hp, ih]

theorem pins_exec_chain_succ : ∀ (us : List Bool) (i : Nat) (up_old : Bool) (pins : Nat),
    pin_levels pins = (up_old, !up_old) →
    (pins_exec (chain_cbs (i + 1) up_old us) pins).map pin_levels =
      us.map (fun u => (u, !u)) := by
  intro us
  induction us with
  | nil => intro i up_old pins _; rfl
  | cons u rest ih =>
    intro i up_old pins hp
    by_cases hu : up_old = u
    · subst hu
      have hs : sample_cbs (decide (i + 1 = 0)) up_old up_old = [.delay] := by
        simp [sample_cbs]
      rw [chain_cbs, hs, List.singleton_append, pins_exec, List.map_cons, List.map_cons, hp,
        ih (i + 1) up_old pins hp]
    · have hs : sample_cbs (decide (i + 1 = 0)) up_old u = [.pos_pad u, .neg_pad u, .delay] := by
        simp [sample_cbs, hu]
      obtain ⟨p, hp2, he⟩ := pins_exec_sample u (chain_cbs (i + 1 + 1) u rest) pins
      rw [chain_cbs, hs, he, List.map_cons, List.map_cons, hp2, ih (i + 1) u p hp2]

theorem pins_exec_chain (us : List Bool) (pins : Nat) :
    (pins_exec (chain_cbs 0 false us) pins).map pin_levels = us.map (fun u => (u, !u)) := by
  cases us with
  | nil => rfl
  | cons u rest =>
    have hs : sample_cbs (decide (0 = 0)) false u = [.pos_pad u, .neg_pad u, .delay] := by
      simp [sample_cbs]
    obtain ⟨p, hp2, he⟩ := pins_exec_sample u (chain_cbs (0 + 1) u rest) pins
    rw [chain_cbs, hs, he, List.map_cons, List.map_cons, hp2,
      pins_exec_chain_succ rest 0 u p hp2]
theorem chain_holds_cons (env : bs_env) (mem : Nat → Nat) (o : Nat) (k : cb_kind)
    (ks : List cb_kind) (h : chain_holds env mem o (k :: ks)) :
    cb_holds env mem o k ∧
    (ks ≠ [] → mem (cb_offset_to_virt env.phys_info o + CB_NEXT) =
      cb_offset_to_phys env.phys_info (o + 32)) ∧
    chain_holds env mem (o + 32) ks := by
  refine ⟨?_, ?_, ?_⟩
  · have := (h 0 k (by simp)).1
    rwa [Nat.mul_zero, Nat.add_zero] at this
  · intro hne
    have := (h 0 k (by simp)).2 (by
      simp only [List.length_cons]
      have := List.length_pos.mpr hne
      omega)
    rwa [Nat.mul_zero, Nat.add_zero, Nat.zero_add, Nat.mul_one] at this
  · intro j k2 hj
    have := h (j + 1) k2 (by rw [List.getElem?_cons_succ]; exact hj)
    rw [show o + 32 * (j + 1) = o + 32 + 32 * j by omega,
      show o + 32 * (j + 1 + 1) = o + 32 + 32 * (j + 1) by omega] at this
    refine ⟨this.1, fun hlt => this.2 ?_⟩
    simp only [List.length_cons]
    omega

theorem dma_run_zero (mem : Nat → Nat) (b2v : Nat → Nat) (fifo fuel pins : Nat) :
    dma_run mem b2v fifo fuel 0 pins = [] := by
  cases fuel <;> simp [dma_run]

theorem phys_fifo_addr_ne (env : bs_env) :
    env.phys_fifo_addr ≠ phys_gpset0 ∧ env.phys_fifo_addr ≠ phys_gpclr0 := by
  unfold bs_env.phys_fifo_addr
  split_ifs <;> decide

theorem dma_run_chain (env : bs_env) (mem : Nat → Nat) (b2v : Nat → Nat)
    (hcb : ∀ o, o % 32 = 0 → o < ARENA → cb_offset_to_phys env.phys_info o ≠ 0 ∧
      b2v (cb_offset_to_phys env.phys_info o) = cb_offset_to_virt env.phys_info o)
    (hpos : mem (b2v env.phys_sample_pos) = 1 <<< GPIO_POS_NUM)
    (hneg : mem (b2v env.phys_sample_neg) = 1 <<< GPIO_NEG_NUM) :
    ∀ (ks : List cb_kind) (o pins fuel : Nat), ks ≠ [] → o % 32 = 0 →
    o + 32 * ks.length ≤ ARENA → chain_holds env mem o ks →
    mem (cb_offset_to_virt env.phys_info (o + 32 * (ks.length - 1)) + CB_NEXT) = 0 →
    ks.length ≤ fuel →
    dma_run mem b2v env.phys_fifo_addr fuel (cb_offset_to_phys env.phys_info o) pins =
      pins_exec ks pins := by
  intro ks
  induction ks with
  | nil => intro o pins fuel hne; exact absurd rfl hne
  | cons k ks ih =>
    intro o pins fuel _ ho hb hc hz hf
    obtain ⟨c1, c2, c3⟩ := chain_holds_cons env mem o k ks hc
    obtain ⟨n1, n2⟩ := hcb o ho (by simp only [List.length_cons] at hb; omega)
    obtain ⟨f1, f2⟩ := phys_fifo_addr_ne env
    obtain ⟨-, s2, s3, -, -⟩ := c1
    simp only [List.length_cons] at hb hz hf
    obtain ⟨fuel1, rfl⟩ : ∃ f, fuel = f + 1 := ⟨fuel - 1, by omega⟩
    have hrest : ∀ p, dma_run mem b2v env.phys_fifo_addr fuel1
        (mem (cb_offset_to_virt env.phys_info o + CB_NEXT)) p = pins_exec ks p := by
      intro p
      cases hks : ks with
      | nil =>
        rw [hks] at hz
        simp only [List.length_nil, Nat.zero_add, Nat.sub_self, Nat.mul_zero,
          Nat.add_zero] at hz
        rw [hz, dma_run_zero]
        rfl
      | cons k2 ks2 =>
        have hne : ks ≠ [] := by rw [hks]; exact List.cons_ne_nil _ _
        rw [← hks, c2 hne]
        refine ih (o + 32) p fuel1 hne (by omega) (by omega) c3 ?_ (by omega)
        have hl := List.length_pos.mpr hne
        rw [show o + 32 + 32 * (ks.length - 1) = o + 32 * (ks.length + 1 - 1) by omega]
        exact hz
    have g : phys_gpclr0 ≠ phys_gpset0 := by decide
    rw [dma_run, if_neg n1]
    simp only [n2, s2, s3]
    cases k with
    | pos_pad up =>
      cases up
      · simp [cb_fields, hpos, hrest, pins_exec, g]
      · simp [cb_fields, hpos, hrest, pins_exec]
    | neg_pad up =>
      cases up
      · simp [cb_fields, hneg, hrest, pins_exec]
      · simp [cb_fields, hneg, hrest, pins_exec, g]
    | delay =>
      simp [cb_fields, hrest, pins_exec, f1, f2]
/-- C17: for the chain of every slot `ts < 16` and symbol `s` that `init_ctrl_data` compiles,
whatever the 3200 drive decisions `us ts s` of each chain are: the engine, started at
`bs.physaddr` with any pin word `pins` and enough fuel for the CBs of the chain, reading
memory through a translation `bus_to_virt` that inverts the page map on the CBs and on the
two sample words, stops after exactly 3200 delay CBs; during the `i`-th delay the pin
`GPIO_POS_NUM = 17` is at level `u_i` and the pin `GPIO_NEG_NUM = 18` at the opposite level;
these are the levels of the naive chain `naive_cbs`, which has the two GPIO CBs and the delay
CB for every sub-sample. -/
theorem omitted_gpio_sound (vb : Nat) (page_map phys_info : Nat → page_map_t) (delay_hw : Nat)
    (us : Nat → Sym → List Bool) (mem : Nat → Nat) (bus_to_virt : Nat → Nat)
    (h : arena_ok vb phys_info) (hlen : ∀ ts s, (us ts s).length = BS_SAMPLES)
    (hcb : ∀ o, o % 32 = 0 → o < ARENA → cb_offset_to_phys phys_info o ≠ 0 ∧
      bus_to_virt (cb_offset_to_phys phys_info o) = cb_offset_to_virt phys_info o)
    (hpos : bus_to_virt (mem_virt_to_phys page_map (NUM_PAGES_CBS * PAGE_SIZE)) = vb + ARENA)
    (hneg : bus_to_virt (mem_virt_to_phys page_map (NUM_PAGES_CBS * PAGE_SIZE + 4)) =
      vb + ARENA + 4)
    (ts : Nat) (s : Sym) (hts : ts < TS_COUNT) (pins fuel : Nat)
    (hfuel : chain_len (us ts s) ≤ fuel) :
    (dma_run (init_ctrl_cbs vb page_map phys_info delay_hw us mem).mem bus_to_virt
      (ctl_env page_map phys_info delay_hw).phys_fifo_addr fuel
      (((init_ctrl_cbs vb page_map phys_info delay_hw us mem).ts_info ts).bs s).physaddr
      pins).length = 3200 ∧
    (dma_run (init_ctrl_cbs vb page_map phys_info delay_hw us mem).mem bus_to_virt
      (ctl_env page_map phys_info delay_hw).phys_fifo_addr fuel
      (((init_ctrl_cbs vb page_map phys_info delay_hw us mem).ts_info ts).bs s).physaddr
      pins).map pin_levels = (us ts s).map (fun u => (u, !u)) ∧
    (dma_run (init_ctrl_cbs vb page_map phys_info delay_hw us mem).mem bus_to_virt
      (ctl_env page_map phys_info delay_hw).phys_fifo_addr fuel
      (((init_ctrl_cbs vb page_map phys_info delay_hw us mem).ts_info ts).bs s).physaddr
      pins).map pin_levels = (pins_exec (naive_cbs (us ts s)) pins).map pin_levels := by
  obtain ⟨-, a2, a3, a4⟩ := init_ctrl_cbs_spec page_map phys_info delay_hw us mem h hlen
  obtain ⟨-, b⟩ := a2 ts hts
  obtain ⟨c1, c2, d1, -, d3, d4⟩ := b s
  have hm := slot_start_mono us (15 - ts) (ts + 1)
  have ha := slot_start_arena us hlen
  rw [TS_COUNT_eq] at hts ha
  rw [show ts + 1 + (15 - ts) = 16 by omega] at hm
  have hne : chain_cbs 0 false (us ts s) ≠ [] := List.length_pos.mp c1
  have hrun := dma_run_chain (ctl_env page_map phys_info delay_hw)
    (init_ctrl_cbs vb page_map phys_info delay_hw us mem).mem bus_to_virt hcb
    (by
      rw [← a3]
      exact congrArg _ hpos)
    (by
      rw [← a4]
      exact congrArg _ hneg)
    (chain_cbs 0 false (us ts s)) (chain_start us ts s) pins fuel hne
    (chain_start_mod us ts s) (by unfold chain_len at c2; omega) d3 d4 hfuel
  rw [d1]
  rw [hrun]
  have hlv := pins_exec_chain (us ts s) pins
  refine ⟨?_, hlv, ?_⟩
  · have := congrArg List.length hlv
    rw [List.length_map, List.length_map, hlen ts s, BS_SAMPLES_eq] at this
    exact this
  · rw [hlv, pins_exec_naive]

theorem example_bus_to_virt_spec :
    (∀ o, o % 32 = 0 → o < ARENA → cb_offset_to_phys example_page_map o ≠ 0 ∧
      example_bus_to_virt (cb_offset_to_phys example_page_map o) =
        cb_offset_to_virt example_page_map o) ∧
    example_bus_to_virt (mem_virt_to_phys example_page_map (NUM_PAGES_CBS * PAGE_SIZE)) =
      example_virtbase + ARENA ∧
    example_bus_to_virt (mem_virt_to_phys example_page_map (NUM_PAGES_CBS * PAGE_SIZE + 4)) =
      example_virtbase + ARENA + 4 := by
  refine ⟨?_, by decide, by decide⟩
  intro o _ ho
  rw [ARENA_eq] at ho
  simp only [cb_offset_to_phys, cb_offset_to_virt, example_page_map, example_bus_to_virt,
    example_virtbase, PAGE_SIZE, PAGE_SHIFT, Nat.shiftRight_eq_div_pow]
  omega

theorem omitted_gpio_sound_witness :
    arena_ok example_virtbase example_page_map ∧
    chain_len (example_us 0 .SYM_L) ≤ 9600 ∧
    (dma_run (init_ctrl_cbs example_virtbase example_page_map example_page_map DELAY_VIA_PWM
        example_us (fun _ => 0)).mem example_bus_to_virt
      (ctl_env example_page_map example_page_map DELAY_VIA_PWM).phys_fifo_addr 9600
      (((init_ctrl_cbs example_virtbase example_page_map example_page_map DELAY_VIA_PWM
        example_us (fun _ => 0)).ts_info 0).bs .SYM_L).physaddr 0).length = 3200 :=
  have hfuel : chain_len (example_us 0 .SYM_L) ≤ 9600 := by
    have := (chain_len_bounds _ (example_us_length 0 .SYM_L)).2.2.2.2
    rw [BS_SAMPLES_eq] at this
    exact this
  ⟨example_arena_ok, hfuel,
    (omitted_gpio_sound example_virtbase example_page_map example_page_map DELAY_VIA_PWM
      example_us (fun _ => 0) example_bus_to_virt example_arena_ok example_us_length
      example_bus_to_virt_spec.1 example_bus_to_virt_spec.2.1 example_bus_to_virt_spec.2.2
      0 .SYM_L (by decide) 0 9600 hfuel).1⟩

/-! ## C22: the input ring buffer -/

theorem buf_read_inv (g : GoState) (data : List (Fin 256)) (h : ring_inv g)
    (hok : act_ok g (.read data) = true) :
    ring_inv (buf_read data g) ∧ g.sendwrite + data.length ≤ SENDSIZE ∧
    (∀ i, g.sendwrite ≤ i → i < g.sendwrite + data.length →
      ∀ j : Nat, (j : Int) < g.sendcount → i ≠ (g.sendread + j) % SENDSIZE) := by
  obtain ⟨h1, h2, h3, h4, h5⟩ := h
  simp only [act_ok, decide_eq_true_eq, read_max, SENDSIZE] at hok
  obtain ⟨c1, c2, c3⟩ := hok
  have hlen : g.sendwrite + data.length ≤ 128 ∧ g.sendcount + data.length ≤ 128 := by
    split_ifs at c3 <;> constructor <;> omega
  refine ⟨?_, by simp only [SENDSIZE]; omega, ?_⟩
  · simp only [ring_inv, buf_read, SENDSIZE]
    refine ⟨by omega, by omega, h3, ?_, ?_⟩
    · split_ifs <;> omega
    · split_ifs with hw
      · simp only [Nat.cast_zero]
        omega
      · push_cast
        omega
  · intro i hi1 hi2 j hj
    simp only [SENDSIZE]
    omega

theorem fsm_step_inv (ot : Int) (g : GoState) (h : ring_inv g) : ring_inv (fsm_step ot g) := by
  obtain ⟨h1, h2, h3, h4, h5⟩ := h
  unfold fsm_step
  split
  · exact ⟨h1, h2, h3, h4, h5⟩
  · split_ifs with hc hr
    · simp only [ring_inv, SENDSIZE] at hr ⊢
      refine ⟨by omega, by omega, by omega, h4, ?_⟩
      simp only [Nat.cast_zero]
      omega
    · simp only [ring_inv, SENDSIZE] at hr ⊢
      refine ⟨by omega, by omega, by omega, h4, ?_⟩
      push_cast
      omega
    · exact ⟨h1, h2, h3, h4, h5⟩
  · split_ifs <;> exact ⟨h1, h2, h3, h4, h5⟩
  · exact ⟨h1, h2, h3, h4, h5⟩
  · split_ifs <;> exact ⟨h1, h2, h3, h4, h5⟩

theorem act_step_inv (ot : Int) (g : GoState) (a : Act) (h : ring_inv g)
    (hok : act_ok g a = true) : ring_inv (act_step ot a g) := by
  cases a with
  | fsm => exact fsm_step_inv ot g h
  | send => exact h
  | read data => exact (buf_read_inv g data h hok).1
theorem buf_read_pending (g : GoState) (data : List (Fin 256)) (h : ring_inv g)
    (hok : act_ok g (.read data) = true) :
    sendbuf_pending (buf_read data g) = sendbuf_pending g ++ data := by
  obtain ⟨-, hlen, hdis⟩ := buf_read_inv g data h hok
  obtain ⟨h1, h2, h3, h4, h5⟩ := h
  obtain ⟨c, hc⟩ : ∃ c : Nat, g.sendcount = (c : Int) := ⟨g.sendcount.toNat, by omega⟩
  simp only [SENDSIZE] at hlen hdis
  have hcnt : ((buf_read data g).sendcount).toNat = c + data.length := by
    simp only [buf_read, hc]
    omega
  have hc2 : g.sendcount.toNat = c := by omega
  apply List.ext_getElem
  · simp [sendbuf_pending, hcnt, hc2]
  · intro j hj1 hj2
    simp only [sendbuf_pending, List.length_map, List.length_range, hcnt] at hj1
    simp only [sendbuf_pending, List.getElem_map, List.getElem_range]
    by_cases hjc : j < c
    · rw [List.getElem_append_left (by simp [hc2, hjc])]
      simp only [List.getElem_map, List.getElem_range]
      have hne := hdis ((g.sendread + j) % 128)
      simp only [buf_read, SENDSIZE]
      by_cases hw : g.sendwrite ≤ (g.sendread + j) % 128
      · rw [if_pos hw]
        by_cases hlt : (g.sendread + j) % 128 < g.sendwrite + data.length
        · exact absurd rfl (hne hw hlt j (by omega))
        · rw [List.getD_eq_default _ _ (by omega)]
      · rw [if_neg hw]
    · rw [List.getElem_append_right (by simp [hc2]; omega)]
      simp only [List.length_map, List.length_range, hc2]
      have hidx : (g.sendread + j) % 128 = g.sendwrite + (j - c) := by omega
      simp only [buf_read, SENDSIZE, hidx]
      rw [if_pos (by omega), Nat.add_sub_cancel_left]
      exact List.getD_eq_getElem _ _ (by omega)

theorem fsm_step_pending (ot : Int) (g : GoState) (h : ring_inv g) :
    sendbuf_pending g = act_consumed g .fsm ++ sendbuf_pending (fsm_step ot g) := by
  obtain ⟨h1, h2, h3, h4, h5⟩ := h
  cases hs : g.state with
  | STATE_START => simp [fsm_step, act_consumed, hs, sendbuf_pending]
  | STATE_SEND =>
    by_cases hc : g.sendcount ≠ 0
    · obtain ⟨c, hc1⟩ : ∃ c : Nat, g.sendcount = ((c + 1 : Nat) : Int) :=
        ⟨g.sendcount.toNat - 1, by omega⟩
      have e1 : g.sendcount.toNat = c + 1 := by omega
      have e2 : (g.sendcount - 1).toNat = c := by omega
      simp only [fsm_step, act_consumed, hs, hc, ne_eq, not_false_eq_true, and_self, if_true,
        sendbuf_pending, e1, e2, List.singleton_append]
      rw [List.range_succ_eq_map, List.map_cons, List.map_map, Nat.add_zero]
      congr 1
      · congr 1
        simp only [SENDSIZE]
        omega
      · apply List.map_congr_left
        intro j _
        simp only [Function.comp, SENDSIZE]
        congr 1
        split_ifs <;> omega
    · simp [fsm_step, act_consumed, hs, hc, sendbuf_pending]
  | STATE_FILL =>
    simp only [fsm_step, act_consumed, hs, reduceCtorEq, false_and, if_false, List.nil_append]
    split_ifs <;> simp [sendbuf_pending]
  | STATE_STOP => simp [fsm_step, act_consumed, hs, sendbuf_pending]
  | STATE_IDLE =>
    simp only [fsm_step, act_consumed, hs, reduceCtorEq, false_and, if_false, List.nil_append]
    split_ifs <;> simp [sendbuf_pending]

theorem act_step_pending (ot : Int) (g : GoState) (a : Act) (h : ring_inv g)
    (hok : act_ok g a = true) :
    sendbuf_pending g ++ read_log [a] =
      act_consumed g a ++ sendbuf_pending (act_step ot a g) := by
  cases a with
  | fsm =>
    simp only [read_log, List.append_nil, act_step]
    exact fsm_step_pending ot g h
  | send => simp [read_log, act_consumed, act_step, sendbuf_pending]
  | read data =>
    simp only [read_log, List.append_nil, act_consumed, List.nil_append, act_step]
    exact (buf_read_pending g data h hok).symm
theorem read_log_cons (a : Act) (acts : List Act) :
    read_log (a :: acts) = read_log [a] ++ read_log acts := by
  cases a <;> simp [read_log]

theorem run_acts_spec (ot : Int) : ∀ (acts : List Act) (g : GoState), ring_inv g →
    acts_ok ot acts g = true →
    ring_inv (run_acts ot acts g) ∧
    sendbuf_pending g ++ read_log acts =
      consumed_log ot acts g ++ sendbuf_pending (run_acts ot acts g) := by
  intro acts
  induction acts with
  | nil => intro g h _; exact ⟨h, by simp [read_log, consumed_log, run_acts]⟩
  | cons a rest ih =>
    intro g h hok
    simp only [acts_ok, Bool.and_eq_true] at hok
    obtain ⟨i1, i2⟩ := ih (act_step ot a g) (act_step_inv ot g a h hok.1) hok.2
    refine ⟨i1, ?_⟩
    rw [read_log_cons, ← List.append_assoc, act_step_pending ot g a h hok.1, List.append_assoc,
      i2, consumed_log, run_acts, List.append_assoc]

theorem act_step_is_step (ot : Int) (g : GoState) (a : Act) (hok : act_ok g a = true) :
    Step ot g (act_step ot a g) := by
  cases a with
  | fsm => exact Step.fsm g (by simpa [act_ok] using hok)
  | send => exact Step.send g (by simpa [act_ok] using hok)
  | read data =>
    simp only [act_ok, decide_eq_true_eq] at hok
    exact Step.read g data hok.1 hok.2.1 hok.2.2

theorem acts_reach (ot : Int) : ∀ (acts : List Act) (g : GoState), acts_ok ot acts g = true →
    Relation.ReflTransGen (Step ot) g (run_acts ot acts g) := by
  intro acts
  induction acts with
  | nil => intro g _; exact Relation.ReflTransGen.refl
  | cons a rest ih =>
    intro g hok
    simp only [acts_ok, Bool.and_eq_true] at hok
    exact Relation.ReflTransGen.head (act_step_is_step ot g a hok.1) (ih _ hok.2)

theorem reach_acts (ot : Int) (g g1 : GoState) (h : Relation.ReflTransGen (Step ot) g g1) :
    ∃ acts, acts_ok ot acts g = true ∧ run_acts ot acts g = g1 := by
  induction h using Relation.ReflTransGen.head_induction_on with
  | refl => exact ⟨[], rfl, rfl⟩
  | head hstep _ ih =>
    obtain ⟨acts, h1, h2⟩ := ih
    cases hstep with
    | fsm hb => exact ⟨.fsm :: acts, by simp [acts_ok, act_ok, act_step, hb, h1], h2⟩
    | send hb => exact ⟨.send :: acts, by simp [acts_ok, act_ok, act_step, hb, h1], h2⟩
    | read data hc hl hm =>
      exact ⟨.read data :: acts, by simp [acts_ok, act_ok, act_step, hc, hl, hm, h1], h2⟩

/-- C22: from `sendread = sendwrite = sendcount = 0`, after any sequence `acts` of reads
(each of `1 <= ss <= n` bytes, `n = min(128 - sendcount, 128 - sendwrite)`, while
`sendcount < 128`), passes of the state machine and shifts, each taken under its condition:
`0 <= sendcount <= 128`, `sendread <= 127`, `sendwrite <= 127` and
`sendwrite = (sendread + sendcount) mod 128`; a read that the code may do next stores inside
`sendbuf[0..127]`, at no index of a byte not yet consumed, and leaves those bytes as they
are; and the bytes read so far are the bytes looked up in `varicode_table` so far, in the
same order, followed by the bytes still in the buffer. -/
theorem ring_buffer_fifo (option_timeout : Int) (g0 : GoState) (acts : List Act)
    (hr : g0.sendread = 0) (hw : g0.sendwrite = 0) (hc : g0.sendcount = 0)
    (hok : acts_ok option_timeout acts g0 = true) :
    (0 ≤ (run_acts option_timeout acts g0).sendcount ∧
      (run_acts option_timeout acts g0).sendcount ≤ 128 ∧
      (run_acts option_timeout acts g0).sendread ≤ 127 ∧
      (run_acts option_timeout acts g0).sendwrite ≤ 127 ∧
      ((run_acts option_timeout acts g0).sendwrite : Int) =
        (((run_acts option_timeout acts g0).sendread : Int) +
          (run_acts option_timeout acts g0).sendcount) % 128) ∧
    (∀ data, act_ok (run_acts option_timeout acts g0) (.read data) = true →
      (run_acts option_timeout acts g0).sendwrite + data.length ≤ SENDSIZE ∧
      (∀ i, (run_acts option_timeout acts g0).sendwrite ≤ i →
        i < (run_acts option_timeout acts g0).sendwrite + data.length →
        ∀ j : Nat, (j : Int) < (run_acts option_timeout acts g0).sendcount →
          i ≠ ((run_acts option_timeout acts g0).sendread + j) % SENDSIZE) ∧
      (∀ j : Nat, (j : Int) < (run_acts option_timeout acts g0).sendcount →
        (buf_read data (run_acts option_timeout acts g0)).sendbuf
            (((run_acts option_timeout acts g0).sendread + j) % SENDSIZE) =
          (run_acts option_timeout acts g0).sendbuf
            (((run_acts option_timeout acts g0).sendread + j) % SENDSIZE)) ∧
      (∀ i, SENDSIZE ≤ i → (buf_read data (run_acts option_timeout acts g0)).sendbuf i =
        (run_acts option_timeout acts g0).sendbuf i)) ∧
    read_log acts = consumed_log option_timeout acts g0 ++
      sendbuf_pending (run_acts option_timeout acts g0) := by
  have h0 : ring_inv g0 := by
    simp only [ring_inv, hr, hw, hc]
    decide
  obtain ⟨h1, h2⟩ := run_acts_spec option_timeout acts g0 h0 hok
  have hp : sendbuf_pending g0 = [] := by simp [sendbuf_pending, hc]
  rw [hp, List.nil_append] at h2
  refine ⟨h1, ?_, h2⟩
  generalize run_acts option_timeout acts g0 = g at h1
  intro data hd
  obtain ⟨-, b2, b3⟩ := buf_read_inv g data h1 hd
  refine ⟨b2, b3, ?_, ?_⟩
  · intro j hj
    simp only [buf_read]
    by_cases hwi : g.sendwrite ≤ (g.sendread + j) % SENDSIZE
    · rw [if_pos hwi]
      by_cases hlt : (g.sendread + j) % SENDSIZE < g.sendwrite + data.length
      · exact absurd rfl (b3 _ hwi hlt j hj)
      · rw [List.getD_eq_default _ _ (by omega)]
    · rw [if_neg hwi]
  · intro i hi
    simp only [buf_read]
    split_ifs
    · rw [List.getD_eq_default _ _ (by omega)]
    · rfl

theorem ring_buffer_fifo_witness :
    acts_ok 0 example_acts (example_go 0 0) = true ∧
    consumed_log 0 example_acts (example_go 0 0) = [0x65] ∧
    read_log example_acts = consumed_log 0 example_acts (example_go 0 0) ++
      sendbuf_pending (run_acts 0 example_acts (example_go 0 0)) :=
  ⟨by decide, by decide,
    (ring_buffer_fifo 0 (example_go 0 0) example_acts rfl rfl rfl (by decide)).2.2⟩

/-! ## C21: the path of the enqueued chains -/

theorem tx_sym_enqueue_list_snoc : ∀ (ss : List Sym) (s : Sym) (e : Engine),
    tx_sym_enqueue_list (ss ++ [s]) e = tx_sym_enqueue s (tx_sym_enqueue_list ss e) := by
  intro ss
  induction ss with
  | nil => intro s e; rfl
  | cons x rest ih => intro s e; exact ih s (tx_sym_enqueue x e)

theorem tx_sym_enqueue_first (s : Sym) (e : Engine) (hp : e.ts_last_cbp = 0) :
    (tx_sym_enqueue s e).ts_info = e.ts_info ∧
    (tx_sym_enqueue s e).ts_last = 0 ∧
    (tx_sym_enqueue s e).ts_last_cbp = ((e.ts_info 0).bs s).cb_last ∧
    (tx_sym_enqueue s e).ts_last_sym = s ∧
    (tx_sym_enqueue s e).mem (((e.ts_info 0).bs s).cb_last + CB_NEXT) = 0 ∧
    (∀ a, a ≠ ((e.ts_info 0).bs s).cb_last + CB_NEXT → (tx_sym_enqueue s e).mem a = e.mem a) := by
  refine ⟨rfl, by simp [tx_sym_enqueue, hp], by simp [tx_sym_enqueue, hp], rfl, ?_, ?_⟩
  · simp [tx_sym_enqueue, hp, out32_same]
  · intro a h1
    simp [tx_sym_enqueue, hp, out32_other _ _ _ _ h1]

theorem tx_sym_enqueue_next (s : Sym) (e : Engine) (hp : e.ts_last_cbp ≠ 0)
    (hd : e.ts_last_cbp ≠ ((e.ts_info ((e.ts_last + 1) % 16)).bs s).cb_last) :
    (tx_sym_enqueue s e).ts_info = e.ts_info ∧
    (tx_sym_enqueue s e).ts_last = (e.ts_last + 1) % 16 ∧
    (tx_sym_enqueue s e).ts_last_cbp = ((e.ts_info ((e.ts_last + 1) % 16)).bs s).cb_last ∧
    (tx_sym_enqueue s e).ts_last_sym = s ∧
    (tx_sym_enqueue s e).mem (((e.ts_info ((e.ts_last + 1) % 16)).bs s).cb_last + CB_NEXT) = 0 ∧
    (tx_sym_enqueue s e).mem (e.ts_last_cbp + CB_NEXT) =
      ((e.ts_info ((e.ts_last + 1) % 16)).bs s).physaddr ∧
    (∀ a, a ≠ ((e.ts_info ((e.ts_last + 1) % 16)).bs s).cb_last + CB_NEXT →
      a ≠ e.ts_last_cbp + CB_NEXT → (tx_sym_enqueue s e).mem a = e.mem a) := by
  have hd2 : ((e.ts_info ((e.ts_last + 1) % 16)).bs s).cb_last + CB_NEXT ≠
      e.ts_last_cbp + CB_NEXT := fun h => hd (Nat.add_right_cancel h).symm
  refine ⟨rfl, by simp [tx_sym_enqueue, hp, TS_COUNT_eq], by simp [tx_sym_enqueue, hp, TS_COUNT_eq],
    rfl, ?_, ?_, ?_⟩
  · simp [tx_sym_enqueue, hp, TS_COUNT_eq, out32_other _ _ _ _ hd2, out32_same]
  · simp [tx_sym_enqueue, hp, TS_COUNT_eq, out32_same]
  · intro a h1 h2
    simp [tx_sym_enqueue, hp, TS_COUNT_eq, out32_other _ _ _ _ h1, out32_other _ _ _ _ h2]

theorem enqueue_list_links (e0 : Engine) (h0 : e0.ts_last_cbp = 0)
    (hne : ∀ t s, t < 16 → ((e0.ts_info t).bs s).cb_last ≠ 0)
    (hdist : ∀ t s t1 s1, t < 16 → t1 < 16 → t ≠ t1 →
      ((e0.ts_info t).bs s).cb_last ≠ ((e0.ts_info t1).bs s1).cb_last) :
    ∀ ss : List Sym, ss ≠ [] →
    (tx_sym_enqueue_list ss e0).ts_info = e0.ts_info ∧
    (tx_sym_enqueue_list ss e0).ts_last = (ss.length - 1) % 16 ∧
    (∀ s, ss[ss.length - 1]? = some s →
      (tx_sym_enqueue_list ss e0).ts_last_cbp =
        ((e0.ts_info ((ss.length - 1) % 16)).bs s).cb_last ∧
      (tx_sym_enqueue_list ss e0).ts_last_sym = s ∧
      (tx_sym_enqueue_list ss e0).mem
        (((e0.ts_info ((ss.length - 1) % 16)).bs s).cb_last + CB_NEXT) = 0) ∧
    (∀ k s s1, ss[k]? = some s → ss[k + 1]? = some s1 → ss.length ≤ k + 16 →
      (tx_sym_enqueue_list ss e0).mem (((e0.ts_info (k % 16)).bs s).cb_last + CB_NEXT) =
        ((e0.ts_info ((k + 1) % 16)).bs s1).physaddr) ∧
    (∀ a, (∀ t s, t < 16 → a ≠ ((e0.ts_info t).bs s).cb_last + CB_NEXT) →
      (tx_sym_enqueue_list ss e0).mem a = e0.mem a) := by
  intro ss
  induction ss using List.reverseRecOn with
  | nil => intro h; exact absurd rfl h
  | append_singleton ss s ih =>
    intro _
    rw [tx_sym_enqueue_list_snoc]
    have hlen : (ss ++ [s]).length = ss.length + 1 := by simp
    have hlast : (ss ++ [s])[ss.length]? = some s := by simp
    by_cases hss : ss = []
    · subst hss
      obtain ⟨f1, f2, f3, f4, f5, f6⟩ := tx_sym_enqueue_first s e0 h0
      simp only [List.nil_append, List.length_singleton, Nat.sub_self, Nat.zero_mod,
        tx_sym_enqueue_list]
      refine ⟨f1, f2, ?_, ?_, ?_⟩
      · intro s1 hs1
        simp only [List.getElem?_cons_zero, Option.some.injEq] at hs1
        subst hs1
        exact ⟨f3, f4, f5⟩
      · intro k s1 s2 _ h2 _
        simp at h2
      · intro a ha
        exact f6 a (ha 0 s (by decide))
    · obtain ⟨i1, i2, i3, i4, i5⟩ := ih hss
      have hpos : 0 < ss.length := List.length_pos.mpr hss
      obtain ⟨sl, hsl⟩ : ∃ sl, ss[ss.length - 1]? = some sl :=
        ⟨ss[ss.length - 1], List.getElem?_eq_getElem (by omega)⟩
      obtain ⟨j1, j2, j3⟩ := i3 sl hsl
      have hslot : ((ss.length - 1) % 16 + 1) % 16 = ss.length % 16 := by omega
      have hp : (tx_sym_enqueue_list ss e0).ts_last_cbp ≠ 0 := by
        rw [j1]; exact hne _ _ (by omega)
      have hd : (tx_sym_enqueue_list ss e0).ts_last_cbp ≠
          (((tx_sym_enqueue_list ss e0).ts_info
            (((tx_sym_enqueue_list ss e0).ts_last + 1) % 16)).bs s).cb_last := by
        rw [j1, i1, i2, hslot]
        exact hdist _ _ _ _ (by omega) (by omega) (by omega)
      obtain ⟨f1, f2, f3, f4, f5, f6, f7⟩ :=
        tx_sym_enqueue_next s (tx_sym_enqueue_list ss e0) hp hd
      simp only [i1, i2, hslot, j1] at f2 f3 f5 f6 f7
      rw [hlen, Nat.add_sub_cancel]
      refine ⟨f1.trans i1, f2, ?_, ?_, ?_⟩
      · intro s1 hs1
        rw [hlast, Option.some.injEq] at hs1
        subst hs1
        exact ⟨f3, f4, f5⟩
      · intro k s1 s2 h1 h2 hk
        have hk1 : k + 1 < ss.length + 1 := by
          by_contra hcon
          rw [List.getElem?_eq_none (by rw [hlen]; omega)] at h2
          exact Option.noConfusion h2
        by_cases hkl : k + 1 = ss.length
        · have hk0 : k = ss.length - 1 := by omega
          rw [hkl, hlast, Option.some.injEq] at h2
          rw [List.getElem?_append_left (by omega), hk0, hsl, Option.some.injEq] at h1
          subst h1 h2
          rw [hk0, Nat.sub_add_cancel hpos]
          exact f6
        · rw [List.getElem?_append_left (by omega)] at h1 h2
          have hold := i4 k s1 s2 h1 h2 (by omega)
          rw [← hold]
          refine f7 _ ?_ ?_
          · intro heq
            exact hdist (k % 16) s1 (ss.length % 16) s (Nat.mod_lt _ (by decide))
              (Nat.mod_lt _ (by decide)) (by omega) (Nat.add_right_cancel heq)
          · intro heq
            exact hdist (k % 16) s1 ((ss.length - 1) % 16) sl (Nat.mod_lt _ (by decide))
              (Nat.mod_lt _ (by decide)) (by omega) (Nat.add_right_cancel heq)
      · intro a ha
        rw [f7 a (ha _ _ (Nat.mod_lt _ (by decide))) (ha _ _ (Nat.mod_lt _ (by decide)))]
        exact i5 a ha
theorem chain_range (us : Nat → Sym → List Bool)
    (hlen : ∀ ts s, (us ts s).length = BS_SAMPLES) (t : Nat) (s : Sym) (ht : t ≤ 15) :
    slot_start us t ≤ chain_start us t s ∧ 0 < chain_len (us t s) ∧
    chain_start us t s + 32 * chain_len (us t s) ≤ slot_start us (t + 1) ∧
    slot_start us (t + 1) ≤ ARENA := by
  have hm := slot_start_mono us (15 - t) (t + 1)
  have ha := slot_start_arena us hlen
  rw [TS_COUNT_eq] at ha
  rw [show t + 1 + (15 - t) = 16 by omega] at hm
  have hpos := (chain_len_bounds (us t s) (hlen t s)).2.2.2.1
  rw [BS_SAMPLES_eq] at hpos
  refine ⟨by unfold chain_start; omega, by omega, ?_, by omega⟩
  rw [slot_start_succ]
  cases s <;> simp only [chain_start, syms_cbs, sym_offset, reduceCtorEq, if_true, if_false] <;>
    omega

theorem chain_ranges_disjoint (us : Nat → Sym → List Bool)
    (hlen : ∀ ts s, (us ts s).length = BS_SAMPLES) (t t1 : Nat) (s s1 : Sym) (ht : t ≤ 15)
    (ht1 : t1 ≤ 15) (hne : t ≠ t1 ∨ s ≠ s1) :
    chain_start us t s + 32 * chain_len (us t s) ≤ chain_start us t1 s1 ∨
    chain_start us t1 s1 + 32 * chain_len (us t1 s1) ≤ chain_start us t s := by
  obtain ⟨a1, a2, a3, a4⟩ := chain_range us hlen t s ht
  obtain ⟨b1, b2, b3, b4⟩ := chain_range us hlen t1 s1 ht1
  rcases Nat.lt_trichotomy t t1 with hlt | heq | hgt
  · have := slot_start_mono us (t1 - (t + 1)) (t + 1)
    rw [show t + 1 + (t1 - (t + 1)) = t1 by omega] at this
    left; omega
  · subst heq
    have hs : s ≠ s1 := by
      rcases hne with h | h
      · exact absurd rfl h
      · exact h
    cases s <;> cases s1 <;>
      first
      | exact absurd rfl hs
      | (simp only [chain_start, sym_offset, reduceCtorEq, if_true, if_false]; omega)
  · have := slot_start_mono us (t - (t1 + 1)) (t1 + 1)
    rw [show t1 + 1 + (t - (t1 + 1)) = t by omega] at this
    right; omega

theorem fresh_tails {vb : Nat} (page_map phys_info : Nat → page_map_t) (delay_hw : Nat)
    (us : Nat → Sym → List Bool) (mem : Nat → Nat) (h : arena_ok vb phys_info)
    (hlen : ∀ ts s, (us ts s).length = BS_SAMPLES) :
    (∀ t s, t < 16 →
      (((init_ctrl_cbs vb page_map phys_info delay_hw us mem).ts_info t).bs s).cb_last =
        cb_offset_to_virt phys_info (chain_start us t s + 32 * (chain_len (us t s) - 1))) ∧
    (∀ t s, t < 16 →
      (((init_ctrl_cbs vb page_map phys_info delay_hw us mem).ts_info t).bs s).cb_last ≠ 0) ∧
    (∀ t s t1 s1, t < 16 → t1 < 16 → t ≠ t1 ∨ s ≠ s1 →
      (((init_ctrl_cbs vb page_map phys_info delay_hw us mem).ts_info t).bs s).cb_last ≠
        (((init_ctrl_cbs vb page_map phys_info delay_hw us mem).ts_info t1).bs s1).cb_last) := by
  obtain ⟨-, a2, -, -⟩ := init_ctrl_cbs_spec page_map phys_info delay_hw us mem h hlen
  have htail : ∀ t s, t < 16 →
      (((init_ctrl_cbs vb page_map phys_info delay_hw us mem).ts_info t).bs s).cb_last =
        cb_offset_to_virt phys_info (chain_start us t s + 32 * (chain_len (us t s) - 1)) := by
    intro t s ht
    exact ((a2 t (by rw [TS_COUNT_eq]; exact ht)).2 s).2.2.2.1
  refine ⟨htail, ?_, ?_⟩
  · intro t s ht
    rw [htail t s ht]
    obtain ⟨a1, a2, a3, a4⟩ := chain_range us hlen t s (by omega)
    have hmod := chain_start_mod us t s
    have := (cb_offset_to_virt_range h (chain_start us t s + 32 * (chain_len (us t s) - 1))
      (by omega) (by omega)).1
    omega
  · intro t s t1 s1 ht ht1 hne
    rw [htail t s ht, htail t1 s1 ht1]
    obtain ⟨a1, a2, a3, a4⟩ := chain_range us hlen t s (by omega)
    obtain ⟨b1, b2, b3, b4⟩ := chain_range us hlen t1 s1 (by omega)
    have hmod := chain_start_mod us t s
    have hmod1 := chain_start_mod us t1 s1
    have hdj := chain_ranges_disjoint us hlen t t1 s s1 (by omega) (by omega) hne
    have := cb_offset_to_virt_sep h (chain_start us t s + 32 * (chain_len (us t s) - 1))
      (chain_start us t1 s1 + 32 * (chain_len (us t1 s1) - 1)) (by omega) (by omega)
      (by omega) (by omega) (by omega)
    omega

theorem chain_holds_off_tails {vb : Nat} (env : bs_env) (h : arena_ok vb env.phys_info)
    (us : Nat → Sym → List Bool) (hlen : ∀ ts s, (us ts s).length = BS_SAMPLES)
    (m1 m2 : Nat → Nat)
    (hm : ∀ a, (∀ t s, t < 16 → a ≠ cb_offset_to_virt env.phys_info
        (chain_start us t s + 32 * (chain_len (us t s) - 1)) + CB_NEXT) → m2 a = m1 a)
    (t : Nat) (s : Sym) (ht : t < 16)
    (hc : chain_holds env m1 (chain_start us t s) (chain_cbs 0 false (us t s))) :
    chain_holds env m2 (chain_start us t s) (chain_cbs 0 false (us t s)) := by
  intro j k hjk
  have hj : j < chain_len (us t s) := by
    rcases List.getElem?_eq_some_iff.mp hjk with ⟨hj, -⟩
    exact hj
  obtain ⟨c1, c2⟩ := hc j k hjk
  obtain ⟨a1, a2, a3, a4⟩ := chain_range us hlen t s (by omega)
  have hmod := chain_start_mod us t s
  have hfield : ∀ f, f < 20 → m2 (cb_offset_to_virt env.phys_info (chain_start us t s + 32 * j) + f) =
      m1 (cb_offset_to_virt env.phys_info (chain_start us t s + 32 * j) + f) := by
    intro f hf
    apply hm
    intro t1 s1 ht1
    obtain ⟨b1, b2, b3, b4⟩ := chain_range us hlen t1 s1 (by omega)
    have hmod1 := chain_start_mod us t1 s1
    by_cases heq : chain_start us t s + 32 * j =
        chain_start us t1 s1 + 32 * (chain_len (us t1 s1) - 1)
    · rw [heq]
      simp only [CB_NEXT]
      omega
    · have := cb_offset_to_virt_sep h (chain_start us t s + 32 * j)
        (chain_start us t1 s1 + 32 * (chain_len (us t1 s1) - 1)) (by omega) (by omega)
        (by omega) (by omega) heq
      simp only [CB_NEXT]
      omega
  refine ⟨cb_holds_congr env m1 m2 _ k hfield c1, fun hj1 => ?_⟩
  rw [← c2 hj1]
  apply hm
  intro t1 s1 ht1
  obtain ⟨b1, b2, b3, b4⟩ := chain_range us hlen t1 s1 (by omega)
  have hmod1 := chain_start_mod us t1 s1
  have hj2 : j + 1 < chain_len (us t s) := hj1
  have hne : chain_start us t s + 32 * j ≠
      chain_start us t1 s1 + 32 * (chain_len (us t1 s1) - 1) := by
    by_cases hsame : t = t1 ∧ s = s1
    · obtain ⟨e1, e2⟩ := hsame
      subst e1 e2
      omega
    · have hdj := chain_ranges_disjoint us hlen t t1 s s1 (by omega) (by omega)
        (by
          by_contra hcon
          push_neg at hcon
          exact hsame hcon)
      omega
  have := cb_offset_to_virt_sep h (chain_start us t s + 32 * j)
    (chain_start us t1 s1 + 32 * (chain_len (us t1 s1) - 1)) (by omega) (by omega)
    (by omega) (by omega) hne
  omega
theorem enqueue_path_links {vb : Nat} (page_map phys_info : Nat → page_map_t) (delay_hw : Nat)
    (us : Nat → Sym → List Bool) (mem : Nat → Nat) (h : arena_ok vb phys_info)
    (hlen : ∀ ts s, (us ts s).length = BS_SAMPLES) (e0 : Engine)
    (hti : e0.ts_info = (init_ctrl_cbs vb page_map phys_info delay_hw us mem).ts_info)
    (hmem : e0.mem = (init_ctrl_cbs vb page_map phys_info delay_hw us mem).mem)
    (ss : List Sym) (hss : ss ≠ []) :
    (tx_sym_enqueue_list ss { e0 with ts_last_cbp := 0 }).ts_info = e0.ts_info ∧
    (tx_sym_enqueue_list ss { e0 with ts_last_cbp := 0 }).ts_last = (ss.length - 1) % 16 ∧
    (∀ s, ss[ss.length - 1]? = some s →
      (tx_sym_enqueue_list ss { e0 with ts_last_cbp := 0 }).ts_last_cbp =
        ((e0.ts_info ((ss.length - 1) % 16)).bs s).cb_last ∧
      (tx_sym_enqueue_list ss { e0 with ts_last_cbp := 0 }).ts_last_sym = s ∧
      (tx_sym_enqueue_list ss { e0 with ts_last_cbp := 0 }).mem
        (((e0.ts_info ((ss.length - 1) % 16)).bs s).cb_last + CB_NEXT) = 0) ∧
    (∀ k s s1, ss[k]? = some s → ss[k + 1]? = some s1 → ss.length ≤ k + 16 →
      (tx_sym_enqueue_list ss { e0 with ts_last_cbp := 0 }).mem
          (((e0.ts_info (k % 16)).bs s).cb_last + CB_NEXT) =
        ((e0.ts_info ((k + 1) % 16)).bs s1).physaddr) ∧
    (∀ t s, t < 16 → chain_holds (ctl_env page_map phys_info delay_hw)
      (tx_sym_enqueue_list ss { e0 with ts_last_cbp := 0 }).mem (chain_start us t s)
      (chain_cbs 0 false (us t s))) := by
  obtain ⟨t1, t2, t3⟩ := fresh_tails page_map phys_info delay_hw us mem h hlen
  obtain ⟨-, a2, -, -⟩ := init_ctrl_cbs_spec page_map phys_info delay_hw us mem h hlen
  rw [← hti] at t1 t2 t3
  obtain ⟨b1, b2, b3, b4, b5⟩ := enqueue_list_links { e0 with ts_last_cbp := 0 } rfl t2
    (fun t s t' s' ht ht' hne => t3 t s t' s' ht ht' (Or.inl hne)) ss hss
  refine ⟨b1, b2, b3, b4, ?_⟩
  intro t s ht
  have henv : arena_ok vb (ctl_env page_map phys_info delay_hw).phys_info := h
  refine chain_holds_off_tails (ctl_env page_map phys_info delay_hw) henv us hlen e0.mem _ ?_
    t s ht ?_
  · intro a ha
    refine b5 a ?_
    intro t' s' ht' heq
    exact ha t' s' ht' (heq.trans (congrArg (fun x => x + CB_NEXT) (t1 t' s' ht')))
  · rw [hmem]
    exact ((a2 t (by rw [TS_COUNT_eq]; exact ht)).2 s).2.2.2.2.1

/-- C21: on the chains that `init_ctrl_data` compiled (slot table and CB memory of the
engine `e0`), starting from `ts_last_cbp = NULL`, after the calls `tx_sym_enqueue` for any
symbols `ss = s_0, ..., s_(n-1)`, `n >= 1`, with slot `k mod 16` for the call `k`: `next` of
the last CB of chain `(k mod 16, s_k)` is the bus address of the first CB of chain
`((k + 1) mod 16, s_(k+1))` for every `k` with `k + 1 < n` and `n <= k + 16`; `next` of the
last CB of the chain of the last call is 0 and `ts_last`, `ts_last_cbp`, `ts_last_sym` are
those of the last call; the CBs of every chain keep their fields and inner links. After the
16 enqueues of `H` in `init_hardware`: `ts_last = 15`, `ts_last_sym = H`, the tail of the
`H` chain of slot `t < 15` is linked to the start of the `H` chain of slot `t + 1`, and the
tail of slot 15 has `next = 0`. -/
theorem enqueue_path (vb : Nat) (page_map phys_info : Nat → page_map_t) (delay_hw : Nat)
    (us : Nat → Sym → List Bool) (mem : Nat → Nat) (h : arena_ok vb phys_info)
    (hlen : ∀ ts s, (us ts s).length = BS_SAMPLES) (e0 : Engine)
    (hti : e0.ts_info = (init_ctrl_cbs vb page_map phys_info delay_hw us mem).ts_info)
    (hmem : e0.mem = (init_ctrl_cbs vb page_map phys_info delay_hw us mem).mem) :
    (∀ ss : List Sym, ss ≠ [] →
      (tx_sym_enqueue_list ss { e0 with ts_last_cbp := 0 }).ts_last = (ss.length - 1) % 16 ∧
      (∀ s, ss[ss.length - 1]? = some s →
        (tx_sym_enqueue_list ss { e0 with ts_last_cbp := 0 }).ts_last_cbp =
          ((e0.ts_info ((ss.length - 1) % 16)).bs s).cb_last ∧
        (tx_sym_enqueue_list ss { e0 with ts_last_cbp := 0 }).ts_last_sym = s ∧
        (tx_sym_enqueue_list ss { e0 with ts_last_cbp := 0 }).mem
          (((e0.ts_info ((ss.length - 1) % 16)).bs s).cb_last + CB_NEXT) = 0) ∧
      (∀ k s s1, ss[k]? = some s → ss[k + 1]? = some s1 → ss.length ≤ k + 16 →
        (tx_sym_enqueue_list ss { e0 with ts_last_cbp := 0 }).mem
            (((e0.ts_info (k % 16)).bs s).cb_last + CB_NEXT) =
          ((e0.ts_info ((k + 1) % 16)).bs s1).physaddr) ∧
      (∀ t s, t < 16 → chain_holds (ctl_env page_map phys_info delay_hw)
        (tx_sym_enqueue_list ss { e0 with ts_last_cbp := 0 }).mem (chain_start us t s)
        (chain_cbs 0 false (us t s)))) ∧
    (init_hardware_enqueue e0).ts_last = 15 ∧
    (init_hardware_enqueue e0).ts_last_sym = .SYM_H ∧
    (∀ t, t < 15 →
      (init_hardware_enqueue e0).mem (((e0.ts_info t).bs .SYM_H).cb_last + CB_NEXT) =
        ((e0.ts_info (t + 1)).bs .SYM_H).physaddr) ∧
    (init_hardware_enqueue e0).mem (((e0.ts_info 15).bs .SYM_H).cb_last + CB_NEXT) = 0 := by
  have hgen := enqueue_path_links page_map phys_info delay_hw us mem h hlen e0 hti hmem
  refine ⟨fun ss hss => (hgen ss hss).2, ?_⟩
  have hrep : ∀ k, k < 16 → (List.replicate 16 Sym.SYM_H)[k]? = some Sym.SYM_H := by
    intro k hk
    rw [List.getElem?_replicate, if_pos hk]
  obtain ⟨-, c2, c3, c4, -⟩ := hgen (List.replicate 16 .SYM_H) (by decide)
  rw [List.length_replicate] at c2 c3 c4
  obtain ⟨-, d2, d3⟩ := c3 .SYM_H (hrep 15 (by decide))
  have hdef : init_hardware_enqueue e0 =
      tx_sym_enqueue_list (List.replicate 16 .SYM_H) { e0 with ts_last_cbp := 0 } := rfl
  rw [hdef]
  refine ⟨c2, d2, ?_, d3⟩
  intro t ht
  have := c4 t .SYM_H .SYM_H (hrep t (by omega)) (hrep (t + 1) (by omega)) (by omega)
  rw [Nat.mod_eq_of_lt (show t < 16 by omega),
    Nat.mod_eq_of_lt (show t + 1 < 16 by omega)] at this
  exact this

theorem fresh_engine_fields (c : cbs_t) :
    (fresh_engine c).ts_info = c.ts_info ∧ (fresh_engine c).mem = c.mem :=
  ⟨rfl, rfl⟩

theorem enqueue_path_witness :
    arena_ok example_virtbase example_page_map ∧
    (tx_sym_enqueue_list [.SYM_H, .SYM_LH]
        ⟨example_fresh_engine.ts_info, example_fresh_engine.ts_last, 0,
          example_fresh_engine.ts_last_sym, example_fresh_engine.mem⟩).mem
        (((example_fresh_engine.ts_info (0 % 16)).bs .SYM_H).cb_last + CB_NEXT) =
      ((example_fresh_engine.ts_info ((0 + 1) % 16)).bs .SYM_LH).physaddr ∧
    (init_hardware_enqueue example_fresh_engine).ts_last = 15 := by
  have hf := fresh_engine_fields (init_ctrl_cbs example_virtbase example_page_map
    example_page_map DELAY_VIA_PWM example_us (fun _ => 0))
  have hp := enqueue_path example_virtbase example_page_map example_page_map DELAY_VIA_PWM
    example_us (fun _ => 0) example_arena_ok example_us_length example_fresh_engine hf.1 hf.2
  refine ⟨example_arena_ok, ?_, hp.2.1⟩
  have h1 : ([.SYM_H, .SYM_LH] : List Sym)[0]? = some .SYM_H := rfl
  have h2 : ([.SYM_H, .SYM_LH] : List Sym)[0 + 1]? = some .SYM_LH := rfl
  have h3 : ([.SYM_H, .SYM_LH] : List Sym).length ≤ 0 + 16 := by decide
  exact (hp.1 [.SYM_H, .SYM_LH] (List.cons_ne_nil _ _)).2.2.1 0 .SYM_H .SYM_LH h1 h2 h3

/-! ## C10: one enqueue on the states that the program produces -/

/-- C10: let `e` be an engine state that the program produces with a non-null
`ts_last_cbp`: the slot table that `init_ctrl_data` compiled (CB memory is arbitrary),
followed by the calls `tx_sym_enqueue` for any symbols `ss`, at least one, from
`ts_last_cbp = NULL`. Then
`ts_last <= 15`, `ts_last_cbp` is not null, and for every symbol `s`, after
`tx_sym_enqueue(s)`: `ts_last` is advanced by one modulo 16; the last CB of the chain
`(ts_last', s)` has `next = 0`; the previous tail has `next` = the bus address of the first
CB of that chain; `ts_last_cbp` is the last CB of that chain; `ts_last_sym = s`; and no
other word of CB memory is changed. On the first enqueue, for any engine state with
`ts_last_cbp` null: `ts_last' = 0`, the new tail gets `next = 0`, `ts_last_cbp` and
`ts_last_sym` are set, and no other word changes (no splice write). -/
theorem tx_sym_enqueue_spec (vb : Nat) (page_map phys_info : Nat → page_map_t) (delay_hw : Nat)
    (us : Nat → Sym → List Bool) (mem : Nat → Nat) (h : arena_ok vb phys_info)
    (hlen : ∀ ts s, (us ts s).length = BS_SAMPLES) (e0 e : Engine)
    (hti : e0.ts_info = (init_ctrl_cbs vb page_map phys_info delay_hw us mem).ts_info)
    (ss : List Sym) (hss : ss ≠ [])
    (he : e = tx_sym_enqueue_list ss { e0 with ts_last_cbp := 0 }) (s : Sym) :
    (e.ts_last ≤ 15 ∧ e.ts_last_cbp ≠ 0 ∧
      (tx_sym_enqueue s e).ts_last = (e.ts_last + 1) % 16 ∧
      (tx_sym_enqueue s e).mem (((e.ts_info ((e.ts_last + 1) % 16)).bs s).cb_last + CB_NEXT)
        = 0 ∧
      (tx_sym_enqueue s e).mem (e.ts_last_cbp + CB_NEXT) =
        ((e.ts_info ((e.ts_last + 1) % 16)).bs s).physaddr ∧
      (tx_sym_enqueue s e).ts_last_cbp = ((e.ts_info ((e.ts_last + 1) % 16)).bs s).cb_last ∧
      (tx_sym_enqueue s e).ts_last_sym = s ∧
      (∀ a, a ≠ ((e.ts_info ((e.ts_last + 1) % 16)).bs s).cb_last + CB_NEXT →
        a ≠ e.ts_last_cbp + CB_NEXT → (tx_sym_enqueue s e).mem a = e.mem a)) ∧
    (∀ e1 : Engine, e1.ts_last_cbp = 0 →
      (tx_sym_enqueue s e1).ts_last = 0 ∧
      (tx_sym_enqueue s e1).mem (((e1.ts_info 0).bs s).cb_last + CB_NEXT) = 0 ∧
      (tx_sym_enqueue s e1).ts_last_cbp = ((e1.ts_info 0).bs s).cb_last ∧
      (tx_sym_enqueue s e1).ts_last_sym = s ∧
      (∀ a, a ≠ ((e1.ts_info 0).bs s).cb_last + CB_NEXT →
        (tx_sym_enqueue s e1).mem a = e1.mem a)) := by
  obtain ⟨-, t2, t3⟩ := fresh_tails page_map phys_info delay_hw us mem h hlen
  rw [← hti] at t2 t3
  obtain ⟨b1, b2, b3, -, -⟩ := enqueue_list_links { e0 with ts_last_cbp := 0 } rfl t2
    (fun t s t' s' ht ht' hne => t3 t s t' s' ht ht' (Or.inl hne)) ss hss
  rw [← he] at b1 b2 b3
  have hpos : 0 < ss.length := List.length_pos.mpr hss
  obtain ⟨sl, hsl⟩ : ∃ sl, ss[ss.length - 1]? = some sl :=
    ⟨ss[ss.length - 1], List.getElem?_eq_getElem (by omega)⟩
  obtain ⟨j1, -, -⟩ := b3 sl hsl
  have hi : e.ts_info = e0.ts_info := b1
  have hl : e.ts_last ≤ 15 := by rw [b2]; omega
  have hp : e.ts_last_cbp ≠ 0 := by
    rw [j1]; exact t2 _ _ (by omega)
  have hd : e.ts_last_cbp ≠ ((e.ts_info ((e.ts_last + 1) % 16)).bs s).cb_last := by
    rw [j1, hi, b2]
    exact t3 _ _ _ _ (by omega) (by omega) (Or.inl (by omega))
  obtain ⟨-, f2, f3, f4, f5, f6, f7⟩ := tx_sym_enqueue_next s e hp hd
  refine ⟨⟨hl, hp, f2, f5, f6, f3, f4, f7⟩, ?_⟩
  intro e1 h1
  obtain ⟨-, g2, g3, g4, g5, g6⟩ := tx_sym_enqueue_first s e1 h1
  exact ⟨g2, g5, g3, g4, g6⟩

theorem tx_sym_enqueue_spec_witness :
    arena_ok example_virtbase example_page_map ∧
    (tx_sym_enqueue .SYM_LH (tx_sym_enqueue_list [.SYM_H]
      ⟨example_fresh_engine.ts_info, example_fresh_engine.ts_last, 0,
        example_fresh_engine.ts_last_sym, example_fresh_engine.mem⟩)).ts_last =
      ((tx_sym_enqueue_list [.SYM_H]
        ⟨example_fresh_engine.ts_info, example_fresh_engine.ts_last, 0,
          example_fresh_engine.ts_last_sym, example_fresh_engine.mem⟩).ts_last + 1) % 16 := by
  have hf := fresh_engine_fields (init_ctrl_cbs example_virtbase example_page_map
    example_page_map DELAY_VIA_PWM example_us (fun _ => 0))
  have hp := tx_sym_enqueue_spec example_virtbase example_page_map example_page_map
    DELAY_VIA_PWM example_us (fun _ => 0) example_arena_ok example_us_length
    example_fresh_engine _ hf.1 [.SYM_H] (List.cons_ne_nil _ _) rfl .SYM_LH
  exact ⟨example_arena_ok, hp.1.2.2.1⟩

end Psk31
